import Mathlib

/-! dedup: duplicate-file detection pipeline

Shallow embedding of `main.go`: the walk callback, the size bucketing loop,
the CRC-32 hashing and grouping loop, the pruning loop with its statistics.
-/

namespace Dedup

/-- Record of one file (`type File struct`). `Size` is an `int64`. -/
structure File where
  Path : String
  Size : Int
  SizeHuman : String
  Duplicate : Bool
  CRC32Hash : String
deriving DecidableEq, Repr

/-- Counters of one run (`type Stats struct`); the two time fields are left out.
`SeenFiles`, `FilteredFiles`, `DuplicateFiles` are `uint64`, `WastedSpace` is `int64`. -/
structure Stats where
  SeenFiles : Nat
  FilteredFiles : Nat
  DuplicateFiles : Nat
  WastedSpace : Int
deriving DecidableEq, Repr

/-- Reduction of an integer to `uint64`. -/
def wrapUint64 (n : Nat) : Nat := n % 2 ^ 64

/-- Reduction of an integer to two's-complement `int64`. -/
def wrapInt64 (x : Int) : Int := (x + 2 ^ 63) % 2 ^ 64 - 2 ^ 63

/-! ## Walk callback (lines 68-92) -/

/-- A file-system entry as the walker presents it to the callback: the path
handed to the callback, and for a non-directory the outcome of `os.Stat`
(`none` when it fails, otherwise the size), for a directory its entries in
the order they are enumerated. An `unreadable` entry is a directory whose
reading fails: the walker calls the callback on it and then returns the
error, whatever it had read of the directory before. -/
inductive Entry where
  | file (osPathname : String) (stat : Option Int)
  | dir (osPathname : String) (children : List Entry)
  | unreadable (osPathname : String)

/-- The exclusion list `filter` of `main`. -/
def filter : List String := [".git", ".terraform", "node_modules"]

/-- `strings.HasSuffix(s, suffix)`. -/
def HasSuffix (s suffix : String) : Bool := suffix.data.isSuffixOf s.data

/-- The `for _, f := range filter` test at the head of the callback:
true when the callback returns `godirwalk.SkipThis`. -/
def skipThis (osPathname : String) : Bool :=
  filter.any (fun f => HasSuffix osPathname ("/" ++ f))

/-- State the callback closes over: the counters and the candidate slice. -/
structure WalkState where
  stat : Stats
  files : List File
deriving DecidableEq, Repr

/-- Body of the callback after the exclusion test, for a non-directory
whose `os.Stat` gave `st`. -/
def visitFile (byteCountSI : Int → String) (minFileSize : Int) (osPathname : String)
    (st : Option Int) (s : WalkState) : WalkState :=
  match st with
  | none => s
  | some size =>
    let s1 := { s with stat := { s.stat with SeenFiles := wrapUint64 (s.stat.SeenFiles + 1) } }
    if size > minFileSize then
      { s1 with files := s1.files ++
          [{ Path := osPathname, Size := size, SizeHuman := byteCountSI size,
             Duplicate := false, CRC32Hash := "" }] }
    else s1

/-- The callbacks of the walk: the callback is called on an entry; when it
returns `SkipThis` the entry is left, otherwise a directory that is read is
descended into. On a directory the callback itself changes nothing. -/
def walk (byteCountSI : Int → String) (minFileSize : Int) : Entry → WalkState → WalkState
  | .file p st, s => if skipThis p then s else visitFile byteCountSI minFileSize p st s
  | .dir p cs, s => if skipThis p then s else walkList byteCountSI minFileSize cs s
  | .unreadable _, s => s
where
  /-- The entries of one directory, in turn. -/
  walkList (byteCountSI : Int → String) (minFileSize : Int) : List Entry → WalkState → WalkState
  | [], s => s
  | c :: cs, s => walkList byteCountSI minFileSize cs (walk byteCountSI minFileSize c s)

/-- The recursive walk of the library with its errors: `none` when it
returns an error. No `ErrorCallback` is set, so the error of reading a
directory stops the walk and is handed up; a `SkipThis` of the callback is
not an error. -/
def walkEntry (byteCountSI : Int → String) (minFileSize : Int) :
    Entry → WalkState → Option WalkState
  | .file p st, s => some (if skipThis p then s else visitFile byteCountSI minFileSize p st s)
  | .dir p cs, s => if skipThis p then some s else walkEntries byteCountSI minFileSize cs s
  | .unreadable p, s => if skipThis p then some s else none
where
  /-- The entries of one directory, in turn, up to the first error. -/
  walkEntries (byteCountSI : Int → String) (minFileSize : Int) :
      List Entry → WalkState → Option WalkState
  | [], s => some s
  | c :: cs, s =>
    match walkEntry byteCountSI minFileSize c s with
    | none => none
    | some s1 => walkEntries byteCountSI minFileSize cs s1

/-- The call `godirwalk.Walk(dirname, ...)` on what `os.Lstat` finds at the
starting directory (`none` when it fails): an error, here `none`, when the
starting directory does not exist or is not a directory, and when the walk
returns one. -/
def Walk (byteCountSI : Int → String) (minFileSize : Int) :
    Option Entry → WalkState → Option WalkState
  | none, _ => none
  | some (.file _ _), _ => none
  | some (.dir p cs), s => walkEntry byteCountSI minFileSize (.dir p cs) s
  | some (.unreadable p), s => walkEntry byteCountSI minFileSize (.unreadable p) s

/-! ## Size bucketing loop (lines 105-128) -/

/-- The slice `files` and the working list `duplicateFiles`. -/
structure BucketState where
  files : List File
  duplicateFiles : List File
deriving DecidableEq, Repr

/-- One iteration of the inner loop at index `j`; the flag is `hasDuplicate`. -/
def innerStep (checkFile : File) (acc : BucketState × Bool) (j : Nat) : BucketState × Bool :=
  match acc.1.files[j]? with
  | none => acc
  | some f =>
    if f.Duplicate then acc
    else if f.Size = checkFile.Size then
      let f1 := { f with Duplicate := true }
      ({ files := acc.1.files.set j f1, duplicateFiles := acc.1.duplicateFiles ++ [f1] }, true)
    else acc

/-- The loop `for j := i + 1; j < l; j++`. -/
def innerLoop (checkFile : File) (i l : Nat) (s : BucketState) : BucketState × Bool :=
  (List.range' (i + 1) (l - (i + 1))).foldl (innerStep checkFile) (s, false)

/-- One iteration of the outer loop at index `i`. `checkFile` is a copy of
`files[i]`: its flag is set on the copy that is appended, not in `files`. -/
def outerStep (l : Nat) (s : BucketState) (i : Nat) : BucketState :=
  match s.files[i]? with
  | none => s
  | some checkFile =>
    if checkFile.Duplicate then s
    else
      let r := innerLoop checkFile i l s
      if r.2 then
        { r.1 with duplicateFiles := r.1.duplicateFiles ++ [{ checkFile with Duplicate := true }] }
      else r.1

/-- The loop `for i := 0; i < l; i++` with `l := len(files)`. -/
def bucketLoop (files : List File) : BucketState :=
  (List.range files.length).foldl (outerStep files.length) { files := files, duplicateFiles := [] }

/-! ## CRC-32 and hex encoding (lines 171-187) -/

/-- One byte. -/
abbrev Byte := Fin 256

/-- Entry `i` of the table `crc32.MakeTable(poly)`. -/
def tableEntry (poly : Nat) (i : Nat) : Nat :=
  (List.range 8).foldl (fun crc _ => if crc % 2 = 1 then (crc >>> 1) ^^^ poly else crc >>> 1) i

/-- The table-driven update of a running CRC by a block of bytes. -/
def crcUpdate (poly : Nat) (crc : Nat) (p : List Byte) : Nat :=
  (p.foldl (fun c v => tableEntry poly ((c % 256) ^^^ v.val) ^^^ (c >>> 8)) (crc ^^^ 0xffffffff))
    ^^^ 0xffffffff

/-- The four bytes `hash.Sum(nil)` appends: the CRC, big-endian. -/
def sumBytes (crc : Nat) : List Byte :=
  [Fin.ofNat (crc >>> 24), Fin.ofNat (crc >>> 16), Fin.ofNat (crc >>> 8), Fin.ofNat crc]

/-- The digit of `hex.EncodeToString` for a value below 16. -/
def hexDigit (n : Nat) : Char := "0123456789abcdef".data.getD n '0'

/-- `hex.EncodeToString`. -/
def hexEncode (bs : List Byte) : String :=
  String.mk (bs.flatMap (fun b => [hexDigit (b.val / 16), hexDigit (b.val % 16)]))

/-- `CRC32Hash`, over a file system that gives for a path its contents, or
`none` when `os.Open` or the copy fails. -/
def CRC32Hash (readFile : String → Option (List Byte)) (filePath : String) : Option String :=
  match readFile filePath with
  | none => none
  | some contents => some (hexEncode (sumBytes (crcUpdate 0xedb88320 0 contents)))

/-! ## Hash grouping loop (lines 130-145) -/

/-- The map `hm`, as its entries with pairwise distinct keys. -/
abbrev HashMap := List (String × List File)

/-- The read `hm[key]`. -/
def mapGet (hm : HashMap) (key : String) : Option (List File) := hm.lookup key

/-- The write `hm[key] = val`. -/
def mapSet (key : String) (val : List File) : HashMap → HashMap
  | [] => [(key, val)]
  | e :: rest => if e.1 = key then (key, val) :: rest else e :: mapSet key val rest

/-- The call `delete(hm, key)`. -/
def mapDelete (key : String) (hm : HashMap) : HashMap := hm.filter (fun e => e.1 ≠ key)

/-- One iteration of the hashing loop on the record `f`. -/
def hashStep (hash : String → Option String) (hm : HashMap) (f : File) : HashMap :=
  match hash f.Path with
  | none => hm
  | some h =>
    let f1 := { f with CRC32Hash := h }
    let val := match mapGet hm h with
      | some v => v
      | none => []
    mapSet h (val ++ [f1]) hm

/-- The loop `for index, _ := range duplicateFiles`. -/
def hashLoop (hash : String → Option String) (duplicateFiles : List File) : HashMap :=
  duplicateFiles.foldl (hashStep hash) []

/-! ## Pruning loop and statistics (lines 146-155) -/

/-- One iteration of `for key, slice := range hm`; `none` is the run-time
panic of `slice[0]` on an empty slice. -/
def pruneStep (acc : HashMap × Stats) (e : String × List File) : Option (HashMap × Stats) :=
  if e.2.length = 1 then some (mapDelete e.1 acc.1, acc.2)
  else
    match e.2[0]? with
    | none => none
    | some first =>
      some (acc.1,
        { acc.2 with
          DuplicateFiles := wrapUint64 (acc.2.DuplicateFiles + wrapUint64 e.2.length)
          WastedSpace := wrapInt64 (acc.2.WastedSpace +
            wrapInt64 (first.Size * wrapInt64 ((e.2.length : Int) - 1))) })

/-- The pruning loop over the entries in the order `order` in which the
`range` clause produces them. -/
def pruneLoop (order : List (String × List File)) (acc : HashMap × Stats) :
    Option (HashMap × Stats) :=
  order.foldlM pruneStep acc

/-! ## The run -/

/-- What `main` does not fix: the formatter, the result of the unstable
sort, the contents read when hashing, the iteration order of the map. -/
structure Env where
  byteCountSI : Int → String
  sortSlice : List File → List File
  readFile : String → Option (List Byte)
  rangeOrder : HashMap → List (String × List File)

/-- Everything `main` holds when it ends. -/
structure Output where
  files : List File
  duplicateFiles : List File
  hm : HashMap
  stat : Stats
deriving DecidableEq, Repr

/-- Lines 102-155 of `main`, from the sorted candidate slice on. -/
def detect (hash : String → Option String) (rangeOrder : HashMap → List (String × List File))
    (files : List File) (stat : Stats) : Option Output :=
  let stat1 := { stat with FilteredFiles := wrapUint64 files.length }
  let b := bucketLoop files
  let hm := hashLoop hash b.duplicateFiles
  match pruneLoop (rangeOrder hm) (hm, stat1) with
  | none => none
  | some r => some { files := b.files, duplicateFiles := b.duplicateFiles, hm := r.1, stat := r.2 }

/-- The state `main` starts the walk from: `stat := Stats{}` and an empty slice. -/
def initState : WalkState :=
  { stat := { SeenFiles := 0, FilteredFiles := 0, DuplicateFiles := 0, WastedSpace := 0 },
    files := [] }

/-- How a run of `main` ends. -/
inductive Outcome where
  | usage
  | panic
  | done (out : Output)
deriving DecidableEq, Repr

/-- The run of `main` for the flag values `dirname` and `minFileSize` on
what the file system holds at the starting directory: with no directory
given it prints the usage and exits (lines 60-63); when `godirwalk.Walk`
returns an error it panics (lines 94-96); otherwise it sorts, buckets,
hashes and prunes, and ends with the map and the counters. -/
def main (env : Env) (dirname : String) (minFileSize : Int) (root : Option Entry) : Outcome :=
  if dirname = "" then .usage
  else
    match Walk env.byteCountSI minFileSize root initState with
    | none => .panic
    | some w =>
      match detect (CRC32Hash env.readFile) env.rangeOrder (env.sortSlice w.files) w.stat with
      | none => .panic
      | some out => .done out


/-! ## The bucketing loop as a recursion on the slice -/

/-- The record with its `Duplicate` flag set. -/
def mark (f : File) : File := { f with Duplicate := true }

/-- The inner loop on the part of the slice behind `checkFile`: the part as
it is left, and the records appended. -/
def innerRec (size : Int) : List File → List File × List File
  | [] => ([], [])
  | f :: rest =>
    if f.Duplicate then (f :: (innerRec size rest).1, (innerRec size rest).2)
    else if f.Size = size then (mark f :: (innerRec size rest).1, mark f :: (innerRec size rest).2)
    else (f :: (innerRec size rest).1, (innerRec size rest).2)

/-- The outer loop on the part of the slice from index `i` on, `n` bounding
the number of iterations left. -/
def outerRec : Nat → List File → List File × List File
  | 0, fs => (fs, [])
  | _ + 1, [] => ([], [])
  | n + 1, cf :: rest =>
    if cf.Duplicate then (cf :: (outerRec n rest).1, (outerRec n rest).2)
    else
      (cf :: (outerRec n (innerRec cf.Size rest).1).1,
        (innerRec cf.Size rest).2 ++
          (if (innerRec cf.Size rest).2 = [] then [] else [mark cf]) ++
          (outerRec n (innerRec cf.Size rest).1).2)

/-- Number of records of the slice, not flagged, that have the size `size`. -/
def sizeCount (fs : List File) (size : Int) : Nat :=
  fs.countP (fun g => !g.Duplicate && decide (g.Size = size))

/-- The record is not flagged and at least two unflagged records of the
slice have its size: its size is the size of another record. -/
def sharesSize (fs : List File) (f : File) : Bool :=
  !f.Duplicate && decide (2 ≤ sizeCount fs f.Size)

/-- The record with its `CRC32Hash` field set to `h`. -/
def setHash (h : String) (f : File) : File := { f with CRC32Hash := h }

/-- The records of the working list whose hashing gave `key`, in the order
of the list, each with its hash field set. -/
def members (hash : String → Option String) (key : String) (ds : List File) : List File :=
  (ds.filter (fun f => decide (hash f.Path = some key))).map (setHash key)

/-- The keys of the entries are pairwise distinct. -/
def NodupKeys (hm : HashMap) : Prop := (hm.map Prod.fst).Nodup

/-- The entries the pruning loop leaves in the map: those whose group does
not have exactly one member. -/
def survivors (hm : HashMap) : HashMap := hm.filter (fun e => decide (e.2.length ≠ 1))

/-- The size of the first member of a group (`slice[0].Size`). -/
def firstSize (g : List File) : Int :=
  match g[0]? with
  | some first => first.Size
  | none => 0

/-- The sum over the groups of the number of their members. -/
def memberCount (es : List (String × List File)) : Nat :=
  (es.map (fun e => e.2.length)).sum

/-- The sum over the groups of `size × (|group| − 1)`, in the integers. -/
def wastedSum (es : List (String × List File)) : Int :=
  (es.map (fun e => firstSize e.2 * ((e.2.length : Int) - 1))).sum

/-- The counters `DuplicateFiles` and `WastedSpace` hold values of their types. -/
def Stats.InRange (st : Stats) : Prop :=
  st.DuplicateFiles < 2 ^ 64 ∧ -2 ^ 63 ≤ st.WastedSpace ∧ st.WastedSpace < 2 ^ 63

/-- Number of non-directory entries of a tree. -/
def Entry.count : Entry → Nat
  | .file _ _ => 1
  | .dir _ cs => countList cs
  | .unreadable _ => 0
where
  /-- Number of non-directory entries of a list of trees. -/
  countList : List Entry → Nat
  | [] => 0
  | c :: cs => Entry.count c + countList cs

/-- The run with no counter set, as `stat := Stats{}` leaves it. -/
def zeroStats : Stats :=
  { SeenFiles := 0, FilteredFiles := 0, DuplicateFiles := 0, WastedSpace := 0 }

/-- A candidate record as the walk appends it, for a size below 1000
(`ByteCountSI` then prints the number of bytes). -/
def candidate (path : String) (size : Nat) : File :=
  { Path := path, Size := size, SizeHuman := toString size ++ " B",
    Duplicate := false, CRC32Hash := "" }

/-- Two files of five bytes with different contents and the same CRC-32. -/
def collidingFiles : String → Option (List Byte) := fun p =>
  if p = "/d/a" then some [0, 0, 0, 0, 0]
  else if p = "/d/b" then some [65, 6, 113, 219, 1]
  else none

/-- A checksum function that gives the digest `h` to a file of 20 bytes and
to a file of 10 bytes. -/
def crossSizeHash : String → Option String := fun p =>
  if p = "/d/c" then some "h"
  else if p = "/d/d" then some "y"
  else if p = "/d/a" then some "h"
  else if p = "/d/b" then some "x"
  else none

/-- The sort callback `files[i].Size > files[j].Size`, made total for the
insertion sort: descending order of size. -/
def sizeDescending (a b : File) : Prop := a.Size ≥ b.Size

instance : DecidableRel sizeDescending := fun a b => inferInstanceAs (Decidable (a.Size ≥ b.Size))

/-- An environment: sizes printed as a number of bytes, a stable sort, the
two colliding files, the map iterated in the order of insertion. -/
def exampleEnv : Env :=
  { byteCountSI := fun n => toString n ++ " B"
    sortSlice := fun fs => fs.insertionSort sizeDescending
    readFile := collidingFiles
    rangeOrder := fun hm => hm }

/-- A directory with three files and an excluded directory that holds a fourth. -/
def exampleTree : Entry :=
  .dir "/d"
    [.file "/d/c" (some 3),
     .file "/d/a" (some 5),
     .dir "/d/.git" [.file "/d/.git/config" (some 5)],
     .file "/d/b" (some 5)]

/-- Following the spec: the records of a slice whose size is the size of at
least one other record of the slice, in the order of the slice. `pre` holds
the records that stand before those of the second list. -/
def sizeTwinsFrom (pre : List File) : List File → List File
  | [] => []
  | f :: rest =>
    if (pre ++ rest).any (fun g => decide (g.Size = f.Size)) then
      f :: sizeTwinsFrom (pre ++ [f]) rest
    else sizeTwinsFrom (pre ++ [f]) rest

/-- Following the spec: the candidates whose size is the size of at least
one other candidate. -/
def sizeTwins (files : List File) : List File := sizeTwinsFrom [] files

/-- Following the spec: one record added to a map from size to records. -/
def sizeMapInsert (f : File) : List (Int × List File) → List (Int × List File)
  | [] => [(f.Size, [f])]
  | e :: rest =>
    if e.1 = f.Size then (e.1, e.2 ++ [f]) :: rest else e :: sizeMapInsert f rest

/-- Following the spec: the candidates grouped by size in one pass, in a
map from size to records. -/
def sizeGroups (files : List File) : List (Int × List File) :=
  files.foldl (fun m f => sizeMapInsert f m) []

/-- Following the spec: the records of the groups of two records or more. -/
def groupedBySize (files : List File) : List File :=
  ((sizeGroups files).filter (fun e => decide (2 ≤ e.2.length))).flatMap Prod.snd

/-- Following the spec: the tree with nothing left beneath the directories
whose path ends with `/` and an excluded suffix. -/
def stripExcluded : Entry → Entry
  | .file p st => .file p st
  | .dir p cs => if skipThis p then .dir p [] else .dir p (stripList cs)
  | .unreadable p => .unreadable p
where
  /-- The same on the entries of a directory. -/
  stripList : List Entry → List Entry
  | [] => []
  | c :: cs => stripExcluded c :: stripList cs

/-- The paths of the non-directory entries of a tree. -/
def Entry.filePaths : Entry → List String
  | .file p _ => [p]
  | .dir _ cs => pathsList cs
  | .unreadable _ => []
where
  /-- The same on the entries of a directory. -/
  pathsList : List Entry → List String
  | [] => []
  | c :: cs => Entry.filePaths c ++ pathsList cs

/-! ## Definitions for the later claims -/

/-- Number of the non-directory entries on which the callback reaches the
call of `os.Stat`: those it meets without having returned `SkipThis`. -/
def Entry.attempted : Entry → Nat
  | .file p _ => if skipThis p then 0 else 1
  | .dir p cs => if skipThis p then 0 else attemptedList cs
  | .unreadable _ => 0
where
  /-- The same on the entries of a directory. -/
  attemptedList : List Entry → Nat
  | [] => 0
  | c :: cs => Entry.attempted c + attemptedList cs

/-- Number of the non-directory entries on which the call of `os.Stat` is
reached and succeeds. -/
def Entry.statted : Entry → Nat
  | .file p st => if skipThis p then 0 else if st.isSome then 1 else 0
  | .dir p cs => if skipThis p then 0 else stattedList cs
  | .unreadable _ => 0
where
  /-- The same on the entries of a directory. -/
  stattedList : List Entry → Nat
  | [] => 0
  | c :: cs => Entry.statted c + stattedList cs

/-- A directory with a file whose `os.Stat` fails and a file of five bytes. -/
def treeWithFailedStat : Entry :=
  .dir "/d" [.file "/d/gone" none, .file "/d/a" (some 5)]

/-- Lines 130-155 of `main` on a working list: the hashing loop, then the
pruning loop with the statistics. -/
def groupStage (hash : String → Option String)
    (rangeOrder : HashMap → List (String × List File)) (duplicateFiles : List File)
    (stat : Stats) : Option (HashMap × Stats) :=
  pruneLoop (rangeOrder (hashLoop hash duplicateFiles)) (hashLoop hash duplicateFiles, stat)

/-- A checksum function that fails on `/d/gone` and gives one digest to
every other path. -/
def hashWithFailure : String → Option String := fun p =>
  if p = "/d/gone" then none else some "h"

/-- Three files of five bytes: two with the same contents, and a third with
other contents and the same CRC-32. -/
def threeCollidingFiles : String → Option (List Byte) := fun p =>
  if p = "/d/a" then some [0, 0, 0, 0, 0]
  else if p = "/d/a2" then some [0, 0, 0, 0, 0]
  else if p = "/d/b" then some [65, 6, 113, 219, 1]
  else none

/-- Three files of five bytes: two with the same contents, and a third with
other contents and another CRC-32. -/
def threeFiles : String → Option (List Byte) := fun p =>
  if p = "/d/a" then some [0, 0, 0, 0, 0]
  else if p = "/d/a2" then some [0, 0, 0, 0, 0]
  else if p = "/d/b" then some [1, 2, 3, 4, 5]
  else none

/-- Following the spec: one step of the division by the reflected
polynomial, on the lowest bit of the register. -/
def crcBit (poly crc : Nat) : Nat :=
  if crc % 2 = 1 then (crc >>> 1) ^^^ poly else crc >>> 1

/-- Following the spec: the 32-bit CRC of the contents computed bit by bit:
the register starts at all ones, each byte is added to its low bits and
divided out in eight steps, and the result is complemented. -/
def crc32Bitwise (poly : Nat) (p : List Byte) : Nat :=
  (p.foldl (fun c v => (crcBit poly)^[8] (c ^^^ v.val)) 0xffffffff) ^^^ 0xffffffff

/-! ## Byte formatters (lines 199-223) -/

/-- What a formatter hands to `fmt.Sprintf`: the integer for `"%d B"`, or
the value, the divisor and the unit character for `"%.1f %cB"`; the
floating-point division and its printing are left to `Sprintf`. -/
inductive ByteCount where
  | bytes (b : Int)
  | scaled (b : Int) (div : Int) (unitChar : Char)
deriving DecidableEq, Repr

/-- The loop `for n := b / unit; n >= unit; n /= unit { div *= unit; exp++ }`
from its head, with `n`, `div` (an `int64`) and `exp`; `fuel` bounds the
number of iterations and `none` means it ran out. -/
def unitLoop (unit : Int) : Nat → Int → Int → Nat → Option (Int × Nat)
  | 0, _, _, _ => none
  | fuel + 1, n, div, exp =>
    if n ≥ unit then unitLoop unit fuel (n.tdiv unit) (wrapInt64 (div * unit)) (exp + 1)
    else some (div, exp)

/-- The function `ByteCountSI`; `none` is a run-time panic of the indexing
`"kMGTPE"[exp]` (or the loop not ended after 64 iterations). -/
def ByteCountSI (b : Int) : Option ByteCount :=
  if b < 1000 then some (.bytes b)
  else
    match unitLoop 1000 64 (b.tdiv 1000) 1000 0 with
    | none => none
    | some (div, exp) =>
      match "kMGTPE".data[exp]? with
      | none => none
      | some c => some (.scaled b div c)

/-- The function `ByteCountIEC`; `none` is a run-time panic of the indexing
`"KMGTPE"[exp]` (or the loop not ended after 64 iterations). -/
def ByteCountIEC (b : Int) : Option ByteCount :=
  if b < 1024 then some (.bytes b)
  else
    match unitLoop 1024 64 (b.tdiv 1024) 1024 0 with
    | none => none
    | some (div, exp) =>
      match "KMGTPE".data[exp]? with
      | none => none
      | some c => some (.scaled b div c)

/-- The state the walk of the example tree leaves. -/
def exampleWalked : WalkState := walk exampleEnv.byteCountSI 0 exampleTree initState

/-- The state the walk of the tree with a failed stat leaves. -/
def failedStatWalked : WalkState := walk exampleEnv.byteCountSI 0 treeWithFailedStat initState

/-- Following the claim: the value of a lowercase hexadecimal digit,
`0`-`9` and `a`-`f`. -/
def hexValue (c : Char) : Nat := if c.toNat ≤ 57 then c.toNat - 48 else c.toNat - 87

/-- Following the claim: the number a string of hexadecimal digits denotes,
most significant digit first. -/
def hexNumber (s : String) : Nat := s.data.foldl (fun acc c => acc * 16 + hexValue c) 0

/-! ## The bucketing loop computes the recursion -/

theorem innerRec_length (size : Int) (fs : List File) :
    (innerRec size fs).1.length = fs.length := by
  induction fs with
  | nil => rfl
  | cons f rest ih =>
    unfold innerRec
    split_ifs <;> simp [ih]

theorem innerStep_fold (cf : File) (rest : List File) :
    ∀ (pre dup : List File) (b : Bool),
      (List.range' pre.length rest.length).foldl (innerStep cf)
          ({ files := pre ++ rest, duplicateFiles := dup }, b)
        = ({ files := pre ++ (innerRec cf.Size rest).1,
             duplicateFiles := dup ++ (innerRec cf.Size rest).2 },
           b || !(innerRec cf.Size rest).2.isEmpty) := by
  induction rest with
  | nil => intro pre dup b; simp [innerRec]
  | cons f rest ih =>
    intro pre dup b
    have hget : (pre ++ f :: rest)[pre.length]? = some f := by
      rw [List.getElem?_append_right (Nat.le_refl _)]; simp
    simp only [List.length_cons, List.range'_succ, List.foldl_cons]
    by_cases hd : f.Duplicate = true
    · have hs : innerStep cf ({ files := pre ++ f :: rest, duplicateFiles := dup }, b) pre.length
          = ({ files := (pre ++ [f]) ++ rest, duplicateFiles := dup }, b) := by
        simp [innerStep, hget, hd]
      have hl : pre.length + 1 = (pre ++ [f]).length := by simp
      rw [hs, hl, ih]
      simp [innerRec, hd]
    · by_cases hsz : f.Size = cf.Size
      · have hs : innerStep cf ({ files := pre ++ f :: rest, duplicateFiles := dup }, b) pre.length
            = ({ files := (pre ++ [mark f]) ++ rest, duplicateFiles := dup ++ [mark f] }, true) := by
          simp [innerStep, hget, hd, hsz, mark]
        have hl : pre.length + 1 = (pre ++ [mark f]).length := by simp
        rw [hs, hl, ih]
        simp [innerRec, hd, hsz]
      · have hs : innerStep cf ({ files := pre ++ f :: rest, duplicateFiles := dup }, b) pre.length
            = ({ files := (pre ++ [f]) ++ rest, duplicateFiles := dup }, b) := by
          simp [innerStep, hget, hd, hsz]
        have hl : pre.length + 1 = (pre ++ [f]).length := by simp
        rw [hs, hl, ih]
        simp [innerRec, hd, hsz]

theorem innerLoop_eq (cf : File) (pre rest dup : List File) :
    innerLoop cf pre.length (pre.length + 1 + rest.length)
        { files := pre ++ cf :: rest, duplicateFiles := dup }
      = ({ files := pre ++ cf :: (innerRec cf.Size rest).1,
           duplicateFiles := dup ++ (innerRec cf.Size rest).2 },
         !(innerRec cf.Size rest).2.isEmpty) := by
  have h := innerStep_fold cf rest (pre ++ [cf]) dup false
  simp only [List.length_append, List.length_singleton, List.append_assoc, List.singleton_append,
    Bool.false_or] at h
  unfold innerLoop
  rw [show pre.length + 1 + rest.length - (pre.length + 1) = rest.length by omega]
  exact h

theorem outerStep_fold : ∀ (n : Nat) (suf pre dup : List File), suf.length ≤ n →
    (List.range' pre.length suf.length).foldl (outerStep (pre.length + suf.length))
        { files := pre ++ suf, duplicateFiles := dup }
      = { files := pre ++ (outerRec n suf).1, duplicateFiles := dup ++ (outerRec n suf).2 } := by
  intro n
  induction n with
  | zero =>
    intro suf pre dup h
    have : suf = [] := List.length_eq_zero.mp (Nat.le_zero.mp h)
    subst this
    simp [outerRec]
  | succ n ih =>
    intro suf pre dup h
    cases suf with
    | nil => simp [outerRec]
    | cons cf rest =>
      have hget : (pre ++ cf :: rest)[pre.length]? = some cf := by
        rw [List.getElem?_append_right (Nat.le_refl _)]; simp
      have hlen : rest.length ≤ n := by simpa using h
      simp only [List.length_cons, List.range'_succ, List.foldl_cons]
      by_cases hd : cf.Duplicate = true
      · have hs : outerStep (pre.length + (rest.length + 1))
            { files := pre ++ cf :: rest, duplicateFiles := dup } pre.length
            = { files := (pre ++ [cf]) ++ rest, duplicateFiles := dup } := by
          simp [outerStep, hget, hd]
        have hl : pre.length + 1 = (pre ++ [cf]).length := by simp
        have hl2 : pre.length + (rest.length + 1) = (pre ++ [cf]).length + rest.length := by
          simp; omega
        rw [hs, hl, hl2, ih rest (pre ++ [cf]) dup hlen]
        simp [outerRec, hd]
      · have hinner := innerLoop_eq cf pre rest dup
        have hl0 : pre.length + (rest.length + 1) = pre.length + 1 + rest.length := by omega
        have hl : pre.length + 1 = (pre ++ [cf]).length := by simp
        have hl2 : pre.length + 1 + rest.length
            = (pre ++ [cf]).length + (innerRec cf.Size rest).1.length := by
          simp [innerRec_length]
        have hlen2 : (innerRec cf.Size rest).1.length ≤ n := by
          rw [innerRec_length]; exact hlen
        by_cases he : (innerRec cf.Size rest).2 = []
        · have hs : outerStep (pre.length + 1 + rest.length)
              { files := pre ++ cf :: rest, duplicateFiles := dup } pre.length
              = { files := (pre ++ [cf]) ++ (innerRec cf.Size rest).1,
                  duplicateFiles := dup ++ (innerRec cf.Size rest).2 } := by
            simp [outerStep, hget, hd, hinner, he]
          rw [hl0, hs, hl2]
          have hr : List.range' (pre.length + 1) rest.length
              = List.range' (pre ++ [cf]).length (innerRec cf.Size rest).1.length := by
            simp [innerRec_length]
          rw [hr, ih _ (pre ++ [cf]) _ hlen2]
          simp [outerRec, hd, he]
        · have hs : outerStep (pre.length + 1 + rest.length)
              { files := pre ++ cf :: rest, duplicateFiles := dup } pre.length
              = { files := (pre ++ [cf]) ++ (innerRec cf.Size rest).1,
                  duplicateFiles := dup ++ (innerRec cf.Size rest).2 ++ [mark cf] } := by
            simp [outerStep, hget, hd, hinner, he, mark]
          rw [hl0, hs, hl2]
          have hr : List.range' (pre.length + 1) rest.length
              = List.range' (pre ++ [cf]).length (innerRec cf.Size rest).1.length := by
            simp [innerRec_length]
          rw [hr, ih _ (pre ++ [cf]) _ hlen2]
          simp [outerRec, hd, he]

/-- The bucketing loop computes the recursion on the slice. -/
theorem bucketLoop_eq (files : List File) :
    bucketLoop files
      = { files := (outerRec files.length files).1,
          duplicateFiles := (outerRec files.length files).2 } := by
  have h := outerStep_fold files.length files [] [] (Nat.le_refl _)
  simp only [List.length_nil, Nat.zero_add, List.nil_append] at h
  unfold bucketLoop
  rw [List.range_eq_range']
  exact h

/-! ## What the bucketing loop collects -/

theorem innerRec_snd (size : Int) (fs : List File) :
    (innerRec size fs).2
      = (fs.filter (fun f => !f.Duplicate && decide (f.Size = size))).map mark := by
  induction fs with
  | nil => rfl
  | cons f rest ih =>
    unfold innerRec
    by_cases hd : f.Duplicate = true
    · simp [hd, ih]
    · by_cases hs : f.Size = size
      · simp [hd, hs, ih]
      · simp [hd, hs, ih]

theorem innerRec_fst (size : Int) (fs : List File) :
    (innerRec size fs).1
      = fs.map (fun f => if (!f.Duplicate && decide (f.Size = size)) = true then mark f else f) := by
  induction fs with
  | nil => rfl
  | cons f rest ih =>
    unfold innerRec
    by_cases hd : f.Duplicate = true
    · simp [hd, ih]
    · by_cases hs : f.Size = size
      · simp [hd, hs, ih]
      · simp [hd, hs, ih]

theorem sizeCount_cons (f : File) (fs : List File) (t : Int) :
    sizeCount (f :: fs) t
      = sizeCount fs t + (if (!f.Duplicate && decide (f.Size = t)) = true then 1 else 0) := by
  simp [sizeCount, List.countP_cons]

theorem sizeCount_innerRec (size : Int) (fs : List File) (t : Int) :
    sizeCount (innerRec size fs).1 t = if t = size then 0 else sizeCount fs t := by
  induction fs with
  | nil => simp [innerRec, sizeCount]
  | cons f rest ih =>
    by_cases hd : f.Duplicate = true
    · have : innerRec size (f :: rest) = (f :: (innerRec size rest).1, (innerRec size rest).2) := by
        simp [innerRec, hd]
      rw [this, sizeCount_cons, sizeCount_cons, ih]
      simp [hd]
    · by_cases hs : f.Size = size
      · have : innerRec size (f :: rest)
            = (mark f :: (innerRec size rest).1, mark f :: (innerRec size rest).2) := by
          simp [innerRec, hd, hs]
        rw [this, sizeCount_cons, sizeCount_cons, ih]
        by_cases ht : t = size
        · simp [ht, mark]
        · have : ¬ f.Size = t := fun h => ht (h ▸ hs.symm ▸ rfl)
          simp [ht, mark, this]
      · have : innerRec size (f :: rest) = (f :: (innerRec size rest).1, (innerRec size rest).2) := by
          simp [innerRec, hd, hs]
        rw [this, sizeCount_cons, sizeCount_cons, ih]
        by_cases ht : t = size
        · subst ht
          simp [hs]
        · simp [ht]

theorem filter_or_perm {α : Type} (p q : α → Bool) (l : List α)
    (hdisj : ∀ x ∈ l, p x = true → q x = false) :
    (l.filter (fun x => p x || q x)).Perm (l.filter p ++ l.filter q) := by
  induction l with
  | nil => simp
  | cons x l ih =>
    have ih1 := ih (fun y hy => hdisj y (List.mem_cons_of_mem _ hy))
    by_cases hp : p x = true
    · have hq := hdisj x (List.mem_cons_self _ _) hp
      simp only [List.filter_cons, hp, hq, Bool.or_false, if_true, List.cons_append]
      simpa using ih1
    · by_cases hq : q x = true
      · have hp1 : p x = false := by simpa using hp
        simp only [List.filter_cons, hp1, hq, Bool.false_or, if_true]
        exact (List.Perm.cons x ih1).trans List.perm_middle.symm
      · have hp1 : p x = false := by simpa using hp
        have hq1 : q x = false := by simpa using hq
        simpa [List.filter_cons, hp1, hq1] using ih1

theorem filter_sharesSize_innerRec (cf : File) (rest : List File) (hcf : cf.Duplicate = false) :
    (innerRec cf.Size rest).1.filter (sharesSize (innerRec cf.Size rest).1)
      = rest.filter (fun f => sharesSize (cf :: rest) f && !decide (f.Size = cf.Size)) := by
  have hsc := sizeCount_innerRec cf.Size rest
  have hmap := innerRec_fst cf.Size rest
  generalize (innerRec cf.Size rest).1 = I at hsc hmap
  have h0 : I.filter (sharesSize I)
      = (rest.map (fun f =>
          if (!f.Duplicate && decide (f.Size = cf.Size)) = true then mark f else f)).filter
          (sharesSize I) := by rw [← hmap]
  rw [h0, List.filter_map]
  have hcongr : ∀ f ∈ rest,
      ((sharesSize I) ∘
        (fun f => if (!f.Duplicate && decide (f.Size = cf.Size)) = true then mark f else f)) f
      = (sharesSize (cf :: rest) f && !decide (f.Size = cf.Size)) := by
    intro f _
    by_cases hd : f.Duplicate = true
    · simp [sharesSize, hd, mark]
    · by_cases hs : f.Size = cf.Size
      · simp [sharesSize, hd, hs, mark]
      · have hne : ¬ cf.Size = f.Size := fun h => hs h.symm
        simp [sharesSize, hd, hs, hsc, sizeCount_cons, hcf, hne]
  rw [List.filter_congr hcongr]
  rw [List.map_congr_left, List.map_id]
  intro f hf
  have hf2 := (List.mem_filter.mp hf).2
  by_cases hc : (!f.Duplicate && decide (f.Size = cf.Size)) = true
  · simp only [Bool.and_eq_true, Bool.not_eq_true', decide_eq_true_eq] at hc
    simp [hc.2] at hf2
  · simp [hc]

theorem sharesSize_cons_flagged (cf : File) (rest : List File) (hcf : cf.Duplicate = true) :
    (cf :: rest).filter (sharesSize (cf :: rest)) = rest.filter (sharesSize rest) := by
  have h1 : sharesSize (cf :: rest) cf = false := by simp [sharesSize, hcf]
  rw [List.filter_cons, h1]
  simp only [Bool.false_eq_true, if_false]
  apply List.filter_congr
  intro f _
  simp [sharesSize, sizeCount_cons, hcf]

theorem sharesSize_cons_split (cf : File) (rest : List File) (hcf : cf.Duplicate = false) :
    ∀ f ∈ rest, sharesSize (cf :: rest) f
      = ((!f.Duplicate && decide (f.Size = cf.Size)) ||
          (sharesSize (cf :: rest) f && !decide (f.Size = cf.Size))) := by
  intro f hf
  by_cases hd : f.Duplicate = true
  · simp [sharesSize, hd]
  · by_cases hs : f.Size = cf.Size
    · have hpos : 0 < sizeCount rest cf.Size := by
        unfold sizeCount
        rw [List.countP_pos_iff]
        exact ⟨f, hf, by simp [hd, hs]⟩
      simp [sharesSize, hd, hs, sizeCount_cons, hcf]
      exact hpos
    · simp [hs]

theorem sharesSize_head (cf : File) (rest : List File) (hcf : cf.Duplicate = false) :
    sharesSize (cf :: rest) cf = !((innerRec cf.Size rest).2).isEmpty := by
  rw [innerRec_snd]
  have hiff : 0 < sizeCount rest cf.Size ↔
      rest.filter (fun f => !f.Duplicate && decide (f.Size = cf.Size)) ≠ [] := by
    unfold sizeCount
    rw [List.countP_eq_length_filter, List.length_pos]
  by_cases h : 0 < sizeCount rest cf.Size
  · have h2 := hiff.mp h
    have h4 : 1 ≤ sizeCount rest cf.Size := h
    simp [sharesSize, hcf, sizeCount_cons, h2, h4, List.isEmpty_iff]
  · have h2 : rest.filter (fun f => !f.Duplicate && decide (f.Size = cf.Size)) = [] := by
      by_contra hne; exact h (hiff.mpr hne)
    have h3 : sizeCount rest cf.Size = 0 := by omega
    rw [h2]
    simp [sharesSize, hcf, sizeCount_cons, h3]

/-- The records the loop appends are, up to order, the unflagged records
whose size is the size of another unflagged record, each with the flag set. -/
theorem outerRec_perm : ∀ (n : Nat) (fs : List File), fs.length ≤ n →
    (outerRec n fs).2.Perm ((fs.filter (sharesSize fs)).map mark) := by
  intro n
  induction n with
  | zero =>
    intro fs h
    have : fs = [] := List.length_eq_zero.mp (Nat.le_zero.mp h)
    subst this
    simp [outerRec]
  | succ n ih =>
    intro fs h
    cases fs with
    | nil => simp [outerRec]
    | cons cf rest =>
      have hlen : rest.length ≤ n := by simpa using h
      by_cases hd : cf.Duplicate = true
      · have : outerRec (n + 1) (cf :: rest) = (cf :: (outerRec n rest).1, (outerRec n rest).2) := by
          simp [outerRec, hd]
        rw [this, sharesSize_cons_flagged cf rest hd]
        exact ih rest hlen
      · have hd1 : cf.Duplicate = false := by simpa using hd
        have hlen2 : (innerRec cf.Size rest).1.length ≤ n := by
          rw [innerRec_length]; exact hlen
        have hih := ih _ hlen2
        rw [filter_sharesSize_innerRec cf rest hd1] at hih
        have hout : (outerRec (n + 1) (cf :: rest)).2
            = (innerRec cf.Size rest).2 ++
                (if (innerRec cf.Size rest).2 = [] then [] else [mark cf]) ++
                (outerRec n (innerRec cf.Size rest).1).2 := by
          simp [outerRec, hd]
        rw [hout]
        have hsplit : (rest.filter (sharesSize (cf :: rest))).Perm
            (rest.filter (fun f => !f.Duplicate && decide (f.Size = cf.Size)) ++
              rest.filter (fun f => sharesSize (cf :: rest) f && !decide (f.Size = cf.Size))) := by
          rw [List.filter_congr (sharesSize_cons_split cf rest hd1)]
          apply filter_or_perm
          intro x _ hx
          simp only [Bool.and_eq_true, Bool.not_eq_true', decide_eq_true_eq] at hx
          simp [hx.2]
        have hhead := sharesSize_head cf rest hd1
        rw [List.filter_cons]
        by_cases he : (innerRec cf.Size rest).2 = []
        · have hh : sharesSize (cf :: rest) cf = false := by rw [hhead, he]; rfl
          rw [hh]
          simp only [Bool.false_eq_true, if_false, he, if_true, List.nil_append]
          have he2 : rest.filter (fun f => !f.Duplicate && decide (f.Size = cf.Size)) = [] := by
            rw [innerRec_snd] at he
            exact List.map_eq_nil_iff.mp he
          rw [he2, List.nil_append] at hsplit
          exact hih.trans (hsplit.map mark).symm
        · have hh : sharesSize (cf :: rest) cf = true := by
            rw [hhead]
            cases hI : (innerRec cf.Size rest).2 with
            | nil => exact absurd hI he
            | cons _ _ => rfl
          rw [hh]
          simp only [if_true, he, if_false, List.map_cons]
          have h1 : ((innerRec cf.Size rest).2 ++ [mark cf]).Perm
              (mark cf :: (rest.filter (fun f => !f.Duplicate && decide (f.Size = cf.Size))).map mark) := by
            rw [innerRec_snd]
            exact List.perm_append_singleton _ _
          have h3 : ((rest.filter (fun f => !f.Duplicate && decide (f.Size = cf.Size))).map mark ++
              (rest.filter (fun f => sharesSize (cf :: rest) f &&
                !decide (f.Size = cf.Size))).map mark).Perm
              ((rest.filter (sharesSize (cf :: rest))).map mark) := by
            rw [← List.map_append]
            exact (hsplit.map mark).symm
          have h2 := (h1.append hih).trans (List.Perm.cons (mark cf) h3)
          simpa using h2

/-! ## The map the hashing loop builds -/

theorem lookup_cons_eq (k1 ek : String) (ev : List File) (rest : HashMap) (h : k1 = ek) :
    List.lookup k1 ((ek, ev) :: rest) = some ev := by
  have hb : (k1 == ek) = true := by simpa using h
  simp [List.lookup, hb]

theorem lookup_cons_ne (k1 ek : String) (ev : List File) (rest : HashMap) (h : ¬ k1 = ek) :
    List.lookup k1 ((ek, ev) :: rest) = List.lookup k1 rest := by
  have hb : (k1 == ek) = false := by simpa using h
  simp [List.lookup, hb]

theorem mapGet_mapSet (k : String) (v : List File) (hm : HashMap) (k1 : String) :
    mapGet (mapSet k v hm) k1 = if k1 = k then some v else mapGet hm k1 := by
  induction hm with
  | nil =>
    by_cases h : k1 = k
    · simp [mapSet, mapGet, lookup_cons_eq _ _ _ _ h, h]
    · simp [mapSet, mapGet, lookup_cons_ne _ _ _ _ h, h]
  | cons e rest ih =>
    obtain ⟨ek, ev⟩ := e
    unfold mapGet at ih ⊢
    by_cases he : ek = k
    · by_cases h : k1 = k
      · simp [mapSet, he, h, lookup_cons_eq]
      · simp [mapSet, he, h, lookup_cons_ne _ _ _ _ h]
    · by_cases h : k1 = k
      · have hne : ¬ k1 = ek := fun h2 => he (h2.symm.trans h)
        have hms : mapSet k v ((ek, ev) :: rest) = (ek, ev) :: mapSet k v rest := by
          simp [mapSet, he]
        rw [hms, lookup_cons_ne _ _ _ _ hne, ih]
        simp [h]
      · by_cases h2 : k1 = ek
        · simp only [mapSet, he, if_false, lookup_cons_eq _ _ _ _ h2, h]
        · simp only [mapSet, he, if_false, lookup_cons_ne _ _ _ _ h2, ih, h]

theorem keys_mapSet (k : String) (v : List File) (hm : HashMap) :
    (mapSet k v hm).map Prod.fst
      = if k ∈ hm.map Prod.fst then hm.map Prod.fst else hm.map Prod.fst ++ [k] := by
  induction hm with
  | nil => simp [mapSet]
  | cons e rest ih =>
    by_cases he : e.1 = k
    · simp [mapSet, he]
    · have hne : ¬ k = e.1 := fun h => he h.symm
      by_cases hm : k ∈ rest.map Prod.fst
      · simp only [mapSet, he, if_false, List.map_cons, ih, hm, if_true, List.mem_cons, or_true]
      · simp only [mapSet, he, if_false, List.map_cons, ih, hm, List.mem_cons, hne, or_self,
          List.cons_append]

theorem nodupKeys_mapSet (k : String) (v : List File) (hm : HashMap) (h : NodupKeys hm) :
    NodupKeys (mapSet k v hm) := by
  unfold NodupKeys at h ⊢
  rw [keys_mapSet]
  by_cases hk : k ∈ hm.map Prod.fst
  · simpa [hk] using h
  · simp only [hk, if_false]
    rw [List.nodup_append]
    refine ⟨h, List.nodup_singleton k, ?_⟩
    intro a ha hb
    rw [List.mem_singleton] at hb
    exact hk (hb ▸ ha)

theorem hashLoop_append (hash : String → Option String) (ds : List File) (f : File) :
    hashLoop hash (ds ++ [f]) = hashStep hash (hashLoop hash ds) f := by
  simp [hashLoop, List.foldl_append]

theorem members_append (hash : String → Option String) (k : String) (ds : List File) (f : File) :
    members hash k (ds ++ [f])
      = members hash k ds ++ (if hash f.Path = some k then [setHash k f] else []) := by
  by_cases h : hash f.Path = some k
  · simp [members, List.filter_append, h]
  · simp [members, List.filter_append, h]

/-- The group stored under a key is the list of the records hashed to it;
a key is present exactly when that list is not empty. -/
theorem mapGet_hashLoop (hash : String → Option String) (ds : List File) (k : String) :
    mapGet (hashLoop hash ds) k
      = if members hash k ds = [] then none else some (members hash k ds) := by
  induction ds using List.reverseRecOn with
  | nil => simp [hashLoop, mapGet, members]
  | append_singleton ds f ih =>
    rw [hashLoop_append, members_append]
    unfold hashStep
    cases hh : hash f.Path with
    | none => simpa using ih
    | some h =>
      simp only [mapGet_mapSet]
      by_cases hk : k = h
      · subst hk
        have ihk := ih
        by_cases hm : members hash k ds = []
        · simp [hm] at ihk
          simp [ihk, hm, setHash]
        · simp [hm] at ihk
          simp [ihk, hm, setHash]
      · have hne : ¬ h = k := fun h2 => hk h2.symm
        simp [hk, hne, ih]

theorem nodupKeys_hashLoop (hash : String → Option String) (ds : List File) :
    NodupKeys (hashLoop hash ds) := by
  induction ds using List.reverseRecOn with
  | nil => simp [hashLoop, NodupKeys]
  | append_singleton ds f ih =>
    rw [hashLoop_append]
    unfold hashStep
    cases hash f.Path with
    | none => exact ih
    | some h => exact nodupKeys_mapSet _ _ _ ih

theorem mem_iff_mapGet (hm : HashMap) (h : NodupKeys hm) (k : String) (g : List File) :
    (k, g) ∈ hm ↔ mapGet hm k = some g := by
  induction hm with
  | nil => simp [mapGet]
  | cons e rest ih =>
    obtain ⟨ek, ev⟩ := e
    have hnd : ek ∉ rest.map Prod.fst ∧ NodupKeys rest := by
      simpa [NodupKeys] using h
    have ih1 := ih hnd.2
    unfold mapGet at ih1 ⊢
    by_cases hk : k = ek
    · subst hk
      have hnot : (k, g) ∉ rest := fun hmem => hnd.1 (List.mem_map.mpr ⟨(k, g), hmem, rfl⟩)
      rw [lookup_cons_eq _ _ _ _ rfl]
      simp [hnot]
      exact eq_comm
    · rw [lookup_cons_ne _ _ _ _ hk]
      simp [hk, ih1]

/-- An entry of the map the hashing loop builds: the key with the records
hashed to it, of which there is at least one. -/
theorem mem_hashLoop (hash : String → Option String) (ds : List File) (k : String)
    (g : List File) :
    (k, g) ∈ hashLoop hash ds ↔ g = members hash k ds ∧ g ≠ [] := by
  rw [mem_iff_mapGet _ (nodupKeys_hashLoop hash ds), mapGet_hashLoop]
  by_cases hm : members hash k ds = []
  · simp only [hm, if_true]
    constructor
    · intro h; cases h
    · rintro ⟨h1, h2⟩; exact absurd h1 h2
  · simp only [hm, if_false, Option.some.injEq]
    constructor
    · intro h; exact ⟨h.symm, h ▸ hm⟩
    · rintro ⟨h1, _⟩; exact h1.symm

/-! ## The pruning loop -/

theorem wrapInt64_modEq (x : Int) : wrapInt64 x ≡ x [ZMOD 2 ^ 64] := by
  unfold wrapInt64 Int.ModEq
  omega

theorem wrapInt64_congr {x y : Int} (h : x ≡ y [ZMOD 2 ^ 64]) : wrapInt64 x = wrapInt64 y := by
  unfold wrapInt64
  unfold Int.ModEq at h
  omega

theorem wrapInt64_of_range (x : Int) (h1 : -2 ^ 63 ≤ x) (h2 : x < 2 ^ 63) : wrapInt64 x = x := by
  unfold wrapInt64
  omega

theorem wrapUint64_of_lt (n : Nat) (h : n < 2 ^ 64) : wrapUint64 n = n := by
  unfold wrapUint64
  omega

/-- One step of the wasted-space accumulation agrees with the exact sum
modulo `2 ^ 64`. -/
theorem wasted_step (ws s len rest : Int) :
    wrapInt64 (wrapInt64 (ws + wrapInt64 (s * wrapInt64 (len - 1))) + rest)
      = wrapInt64 (ws + (s * (len - 1) + rest)) := by
  apply wrapInt64_congr
  have h1 : wrapInt64 (len - 1) ≡ len - 1 [ZMOD 2 ^ 64] := wrapInt64_modEq _
  have h2 : s * wrapInt64 (len - 1) ≡ s * (len - 1) [ZMOD 2 ^ 64] := Int.ModEq.mul_left s h1
  have h3 : wrapInt64 (s * wrapInt64 (len - 1)) ≡ s * (len - 1) [ZMOD 2 ^ 64] :=
    (wrapInt64_modEq _).trans h2
  have h4 : ws + wrapInt64 (s * wrapInt64 (len - 1)) ≡ ws + s * (len - 1) [ZMOD 2 ^ 64] :=
    Int.ModEq.add_left ws h3
  have h5 := (wrapInt64_modEq (ws + wrapInt64 (s * wrapInt64 (len - 1)))).trans h4
  have h6 := Int.ModEq.add_right rest h5
  rw [add_assoc] at h6
  exact h6

theorem wrapUint64_lt (n : Nat) : wrapUint64 n < 2 ^ 64 := by
  unfold wrapUint64
  omega

theorem wrapInt64_range (x : Int) : -2 ^ 63 ≤ wrapInt64 x ∧ wrapInt64 x < 2 ^ 63 := by
  unfold wrapInt64
  omega

theorem survivors_cons_single (e : String × List File) (rest : List (String × List File))
    (h : e.2.length = 1) : survivors (e :: rest) = survivors rest := by
  simp [survivors, h]

theorem survivors_cons_other (e : String × List File) (rest : List (String × List File))
    (h : ¬ e.2.length = 1) : survivors (e :: rest) = e :: survivors rest := by
  simp [survivors, h]

/-- The pruning loop, run over entries with no empty group, ends without a
panic: it has deleted the keys met with a one-member group and has added
to the counters the sums over the other entries met. -/
theorem pruneLoop_eq : ∀ (order : List (String × List File)) (acc : HashMap × Stats),
    (∀ e ∈ order, e.2 ≠ []) → acc.2.InRange →
    pruneLoop order acc
      = some (acc.1.filter (fun e =>
                !(order.any (fun o => decide (o.2.length = 1) && decide (o.1 = e.1)))),
              { acc.2 with
                DuplicateFiles := wrapUint64 (acc.2.DuplicateFiles + memberCount (survivors order))
                WastedSpace := wrapInt64 (acc.2.WastedSpace + wastedSum (survivors order)) }) := by
  intro order
  induction order with
  | nil =>
    intro acc _ hr
    obtain ⟨m, st⟩ := acc
    obtain ⟨h1, h2, h3⟩ := hr
    simp only [pruneLoop, List.foldlM_nil, survivors, List.filter_nil, memberCount, wastedSum,
      List.map_nil, List.sum_nil, Nat.add_zero, Int.add_zero, add_zero, List.any_nil,
      Bool.not_false, List.filter_true]
    rw [wrapUint64_of_lt _ h1, wrapInt64_of_range _ h2 h3]
    rfl
  | cons e rest ih =>
    intro acc hne hr
    obtain ⟨m, st⟩ := acc
    have hrest : ∀ x ∈ rest, x.2 ≠ [] := fun x hx => hne x (List.mem_cons_of_mem _ hx)
    have he : e.2 ≠ [] := hne e (List.mem_cons_self _ _)
    unfold pruneLoop at ih ⊢
    rw [List.foldlM_cons]
    by_cases h1 : e.2.length = 1
    · have hstep : pruneStep (m, st) e = some (mapDelete e.1 m, st) := by
        simp [pruneStep, h1]
      rw [hstep]
      simp only [Option.bind_eq_bind, Option.some_bind]
      rw [ih (mapDelete e.1 m, st) hrest hr, survivors_cons_single e rest h1]
      simp only [mapDelete, List.filter_filter, List.any_cons, h1, decide_True, Bool.true_and,
        Bool.not_or]
      congr 2
      apply List.filter_congr
      intro x _
      by_cases hx : x.1 = e.1
      · simp [hx]
      · have hx2 : ¬ e.1 = x.1 := fun h => hx h.symm
        simp [hx, hx2]
    · obtain ⟨first, g, hg⟩ : ∃ first g, e.2 = first :: g := by
        cases h : e.2 with
        | nil => exact absurd h he
        | cons a b => exact ⟨a, b, rfl⟩
      have hstep : pruneStep (m, st) e = some (m,
          { st with
            DuplicateFiles := wrapUint64 (st.DuplicateFiles + wrapUint64 e.2.length)
            WastedSpace := wrapInt64 (st.WastedSpace +
              wrapInt64 (first.Size * wrapInt64 ((e.2.length : Int) - 1))) }) := by
        have h0 : e.2[0]? = some first := by rw [hg]; simp
        unfold pruneStep
        rw [if_neg h1]
        simp only [h0]
      rw [hstep]
      simp only [Option.bind_eq_bind, Option.some_bind]
      have hr2 : Stats.InRange { st with
            DuplicateFiles := wrapUint64 (st.DuplicateFiles + wrapUint64 e.2.length)
            WastedSpace := wrapInt64 (st.WastedSpace +
              wrapInt64 (first.Size * wrapInt64 ((e.2.length : Int) - 1))) } :=
        ⟨wrapUint64_lt _, (wrapInt64_range _).1, (wrapInt64_range _).2⟩
      rw [ih _ hrest hr2, survivors_cons_other e rest h1]
      have hfs : firstSize e.2 = first.Size := by simp [firstSize, hg]
      have hD : wrapUint64 (wrapUint64 (st.DuplicateFiles + wrapUint64 e.2.length) +
            memberCount (survivors rest))
          = wrapUint64 (st.DuplicateFiles + memberCount (e :: survivors rest)) := by
        simp only [wrapUint64, memberCount, List.map_cons, List.sum_cons]
        omega
      have hW : wrapInt64 (wrapInt64 (st.WastedSpace +
              wrapInt64 (first.Size * wrapInt64 ((e.2.length : Int) - 1))) +
            wastedSum (survivors rest))
          = wrapInt64 (st.WastedSpace + wastedSum (e :: survivors rest)) := by
        rw [wasted_step]
        simp only [wastedSum, List.map_cons, List.sum_cons, hfs]
      simp only [hD, hW, List.any_cons, h1, decide_False, Bool.false_and, Bool.false_or]

/-! ## The run from the candidate slice on -/

theorem hashLoop_nonempty (hash : String → Option String) (ds : List File) :
    ∀ e ∈ hashLoop hash ds, e.2 ≠ [] := by
  intro e he
  have h : (e.1, e.2) ∈ hashLoop hash ds := he
  exact ((mem_hashLoop hash ds e.1 e.2).mp h).2

theorem nodupKeys_eq_of_key (hm : HashMap) (hnd : NodupKeys hm) (a b : String × List File)
    (ha : a ∈ hm) (hb : b ∈ hm) (hk : a.1 = b.1) : a = b := by
  have h1 := (mem_iff_mapGet hm hnd a.1 a.2).mp ha
  have h2 := (mem_iff_mapGet hm hnd b.1 b.2).mp hb
  rw [← hk, h1] at h2
  exact Prod.ext hk (Option.some.inj h2)

/-- Whatever the order of the iteration, the keys deleted are those of the
one-member groups. -/
theorem pruned_eq_survivors (hm : HashMap) (order : List (String × List File))
    (hnd : NodupKeys hm) (hperm : order.Perm hm) :
    hm.filter (fun e => !(order.any (fun o => decide (o.2.length = 1) && decide (o.1 = e.1))))
      = survivors hm := by
  unfold survivors
  apply List.filter_congr
  intro e he
  by_cases h1 : e.2.length = 1
  · have : order.any (fun o => decide (o.2.length = 1) && decide (o.1 = e.1)) = true := by
      rw [List.any_eq_true]
      exact ⟨e, hperm.mem_iff.mpr he, by simp [h1]⟩
    simp [this, h1]
  · have : order.any (fun o => decide (o.2.length = 1) && decide (o.1 = e.1)) = false := by
      rw [Bool.eq_false_iff]
      intro hany
      rw [List.any_eq_true] at hany
      obtain ⟨o, ho, hoe⟩ := hany
      simp only [Bool.and_eq_true, decide_eq_true_eq] at hoe
      have := nodupKeys_eq_of_key hm hnd o e (hperm.mem_iff.mp ho) he hoe.2
      exact h1 (this ▸ hoe.1)
    simp [this, h1]

theorem memberCount_survivors_perm {a b : List (String × List File)} (h : a.Perm b) :
    memberCount (survivors a) = memberCount (survivors b) := by
  unfold memberCount survivors
  exact ((h.filter _).map _).sum_eq

theorem wastedSum_survivors_perm {a b : List (String × List File)} (h : a.Perm b) :
    wastedSum (survivors a) = wastedSum (survivors b) := by
  unfold wastedSum survivors
  exact ((h.filter _).map _).sum_eq

/-- The run from the candidate slice on ends without a panic, and what it
holds at the end does not depend on the order in which the map is iterated. -/
theorem detect_eq (hash : String → Option String)
    (rangeOrder : HashMap → List (String × List File)) (files : List File) (stat : Stats)
    (hperm : ∀ m, (rangeOrder m).Perm m) (hr : stat.InRange) :
    detect hash rangeOrder files stat
      = some { files := (bucketLoop files).files
               duplicateFiles := (bucketLoop files).duplicateFiles
               hm := survivors (hashLoop hash (bucketLoop files).duplicateFiles)
               stat :=
                 { SeenFiles := stat.SeenFiles
                   FilteredFiles := wrapUint64 files.length
                   DuplicateFiles := wrapUint64 (stat.DuplicateFiles +
                     memberCount (survivors (hashLoop hash (bucketLoop files).duplicateFiles)))
                   WastedSpace := wrapInt64 (stat.WastedSpace +
                     wastedSum (survivors (hashLoop hash (bucketLoop files).duplicateFiles))) } } := by
  have hp := hperm (hashLoop hash (bucketLoop files).duplicateFiles)
  have hne : ∀ e ∈ rangeOrder (hashLoop hash (bucketLoop files).duplicateFiles), e.2 ≠ [] :=
    fun e he => hashLoop_nonempty hash _ e (hp.mem_iff.mp he)
  have hr1 : Stats.InRange { stat with FilteredFiles := wrapUint64 files.length } := hr
  have hprune := pruneLoop_eq _
    (hashLoop hash (bucketLoop files).duplicateFiles,
      { stat with FilteredFiles := wrapUint64 files.length }) hne hr1
  unfold detect
  simp only [hprune]
  rw [pruned_eq_survivors _ _ (nodupKeys_hashLoop hash _) hp,
    memberCount_survivors_perm hp, wastedSum_survivors_perm hp]

/-- The map the pruning loop leaves does not depend on the counters it starts from. -/
theorem pruneLoop_map : ∀ (order : List (String × List File)) (acc : HashMap × Stats),
    (∀ e ∈ order, e.2 ≠ []) →
    ∃ st, pruneLoop order acc
      = some (acc.1.filter (fun e =>
                !(order.any (fun o => decide (o.2.length = 1) && decide (o.1 = e.1)))), st) := by
  intro order
  induction order with
  | nil =>
    intro acc _
    exact ⟨acc.2, by simp [pruneLoop]⟩
  | cons e rest ih =>
    intro acc hne
    obtain ⟨m, st⟩ := acc
    have hrest : ∀ x ∈ rest, x.2 ≠ [] := fun x hx => hne x (List.mem_cons_of_mem _ hx)
    have he : e.2 ≠ [] := hne e (List.mem_cons_self _ _)
    unfold pruneLoop at ih ⊢
    rw [List.foldlM_cons]
    by_cases h1 : e.2.length = 1
    · have hstep : pruneStep (m, st) e = some (mapDelete e.1 m, st) := by
        simp [pruneStep, h1]
      rw [hstep]
      simp only [Option.bind_eq_bind, Option.some_bind]
      obtain ⟨st2, h2⟩ := ih (mapDelete e.1 m, st) hrest
      refine ⟨st2, ?_⟩
      rw [h2]
      simp only [mapDelete, List.filter_filter, List.any_cons, h1, decide_True, Bool.true_and,
        Bool.not_or]
      congr 2
      apply List.filter_congr
      intro x _
      by_cases hx : x.1 = e.1
      · simp [hx]
      · have hx2 : ¬ e.1 = x.1 := fun h => hx h.symm
        simp [hx, hx2]
    · obtain ⟨first, g, hg⟩ : ∃ first g, e.2 = first :: g := by
        cases h : e.2 with
        | nil => exact absurd h he
        | cons a b => exact ⟨a, b, rfl⟩
      have h0 : e.2[0]? = some first := by rw [hg]; simp
      have hstep : ∃ st1, pruneStep (m, st) e = some (m, st1) := by
        unfold pruneStep
        rw [if_neg h1]
        simp only [h0]
        exact ⟨_, rfl⟩
      obtain ⟨st1, hst1⟩ := hstep
      rw [hst1]
      simp only [Option.bind_eq_bind, Option.some_bind]
      obtain ⟨st2, h2⟩ := ih (m, st1) hrest
      refine ⟨st2, ?_⟩
      rw [h2]
      simp only [List.any_cons, h1, decide_False, Bool.false_and, Bool.false_or]

/-- The run from the candidate slice on ends without a panic; the final
map holds the groups of the hashing loop that do not have exactly one member. -/
theorem detect_out (hash : String → Option String)
    (rangeOrder : HashMap → List (String × List File)) (files : List File) (stat : Stats)
    (hperm : ∀ m, (rangeOrder m).Perm m) :
    ∃ st, detect hash rangeOrder files stat
      = some { files := (bucketLoop files).files
               duplicateFiles := (bucketLoop files).duplicateFiles
               hm := survivors (hashLoop hash (bucketLoop files).duplicateFiles)
               stat := st } := by
  have hp := hperm (hashLoop hash (bucketLoop files).duplicateFiles)
  have hne : ∀ e ∈ rangeOrder (hashLoop hash (bucketLoop files).duplicateFiles), e.2 ≠ [] :=
    fun e he => hashLoop_nonempty hash _ e (hp.mem_iff.mp he)
  obtain ⟨st, hst⟩ := pruneLoop_map _
    (hashLoop hash (bucketLoop files).duplicateFiles,
      { stat with FilteredFiles := wrapUint64 files.length }) hne
  refine ⟨st, ?_⟩
  unfold detect
  simp only [hst]
  rw [pruned_eq_survivors _ _ (nodupKeys_hashLoop hash _) hp]

/-- An entry of the final map: a key with the records hashed to it, of
which there are at least two. -/
theorem mem_survivors_hashLoop (hash : String → Option String) (ds : List File) (k : String)
    (g : List File) :
    (k, g) ∈ survivors (hashLoop hash ds) ↔ g = members hash k ds ∧ 2 ≤ g.length := by
  unfold survivors
  rw [List.mem_filter, mem_hashLoop]
  simp only [ne_eq, decide_not, Bool.not_eq_true', decide_eq_false_iff_not]
  constructor
  · rintro ⟨⟨h1, h2⟩, h3⟩
    have : g.length ≠ 0 := fun h => h2 (List.length_eq_zero.mp h)
    exact ⟨h1, by omega⟩
  · rintro ⟨h1, h2⟩
    refine ⟨⟨h1, ?_⟩, by omega⟩
    intro h
    rw [h] at h2
    simp at h2

/-- On a slice with no flag set, the working list is, up to order, the
records whose size at least two records have, each with the flag set. -/
theorem bucket_dups_perm (files : List File) (hflag : ∀ f ∈ files, f.Duplicate = false) :
    (bucketLoop files).duplicateFiles.Perm
      ((files.filter (fun f =>
        decide (2 ≤ files.countP (fun g => decide (g.Size = f.Size))))).map mark) := by
  rw [bucketLoop_eq]
  have h := outerRec_perm files.length files (Nat.le_refl _)
  have hc : ∀ t, sizeCount files t = files.countP (fun g => decide (g.Size = t)) := by
    intro t
    unfold sizeCount
    apply List.countP_congr
    intro g hg
    simp [hflag g hg]
  have hf : files.filter (sharesSize files)
      = files.filter (fun f => decide (2 ≤ files.countP (fun g => decide (g.Size = f.Size)))) := by
    apply List.filter_congr
    intro f hf
    simp [sharesSize, hflag f hf, hc]
  rw [hf] at h
  exact h

theorem two_le_length_of_mem {α : Type} {a b : α} {l : List α} (ha : a ∈ l) (hb : b ∈ l)
    (hab : a ≠ b) : 2 ≤ l.length := by
  match l, ha, hb with
  | [], ha, _ => cases ha
  | [x], ha, hb =>
    rw [List.mem_singleton] at ha hb
    exact absurd (ha.trans hb.symm) hab
  | _ :: _ :: _, _, _ => simp

theorem mem_bucket_dups (files : List File) (hflag : ∀ f ∈ files, f.Duplicate = false)
    (a b : File) (ha : a ∈ files) (hb : b ∈ files) (hab : a ≠ b) (hsz : a.Size = b.Size) :
    mark a ∈ (bucketLoop files).duplicateFiles := by
  rw [(bucket_dups_perm files hflag).mem_iff]
  apply List.mem_map_of_mem
  rw [List.mem_filter]
  refine ⟨ha, ?_⟩
  rw [decide_eq_true_eq, List.countP_eq_length_filter]
  apply two_le_length_of_mem (a := a) (b := b) _ _ hab
  · rw [List.mem_filter]; exact ⟨ha, by simp⟩
  · rw [List.mem_filter]; exact ⟨hb, by simp [hsz]⟩

theorem nodupKeys_survivors (hm : HashMap) (h : NodupKeys hm) : NodupKeys (survivors hm) := by
  unfold NodupKeys survivors at *
  exact List.Nodup.sublist ((List.filter_sublist hm).map Prod.fst) h

theorem mem_members (hash : String → Option String) (k : String) (ds : List File) (m : File) :
    m ∈ members hash k ds ↔ ∃ f ∈ ds, hash f.Path = some k ∧ m = setHash k f := by
  unfold members
  rw [List.mem_map]
  constructor
  · rintro ⟨f, hf, rfl⟩
    rw [List.mem_filter, decide_eq_true_eq] at hf
    exact ⟨f, hf.1, hf.2, rfl⟩
  · rintro ⟨f, hf, hh, rfl⟩
    exact ⟨f, List.mem_filter.mpr ⟨hf, by simpa using hh⟩, rfl⟩

theorem members_length (hash : String → Option String) (k : String) (ds : List File) :
    (members hash k ds).length = (ds.filter (fun f => decide (hash f.Path = some k))).length := by
  simp [members]

theorem hexEncode_length (bs : List Byte) : (hexEncode bs).length = 2 * bs.length := by
  unfold hexEncode
  rw [String.length]
  induction bs with
  | nil => rfl
  | cons b rest ih =>
    simp only [List.flatMap_cons, List.length_append, List.length_cons, List.length_nil] at ih ⊢
    omega

/-- A digest `CRC32Hash` returns has eight characters. -/
theorem CRC32Hash_length (readFile : String → Option (List Byte)) (p d : String)
    (h : CRC32Hash readFile p = some d) : d.length = 8 := by
  unfold CRC32Hash at h
  cases hr : readFile p with
  | none => simp [hr] at h
  | some c =>
    simp only [hr, Option.some.injEq] at h
    rw [← h, hexEncode_length]
    rfl

/-- Every record of the working list is a record of the slice with the flag set. -/
theorem bucket_dups_sub (files : List File) :
    ∀ d ∈ (bucketLoop files).duplicateFiles, ∃ f ∈ files, d = mark f := by
  intro d hd
  rw [bucketLoop_eq] at hd
  have h := (outerRec_perm files.length files (Nat.le_refl _)).mem_iff.mp hd
  rw [List.mem_map] at h
  obtain ⟨f, hf, rfl⟩ := h
  exact ⟨f, (List.mem_filter.mp hf).1, rfl⟩

/-! ## The walk -/

theorem visitFile_bounds (b : Int → String) (m : Int) (p : String) (st : Option Int)
    (s : WalkState) (n : Nat) (h1 : s.files.length ≤ s.stat.SeenFiles)
    (h2 : s.stat.SeenFiles + 1 ≤ n) (h3 : n < 2 ^ 64) :
    (visitFile b m p st s).files.length ≤ (visitFile b m p st s).stat.SeenFiles ∧
    (visitFile b m p st s).stat.SeenFiles ≤ n ∧
    (visitFile b m p st s).stat.DuplicateFiles = s.stat.DuplicateFiles ∧
    (visitFile b m p st s).stat.WastedSpace = s.stat.WastedSpace := by
  cases st with
  | none =>
    simp only [visitFile]
    refine ⟨?_, ?_, ?_, ?_⟩ <;> first | trivial | rfl | omega
  | some size =>
    have hw : wrapUint64 (s.stat.SeenFiles + 1) = s.stat.SeenFiles + 1 :=
      wrapUint64_of_lt _ (by omega)
    by_cases hs : size > m
    · simp only [visitFile, hs, if_true, hw, List.length_append, List.length_singleton]
      refine ⟨?_, ?_, ?_, ?_⟩ <;> first | trivial | rfl | omega
    · simp only [visitFile, hs, if_false, hw]
      refine ⟨?_, ?_, ?_, ?_⟩ <;> first | trivial | rfl | omega

mutual
theorem walk_bounds (b : Int → String) (m : Int) :
    ∀ (e : Entry) (s : WalkState) (n : Nat), s.files.length ≤ s.stat.SeenFiles →
      s.stat.SeenFiles + e.count ≤ n → n < 2 ^ 64 →
      (walk b m e s).files.length ≤ (walk b m e s).stat.SeenFiles ∧
      (walk b m e s).stat.SeenFiles ≤ n ∧
      (walk b m e s).stat.DuplicateFiles = s.stat.DuplicateFiles ∧
      (walk b m e s).stat.WastedSpace = s.stat.WastedSpace
  | .file p st, s, n, h1, h2, h3 => by
    by_cases hk : skipThis p = true
    · simp only [walk, hk, if_true]
      simp only [Entry.count] at h2
      refine ⟨?_, ?_, ?_, ?_⟩ <;> first | trivial | rfl | omega
    · simp only [walk, hk]
      simp only [Entry.count] at h2
      exact visitFile_bounds b m p st s n h1 h2 h3
  | .dir p cs, s, n, h1, h2, h3 => by
    by_cases hk : skipThis p = true
    · simp only [walk, hk, if_true]
      refine ⟨?_, ?_, ?_, ?_⟩ <;> first | trivial | rfl | omega
    · simp only [walk, hk]
      simp only [Entry.count] at h2
      exact walkList_bounds b m cs s n h1 h2 h3
  | .unreadable _, s, n, h1, h2, _ => by
    simp only [walk]
    simp only [Entry.count] at h2
    exact ⟨h1, by omega, trivial, trivial⟩
theorem walkList_bounds (b : Int → String) (m : Int) :
    ∀ (cs : List Entry) (s : WalkState) (n : Nat), s.files.length ≤ s.stat.SeenFiles →
      s.stat.SeenFiles + Entry.count.countList cs ≤ n → n < 2 ^ 64 →
      (walk.walkList b m cs s).files.length ≤ (walk.walkList b m cs s).stat.SeenFiles ∧
      (walk.walkList b m cs s).stat.SeenFiles ≤ n ∧
      (walk.walkList b m cs s).stat.DuplicateFiles = s.stat.DuplicateFiles ∧
      (walk.walkList b m cs s).stat.WastedSpace = s.stat.WastedSpace
  | [], s, n, h1, h2, _ => by
    simp only [walk.walkList]
    exact ⟨h1, by omega, trivial, trivial⟩
  | c :: cs, s, n, h1, h2, h3 => by
    simp only [walk.walkList]
    simp only [Entry.count.countList] at h2
    have hc := walk_bounds b m c s (s.stat.SeenFiles + c.count) h1 (Nat.le_refl _) (by omega)
    have hl := walkList_bounds b m cs (walk b m c s) n hc.1 (by omega) h3
    exact ⟨hl.1, hl.2.1, hl.2.2.1.trans hc.2.2.1, hl.2.2.2.trans hc.2.2.2⟩
end

mutual
theorem walk_keeps (b : Int → String) (m : Int) :
    ∀ (e : Entry) (s : WalkState),
      (walk b m e s).stat.DuplicateFiles = s.stat.DuplicateFiles ∧
      (walk b m e s).stat.WastedSpace = s.stat.WastedSpace
  | .file p st, s => by
    by_cases hk : skipThis p = true
    · simp only [walk, hk, if_true, and_self]
    · cases st with
      | none => simp [walk, hk, visitFile]
      | some size =>
        by_cases hs : size > m
        · simp [walk, hk, visitFile, hs]
        · simp [walk, hk, visitFile, hs]
  | .dir p cs, s => by
    by_cases hk : skipThis p = true
    · simp only [walk, hk, if_true, and_self]
    · simp only [walk, hk]
      exact walkList_keeps b m cs s
  | .unreadable _, s => by
    simp only [walk, and_self]
theorem walkList_keeps (b : Int → String) (m : Int) :
    ∀ (cs : List Entry) (s : WalkState),
      (walk.walkList b m cs s).stat.DuplicateFiles = s.stat.DuplicateFiles ∧
      (walk.walkList b m cs s).stat.WastedSpace = s.stat.WastedSpace
  | [], s => by
    simp only [walk.walkList, and_self]
  | c :: cs, s => by
    simp only [walk.walkList]
    have hc := walk_keeps b m c s
    have hl := walkList_keeps b m cs (walk b m c s)
    exact ⟨hl.1.trans hc.1, hl.2.trans hc.2⟩
end

theorem memberCount_survivors_le (hm : HashMap) : memberCount (survivors hm) ≤ memberCount hm := by
  induction hm with
  | nil => simp [survivors, memberCount]
  | cons e rest ih =>
    by_cases h1 : e.2.length = 1
    · rw [survivors_cons_single e rest h1]
      simp only [memberCount, List.map_cons, List.sum_cons] at ih ⊢
      omega
    · rw [survivors_cons_other e rest h1]
      simp only [memberCount, List.map_cons, List.sum_cons] at ih ⊢
      omega

theorem memberCount_mapSet (k : String) (f : File) (hm : HashMap) :
    memberCount (mapSet k ((match mapGet hm k with
        | some v => v
        | none => []) ++ [f]) hm) = memberCount hm + 1 := by
  induction hm with
  | nil => simp [mapSet, mapGet, memberCount]
  | cons e rest ih =>
    obtain ⟨ek, ev⟩ := e
    unfold mapGet at ih ⊢
    by_cases he : ek = k
    · have hl : List.lookup k ((ek, ev) :: rest) = some ev := lookup_cons_eq _ _ _ _ he.symm
      rw [hl]
      simp only [mapSet, he, if_true, memberCount, List.map_cons, List.sum_cons,
        List.length_append, List.length_singleton]
      omega
    · have hne : ¬ k = ek := fun h => he h.symm
      have hl : List.lookup k ((ek, ev) :: rest) = List.lookup k rest := lookup_cons_ne _ _ _ _ hne
      rw [hl]
      simp only [mapSet, he, if_false, memberCount, List.map_cons, List.sum_cons] at ih ⊢
      omega

theorem memberCount_hashLoop_le (hash : String → Option String) (ds : List File) :
    memberCount (hashLoop hash ds) ≤ ds.length := by
  induction ds using List.reverseRecOn with
  | nil => simp [hashLoop, memberCount]
  | append_singleton ds f ih =>
    rw [hashLoop_append]
    unfold hashStep
    cases hash f.Path with
    | none =>
      simp only [List.length_append, List.length_singleton]
      omega
    | some h =>
      simp only [memberCount_mapSet, List.length_append, List.length_singleton]
      omega

theorem bucket_dups_length_le (files : List File) :
    (bucketLoop files).duplicateFiles.length ≤ files.length := by
  rw [bucketLoop_eq]
  rw [(outerRec_perm files.length files (Nat.le_refl _)).length_eq, List.length_map]
  exact List.length_filter_le _ _

theorem outerRec_length : ∀ (n : Nat) (fs : List File), (outerRec n fs).1.length = fs.length := by
  intro n
  induction n with
  | zero => intro fs; simp [outerRec]
  | succ n ih =>
    intro fs
    cases fs with
    | nil => simp [outerRec]
    | cons cf rest =>
      by_cases hd : cf.Duplicate = true
      · simp [outerRec, hd, ih]
      · simp [outerRec, hd, ih, innerRec_length]

theorem bucket_files_length (files : List File) :
    (bucketLoop files).files.length = files.length := by
  rw [bucketLoop_eq]
  exact outerRec_length _ _

/-! ## The two descriptions of the working list -/

theorem sizeTwinsFrom_eq : ∀ (l pre : List File),
    sizeTwinsFrom pre l
      = l.filter (fun f => decide (2 ≤ (pre ++ l).countP (fun g => decide (g.Size = f.Size)))) := by
  intro l
  induction l with
  | nil => intro pre; rfl
  | cons f rest ih =>
    intro pre
    have hcount : (pre ++ f :: rest).countP (fun g => decide (g.Size = f.Size))
        = (pre ++ rest).countP (fun g => decide (g.Size = f.Size)) + 1 := by
      simp [List.countP_append, List.countP_cons]
      omega
    have hany : (pre ++ rest).any (fun g => decide (g.Size = f.Size)) = true ↔
        2 ≤ (pre ++ f :: rest).countP (fun g => decide (g.Size = f.Size)) := by
      rw [hcount, List.any_eq_true]
      constructor
      · rintro ⟨g, hg, hp⟩
        have : 0 < (pre ++ rest).countP (fun g => decide (g.Size = f.Size)) :=
          List.countP_pos_iff.mpr ⟨g, hg, hp⟩
        omega
      · intro h
        have : 0 < (pre ++ rest).countP (fun g => decide (g.Size = f.Size)) := by omega
        exact List.countP_pos_iff.mp this
    have ih1 := ih (pre ++ [f])
    rw [List.append_assoc, List.singleton_append] at ih1
    unfold sizeTwinsFrom
    by_cases h : (pre ++ rest).any (fun g => decide (g.Size = f.Size)) = true
    · have h2 := hany.mp h
      rw [if_pos h, ih1, List.filter_cons, if_pos (by simpa using h2)]
    · have h2 : ¬ 2 ≤ (pre ++ f :: rest).countP (fun g => decide (g.Size = f.Size)) :=
        fun h3 => h (hany.mpr h3)
      rw [if_neg h, ih1, List.filter_cons, if_neg (by simpa using h2)]

theorem sizeTwins_eq (files : List File) :
    sizeTwins files
      = files.filter (fun f => decide (2 ≤ files.countP (fun g => decide (g.Size = f.Size)))) := by
  unfold sizeTwins
  rw [sizeTwinsFrom_eq]
  rfl

theorem sizeGroups_append (l : List File) (f : File) :
    sizeGroups (l ++ [f]) = sizeMapInsert f (sizeGroups l) := by
  simp [sizeGroups, List.foldl_append]

theorem filter_size_append (l : List File) (f : File) (s : Int) :
    (l ++ [f]).filter (fun g => decide (g.Size = s))
      = l.filter (fun g => decide (g.Size = s)) ++ (if f.Size = s then [f] else []) := by
  by_cases h : f.Size = s
  · simp [List.filter_append, h]
  · simp [List.filter_append, h]

theorem sizeMapInsert_map (l : List File) (f : File) : ∀ (ks : List Int), ks.Nodup →
    (f.Size ∉ ks → l.filter (fun g => decide (g.Size = f.Size)) = []) →
    sizeMapInsert f (ks.map (fun s => (s, l.filter (fun g => decide (g.Size = s)))))
      = (if f.Size ∈ ks then ks else ks ++ [f.Size]).map
          (fun s => (s, (l ++ [f]).filter (fun g => decide (g.Size = s)))) := by
  intro ks
  induction ks with
  | nil =>
    intro _ hemp
    have h := hemp (by simp)
    simp [sizeMapInsert, filter_size_append, h]
  | cons k ks ih =>
    intro hnd hemp
    have hnd2 := List.nodup_cons.mp hnd
    by_cases hk : k = f.Size
    · have hmem : f.Size ∈ k :: ks := by rw [hk]; exact List.mem_cons_self _ _
      rw [if_pos hmem]
      simp only [List.map_cons, sizeMapInsert, hk, if_true]
      congr 1
      · rw [filter_size_append]
        simp
      · apply List.map_congr_left
        intro s hs
        have hne : ¬ f.Size = s := by
          intro h
          apply hnd2.1
          rw [hk, h]
          exact hs
        rw [filter_size_append]
        simp [hne]
    · have hne : ¬ f.Size = k := fun h => hk h.symm
      have hih := ih hnd2.2 (fun h => hemp (by
        simp only [List.mem_cons, not_or]
        exact ⟨hne, h⟩))
      simp only [List.map_cons, sizeMapInsert, hk, if_false, hih]
      have hhead : l.filter (fun g => decide (g.Size = k))
          = (l ++ [f]).filter (fun g => decide (g.Size = k)) := by
        rw [filter_size_append]
        simp [hne]
      by_cases hm : f.Size ∈ ks
      · have hm2 : f.Size ∈ k :: ks := List.mem_cons_of_mem _ hm
        rw [if_pos hm, if_pos hm2, List.map_cons, hhead]
      · have hm2 : ¬ f.Size ∈ k :: ks := by
          simp only [List.mem_cons, not_or]
          exact ⟨hne, hm⟩
        rw [if_neg hm, if_neg hm2, List.cons_append, List.map_cons, hhead]

/-- The map built in one pass holds, for each size met, the records of that size. -/
theorem sizeGroups_eq (l : List File) :
    ∃ ks : List Int, ks.Nodup ∧ (∀ f ∈ l, f.Size ∈ ks) ∧
      sizeGroups l = ks.map (fun s => (s, l.filter (fun g => decide (g.Size = s)))) := by
  induction l using List.reverseRecOn with
  | nil => exact ⟨[], List.nodup_nil, by simp, rfl⟩
  | append_singleton l f ih =>
    obtain ⟨ks, hnd, hcov, heq⟩ := ih
    have hemp : f.Size ∉ ks → l.filter (fun g => decide (g.Size = f.Size)) = [] := by
      intro hnot
      rw [List.filter_eq_nil_iff]
      intro g hg hgs
      rw [decide_eq_true_eq] at hgs
      exact hnot (hgs ▸ hcov g hg)
    refine ⟨if f.Size ∈ ks then ks else ks ++ [f.Size], ?_, ?_, ?_⟩
    · by_cases hm : f.Size ∈ ks
      · rw [if_pos hm]; exact hnd
      · rw [if_neg hm, List.nodup_append]
        refine ⟨hnd, List.nodup_singleton _, ?_⟩
        intro a ha hb
        rw [List.mem_singleton] at hb
        exact hm (hb ▸ ha)
    · intro g hg
      rw [List.mem_append, List.mem_singleton] at hg
      by_cases hm : f.Size ∈ ks
      · rw [if_pos hm]
        rcases hg with hg | hg
        · exact hcov g hg
        · rw [hg]; exact hm
      · rw [if_neg hm, List.mem_append, List.mem_singleton]
        rcases hg with hg | hg
        · exact Or.inl (hcov g hg)
        · exact Or.inr (by rw [hg])
    · rw [sizeGroups_append, heq]
      exact sizeMapInsert_map l f ks hnd hemp

theorem flatMap_filter_size_perm : ∀ (ks : List Int) (l : List File), ks.Nodup →
    (∀ f ∈ l, f.Size ∈ ks) →
    (ks.flatMap (fun s => l.filter (fun g => decide (g.Size = s)))).Perm l := by
  intro ks
  induction ks with
  | nil =>
    intro l _ hcov
    cases l with
    | nil => simp
    | cons f rest => exact absurd (hcov f (List.mem_cons_self _ _)) (by simp)
  | cons k ks ih =>
    intro l hnd hcov
    have hnd2 := List.nodup_cons.mp hnd
    have hcongr : ks.flatMap (fun s => l.filter (fun g => decide (g.Size = s)))
        = ks.flatMap (fun s => (l.filter (fun g => !decide (g.Size = k))).filter
            (fun g => decide (g.Size = s))) := by
      apply List.flatMap_congr
      intro s hs
      rw [List.filter_filter]
      apply List.filter_congr
      intro g _
      by_cases hg : g.Size = s
      · have : ¬ g.Size = k := by
          intro h
          apply hnd2.1
          rw [← h, hg]
          exact hs
        have hsk : ¬ s = k := fun h => this (hg.trans h)
        simp [hg, hsk]
      · simp [hg]
    have hcov2 : ∀ f ∈ l.filter (fun g => !decide (g.Size = k)), f.Size ∈ ks := by
      intro f hf
      rw [List.mem_filter] at hf
      have h1 := hcov f hf.1
      have h2 : ¬ f.Size = k := by simpa using hf.2
      rcases List.mem_cons.mp h1 with h | h
      · exact absurd h h2
      · exact h
    rw [List.flatMap_cons, hcongr]
    exact (List.Perm.append_left _ (ih _ hnd2.2 hcov2)).trans
      (List.filter_append_perm (fun g => decide (g.Size = k)) l)

theorem flatMap_filter_groups (G : Int → List File) (ks : List Int) :
    ((ks.map (fun s => (s, G s))).filter (fun e => decide (2 ≤ e.2.length))).flatMap Prod.snd
      = ks.flatMap (fun s => if 2 ≤ (G s).length then G s else []) := by
  induction ks with
  | nil => rfl
  | cons k ks ih =>
    by_cases h : 2 ≤ (G k).length
    · simp only [List.map_cons, List.filter_cons, h, decide_True, if_true, List.flatMap_cons, ih]
    · simp only [List.map_cons, List.filter_cons, h, decide_False, Bool.false_eq_true, if_false,
        List.flatMap_cons, ih, List.nil_append]

/-- The records of the groups of two or more, up to order, are the records
whose size at least two records have. -/
theorem groupedBySize_perm (files : List File) :
    (groupedBySize files).Perm
      (files.filter (fun f => decide (2 ≤ files.countP (fun g => decide (g.Size = f.Size))))) := by
  obtain ⟨ks, hnd, hcov, heq⟩ := sizeGroups_eq files
  unfold groupedBySize
  rw [heq, flatMap_filter_groups]
  have hcongr : ks.flatMap (fun s =>
        if 2 ≤ (files.filter (fun g => decide (g.Size = s))).length
        then files.filter (fun g => decide (g.Size = s)) else [])
      = ks.flatMap (fun s => (files.filter (fun f =>
          decide (2 ≤ files.countP (fun g => decide (g.Size = f.Size))))).filter
            (fun g => decide (g.Size = s))) := by
    apply List.flatMap_congr
    intro s _
    rw [List.filter_filter, ← List.countP_eq_length_filter]
    by_cases h : 2 ≤ files.countP (fun g => decide (g.Size = s))
    · rw [if_pos h]
      apply List.filter_congr
      intro g _
      by_cases hg : g.Size = s
      · simp [hg, h]
      · simp [hg]
    · rw [if_neg h]
      symm
      rw [List.filter_eq_nil_iff]
      intro g _ hgs
      simp only [Bool.and_eq_true, decide_eq_true_eq] at hgs
      rw [hgs.1] at hgs
      exact h hgs.2
  rw [hcongr]
  apply flatMap_filter_size_perm ks _ hnd
  intro f hf
  exact hcov f (List.mem_filter.mp hf).1

/-! ## Excluded directories -/

mutual
theorem walk_stripExcluded (b : Int → String) (m : Int) :
    ∀ (e : Entry) (s : WalkState), walk b m (stripExcluded e) s = walk b m e s
  | .file p st, s => by simp only [stripExcluded]
  | .dir p cs, s => by
    by_cases hk : skipThis p = true
    · simp only [stripExcluded, hk, if_true, walk]
    · simp only [stripExcluded, hk, walk, Bool.false_eq_true, if_false]
      exact walkList_stripList b m cs s
  | .unreadable _, s => by simp only [stripExcluded]
theorem walkList_stripList (b : Int → String) (m : Int) :
    ∀ (cs : List Entry) (s : WalkState),
      walk.walkList b m (stripExcluded.stripList cs) s = walk.walkList b m cs s
  | [], s => by simp only [stripExcluded.stripList]
  | c :: cs, s => by
    simp only [stripExcluded.stripList, walk.walkList]
    rw [walk_stripExcluded b m c s]
    exact walkList_stripList b m cs (walk b m c s)
end

mutual
theorem walk_paths (b : Int → String) (m : Int) :
    ∀ (e : Entry) (s : WalkState), ∀ f ∈ (walk b m e s).files,
      f ∈ s.files ∨ f.Path ∈ (stripExcluded e).filePaths
  | .file p st, s => by
    intro f hf
    by_cases hk : skipThis p = true
    · simp only [walk, hk, if_true] at hf
      exact Or.inl hf
    · cases st with
      | none =>
        simp [walk, hk, visitFile] at hf
        exact Or.inl hf
      | some size =>
        by_cases hs : size > m
        · simp [walk, hk, visitFile, hs] at hf
          rcases hf with hf | hf
          · exact Or.inl hf
          · right
            rw [hf]
            simp [stripExcluded, Entry.filePaths]
        · simp [walk, hk, visitFile, hs] at hf
          exact Or.inl hf
  | .dir p cs, s => by
    intro f hf
    by_cases hk : skipThis p = true
    · simp only [walk, hk, if_true] at hf
      exact Or.inl hf
    · simp only [walk, hk, Bool.false_eq_true, if_false] at hf
      simp only [stripExcluded, hk, Entry.filePaths, Bool.false_eq_true, if_false]
      exact walkList_paths b m cs s f hf
  | .unreadable _, s => by
    intro f hf
    simp only [walk] at hf
    exact Or.inl hf
theorem walkList_paths (b : Int → String) (m : Int) :
    ∀ (cs : List Entry) (s : WalkState), ∀ f ∈ (walk.walkList b m cs s).files,
      f ∈ s.files ∨ f.Path ∈ Entry.filePaths.pathsList (stripExcluded.stripList cs)
  | [], s => by
    intro f hf
    simp only [walk.walkList] at hf
    exact Or.inl hf
  | c :: cs, s => by
    intro f hf
    simp only [walk.walkList] at hf
    simp only [stripExcluded.stripList, Entry.filePaths.pathsList, List.mem_append]
    rcases walkList_paths b m cs (walk b m c s) f hf with h | h
    · rcases walk_paths b m c s f h with h2 | h2
      · exact Or.inl h2
      · exact Or.inr (Or.inl h2)
    · exact Or.inr (Or.inr h)
end

mutual
theorem walk_seen_le (b : Int → String) (m : Int) :
    ∀ (e : Entry) (s : WalkState),
      (walk b m e s).stat.SeenFiles ≤ s.stat.SeenFiles + e.count
  | .file p st, s => by
    have hw : wrapUint64 (s.stat.SeenFiles + 1) ≤ s.stat.SeenFiles + 1 := Nat.mod_le _ _
    by_cases hk : skipThis p = true
    · simp only [walk, hk, if_true, Entry.count]
      omega
    · cases st with
      | none =>
        simp only [walk, hk, visitFile, Entry.count, Bool.false_eq_true, if_false]
        omega
      | some size =>
        by_cases hs : size > m
        · simp only [walk, hk, visitFile, hs, Entry.count, Bool.false_eq_true, if_false, if_true]
          exact hw
        · simp only [walk, hk, visitFile, hs, Entry.count, Bool.false_eq_true, if_false]
          exact hw
  | .dir p cs, s => by
    by_cases hk : skipThis p = true
    · simp only [walk, hk, if_true, Entry.count]
      omega
    · simp only [walk, hk, Entry.count, Bool.false_eq_true, if_false]
      exact walkList_seen_le b m cs s
  | .unreadable _, s => by
    simp only [walk, Entry.count]
    omega
theorem walkList_seen_le (b : Int → String) (m : Int) :
    ∀ (cs : List Entry) (s : WalkState),
      (walk.walkList b m cs s).stat.SeenFiles ≤ s.stat.SeenFiles + Entry.count.countList cs
  | [], s => by
    simp only [walk.walkList, Entry.count.countList]
    omega
  | c :: cs, s => by
    simp only [walk.walkList, Entry.count.countList]
    have h1 := walk_seen_le b m c s
    have h2 := walkList_seen_le b m cs (walk b m c s)
    omega
end

theorem innerRec_paths (size : Int) (fs : List File) :
    (innerRec size fs).1.map (fun f => f.Path) = fs.map (fun f => f.Path) := by
  rw [innerRec_fst, List.map_map]
  apply List.map_congr_left
  intro f _
  by_cases h : (!f.Duplicate && decide (f.Size = size)) = true
  · simp only [Function.comp, h, if_true, mark]
  · simp only [Function.comp, h, Bool.false_eq_true, if_false]

theorem outerRec_paths : ∀ (n : Nat) (fs : List File),
    (outerRec n fs).1.map (fun f => f.Path) = fs.map (fun f => f.Path) := by
  intro n
  induction n with
  | zero => intro fs; simp [outerRec]
  | succ n ih =>
    intro fs
    cases fs with
    | nil => simp [outerRec]
    | cons cf rest =>
      by_cases hd : cf.Duplicate = true
      · simp [outerRec, hd, ih]
      · simp only [outerRec, hd, Bool.false_eq_true, if_false, List.map_cons, ih, innerRec_paths]

/-- The paths of the slice the bucketing loop leaves are those it was given. -/
theorem bucket_files_paths (files : List File) :
    (bucketLoop files).files.map (fun f => f.Path) = files.map (fun f => f.Path) := by
  rw [bucketLoop_eq]
  exact outerRec_paths _ _

theorem skipThis_of_suffix (f p : String) (hf : f ∈ filter) (h : HasSuffix p ("/" ++ f) = true) :
    skipThis p = true := by
  unfold skipThis
  rw [List.any_eq_true]
  exact ⟨f, hf, h⟩

/-! ## The walk with its errors, and the run -/

mutual
theorem walkEntry_eq_walk (b : Int → String) (m : Int) :
    ∀ (e : Entry) (s w : WalkState), walkEntry b m e s = some w → w = walk b m e s
  | .file p st, s, w => by
    intro h
    simp only [walkEntry, Option.some.injEq] at h
    simp only [walk]
    exact h.symm
  | .dir p cs, s, w => by
    intro h
    by_cases hk : skipThis p = true
    · simp only [walkEntry, hk, if_true, Option.some.injEq] at h
      simp only [walk, hk, if_true]
      exact h.symm
    · simp only [walkEntry, hk, Bool.false_eq_true, if_false] at h
      simp only [walk, hk, Bool.false_eq_true, if_false]
      exact walkEntries_eq_walkList b m cs s w h
  | .unreadable p, s, w => by
    intro h
    by_cases hk : skipThis p = true
    · simp only [walkEntry, hk, if_true, Option.some.injEq] at h
      simp only [walk]
      exact h.symm
    · simp [walkEntry, hk] at h
theorem walkEntries_eq_walkList (b : Int → String) (m : Int) :
    ∀ (cs : List Entry) (s w : WalkState),
      walkEntry.walkEntries b m cs s = some w → w = walk.walkList b m cs s
  | [], s, w => by
    intro h
    simp only [walkEntry.walkEntries, Option.some.injEq] at h
    simp only [walk.walkList]
    exact h.symm
  | c :: cs, s, w => by
    intro h
    simp only [walkEntry.walkEntries] at h
    simp only [walk.walkList]
    cases hc : walkEntry b m c s with
    | none => simp [hc] at h
    | some s1 =>
      simp only [hc] at h
      rw [← walkEntry_eq_walk b m c s s1 hc]
      exact walkEntries_eq_walkList b m cs s1 w h
end

/-- When `godirwalk.Walk` returns no error the state it leaves is the state
after the callbacks. -/
theorem Walk_eq_walk (b : Int → String) (m : Int) (root : Entry) (s w : WalkState)
    (h : Walk b m (some root) s = some w) : w = walk b m root s := by
  cases root with
  | file p st => simp [Walk] at h
  | dir p cs => exact walkEntry_eq_walk b m _ s w h
  | unreadable p => exact walkEntry_eq_walk b m _ s w h

mutual
theorem walkEntry_stripExcluded (b : Int → String) (m : Int) :
    ∀ (e : Entry) (s : WalkState), walkEntry b m (stripExcluded e) s = walkEntry b m e s
  | .file p st, s => by simp only [stripExcluded]
  | .dir p cs, s => by
    by_cases hk : skipThis p = true
    · simp only [stripExcluded, hk, if_true, walkEntry]
    · simp only [stripExcluded, hk, walkEntry, Bool.false_eq_true, if_false]
      exact walkEntries_stripList b m cs s
  | .unreadable _, s => by simp only [stripExcluded]
theorem walkEntries_stripList (b : Int → String) (m : Int) :
    ∀ (cs : List Entry) (s : WalkState),
      walkEntry.walkEntries b m (stripExcluded.stripList cs) s
        = walkEntry.walkEntries b m cs s
  | [], s => by simp only [stripExcluded.stripList]
  | c :: cs, s => by
    simp only [stripExcluded.stripList, walkEntry.walkEntries]
    rw [walkEntry_stripExcluded b m c s]
    cases walkEntry b m c s with
    | none => rfl
    | some s1 => exact walkEntries_stripList b m cs s1
end

theorem Walk_stripExcluded (b : Int → String) (m : Int) (root : Entry) (s : WalkState) :
    Walk b m (some (stripExcluded root)) s = Walk b m (some root) s := by
  cases root with
  | file p st => simp [stripExcluded, Walk]
  | dir p cs =>
    have h := walkEntry_stripExcluded b m (.dir p cs) s
    by_cases hk : skipThis p = true
    · simp only [stripExcluded, hk, if_true] at h ⊢
      exact h
    · simp only [stripExcluded, hk, Bool.false_eq_true, if_false] at h ⊢
      exact h
  | unreadable p => simp [stripExcluded, Walk]

/-- The run of `main`, when a directory is given and the walk returns no
error, ends without a panic; what it holds at the end. -/
theorem main_done (env : Env) (dirname : String) (minFileSize : Int) (root : Entry)
    (w : WalkState)
    (hperm : ∀ m, (env.rangeOrder m).Perm m)
    (hdir : dirname ≠ "")
    (hwalk : Walk env.byteCountSI minFileSize (some root) initState = some w) :
    main env dirname minFileSize (some root)
      = .done
        { files := (bucketLoop (env.sortSlice w.files)).files
          duplicateFiles := (bucketLoop (env.sortSlice w.files)).duplicateFiles
          hm := survivors (hashLoop (CRC32Hash env.readFile)
            (bucketLoop (env.sortSlice w.files)).duplicateFiles)
          stat :=
            { SeenFiles := w.stat.SeenFiles
              FilteredFiles := wrapUint64 (env.sortSlice w.files).length
              DuplicateFiles := wrapUint64 (memberCount (survivors (hashLoop
                (CRC32Hash env.readFile) (bucketLoop (env.sortSlice w.files)).duplicateFiles)))
              WastedSpace := wrapInt64 (wastedSum (survivors (hashLoop
                (CRC32Hash env.readFile)
                (bucketLoop (env.sortSlice w.files)).duplicateFiles))) } } := by
  have hw := Walk_eq_walk env.byteCountSI minFileSize root initState w hwalk
  have hk := walk_keeps env.byteCountSI minFileSize root initState
  rw [← hw] at hk
  have hD : w.stat.DuplicateFiles = 0 := hk.1
  have hW : w.stat.WastedSpace = 0 := hk.2
  have hr : w.stat.InRange := by
    unfold Stats.InRange
    rw [hD, hW]
    norm_num
  have h := detect_eq (CRC32Hash env.readFile) env.rangeOrder (env.sortSlice w.files) w.stat
    hperm hr
  rw [hD, hW, Nat.zero_add, Int.zero_add] at h
  unfold main
  rw [if_neg hdir, hwalk]
  simp only [h]

/-- The run panics when `godirwalk.Walk` returns an error: the starting
directory does not exist, is not a directory, or a directory that is
reached cannot be read. -/
theorem main_panics (env : Env) (dirname : String) (minFileSize : Int) (root : Option Entry)
    (hdir : dirname ≠ "")
    (hwalk : Walk env.byteCountSI minFileSize root initState = none) :
    main env dirname minFileSize root = .panic := by
  unfold main
  rw [if_neg hdir, hwalk]

/-! ## Claims on the final map -/

set_option maxRecDepth 100000

/-- C1. Completeness of the detection: in a candidate slice with pairwise
distinct paths and no flag set, two distinct records of equal size whose
hashing succeeds with the same digest `d` are both members of the group
stored under `d` in the final map: the run ends, the key `d` is present,
and its group holds both records (flag set, hash field set to `d`). -/
theorem equal_size_equal_digest_grouped (hash : String → Option String)
    (rangeOrder : HashMap → List (String × List File)) (files : List File) (stat : Stats)
    (a b : File) (d : String)
    (hperm : ∀ m, (rangeOrder m).Perm m)
    (hflag : ∀ f ∈ files, f.Duplicate = false)
    (hpath : (files.map (fun f => f.Path)).Nodup)
    (ha : a ∈ files) (hb : b ∈ files) (hab : a ≠ b) (hsz : a.Size = b.Size)
    (hda : hash a.Path = some d) (hdb : hash b.Path = some d) :
    ∃ out, detect hash rangeOrder files stat = some out ∧
      ∃ g, (d, g) ∈ out.hm ∧ mapGet out.hm d = some g ∧
        setHash d (mark a) ∈ g ∧ setHash d (mark b) ∈ g := by
  obtain ⟨st, hst⟩ := detect_out hash rangeOrder files stat hperm
  refine ⟨_, hst, members hash d (bucketLoop files).duplicateFiles, ?_⟩
  have hma : setHash d (mark a) ∈ members hash d (bucketLoop files).duplicateFiles :=
    (mem_members _ _ _ _).mpr ⟨mark a, mem_bucket_dups files hflag a b ha hb hab hsz, hda, rfl⟩
  have hmb : setHash d (mark b) ∈ members hash d (bucketLoop files).duplicateFiles :=
    (mem_members _ _ _ _).mpr
      ⟨mark b, mem_bucket_dups files hflag b a hb ha (Ne.symm hab) hsz.symm, hdb, rfl⟩
  have hpne : a.Path ≠ b.Path := by
    intro hp
    exact hab (List.inj_on_of_nodup_map hpath ha hb hp)
  have hne : setHash d (mark a) ≠ setHash d (mark b) := by
    intro h
    have hp : (setHash d (mark a)).Path = (setHash d (mark b)).Path := congrArg File.Path h
    exact hpne hp
  have hmem : (d, members hash d (bucketLoop files).duplicateFiles)
      ∈ survivors (hashLoop hash (bucketLoop files).duplicateFiles) :=
    (mem_survivors_hashLoop _ _ _ _).mpr ⟨rfl, two_le_length_of_mem hma hmb hne⟩
  exact ⟨hmem,
    (mem_iff_mapGet _ (nodupKeys_survivors _ (nodupKeys_hashLoop _ _)) _ _).mp hmem, hma, hmb⟩

/-- Witness of C1: two files of five bytes with the same CRC-32. -/
theorem equal_size_equal_digest_grouped_witness :
    ∃ out, detect (CRC32Hash collidingFiles) id
        [candidate "/d/a" 5, candidate "/d/b" 5] zeroStats = some out ∧
      ∃ g, ("c622f71d", g) ∈ out.hm ∧ mapGet out.hm "c622f71d" = some g ∧
        setHash "c622f71d" (mark (candidate "/d/a" 5)) ∈ g ∧
        setHash "c622f71d" (mark (candidate "/d/b" 5)) ∈ g :=
  equal_size_equal_digest_grouped (CRC32Hash collidingFiles) id
    [candidate "/d/a" 5, candidate "/d/b" 5] zeroStats
    (candidate "/d/a" 5) (candidate "/d/b" 5) "c622f71d"
    (fun m => List.Perm.refl m) (by decide) (by decide) (by decide) (by decide) (by decide)
    (by decide) (by decide) (by decide)

/-- C2, as stated, fails: two files of the same length with different
contents and the same CRC-32 are members of one group of the final map. -/
theorem crc32_collision_in_one_group :
    detect (CRC32Hash collidingFiles) id [candidate "/d/a" 5, candidate "/d/b" 5] zeroStats
      = some { files := [candidate "/d/a" 5, mark (candidate "/d/b" 5)]
               duplicateFiles := [mark (candidate "/d/b" 5), mark (candidate "/d/a" 5)]
               hm := [("c622f71d", [setHash "c622f71d" (mark (candidate "/d/b" 5)),
                                     setHash "c622f71d" (mark (candidate "/d/a" 5))])]
               stat := { SeenFiles := 0, FilteredFiles := 2, DuplicateFiles := 2,
                         WastedSpace := 5 } } ∧
    collidingFiles "/d/a" = some [0, 0, 0, 0, 0] ∧
    collidingFiles "/d/b" = some [65, 6, 113, 219, 1] ∧
    collidingFiles "/d/a" ≠ collidingFiles "/d/b" := by
  decide

/-- C2, amended. Any two members of one group of the final map are files
that were read and whose contents have the same CRC-32 digest, the key of
the group; the contents themselves are not compared. -/
theorem same_group_same_digest (readFile : String → Option (List Byte))
    (rangeOrder : HashMap → List (String × List File)) (files : List File) (stat : Stats)
    (hperm : ∀ m, (rangeOrder m).Perm m) :
    ∃ out, detect (CRC32Hash readFile) rangeOrder files stat = some out ∧
      ∀ e ∈ out.hm, ∀ x ∈ e.2, ∀ y ∈ e.2,
        ∃ cx cy, readFile x.Path = some cx ∧ readFile y.Path = some cy ∧
          hexEncode (sumBytes (crcUpdate 0xedb88320 0 cx)) = e.1 ∧
          hexEncode (sumBytes (crcUpdate 0xedb88320 0 cy)) = e.1 := by
  obtain ⟨st, hst⟩ := detect_out (CRC32Hash readFile) rangeOrder files stat hperm
  refine ⟨_, hst, ?_⟩
  intro e he x hx y hy
  have he2 : (e.1, e.2) ∈ survivors (hashLoop (CRC32Hash readFile) (bucketLoop files).duplicateFiles) :=
    he
  have hg := ((mem_survivors_hashLoop _ _ _ _).mp he2).1
  have key : ∀ z ∈ e.2, ∃ c, readFile z.Path = some c ∧
      hexEncode (sumBytes (crcUpdate 0xedb88320 0 c)) = e.1 := by
    intro z hz
    rw [hg, mem_members] at hz
    obtain ⟨f, _, hf, rfl⟩ := hz
    unfold CRC32Hash at hf
    cases hr : readFile f.Path with
    | none => simp [hr] at hf
    | some c =>
      simp only [hr, Option.some.injEq] at hf
      exact ⟨c, hr, hf⟩
  obtain ⟨cx, hcx, hdx⟩ := key x hx
  obtain ⟨cy, hcy, hdy⟩ := key y hy
  exact ⟨cx, cy, hcx, hcy, hdx, hdy⟩

/-- Witness of the amended C2 on the two colliding files. -/
theorem same_group_same_digest_witness :
    ∃ out, detect (CRC32Hash collidingFiles) id
        [candidate "/d/a" 5, candidate "/d/b" 5] zeroStats = some out ∧
      ∀ e ∈ out.hm, ∀ x ∈ e.2, ∀ y ∈ e.2,
        ∃ cx cy, collidingFiles x.Path = some cx ∧ collidingFiles y.Path = some cy ∧
          hexEncode (sumBytes (crcUpdate 0xedb88320 0 cx)) = e.1 ∧
          hexEncode (sumBytes (crcUpdate 0xedb88320 0 cy)) = e.1 :=
  same_group_same_digest collidingFiles id [candidate "/d/a" 5, candidate "/d/b" 5] zeroStats
    (fun m => List.Perm.refl m)

/-- C3. After the pruning loop every group of the final map has at least
two members, and a digest is a key of the final map exactly when at least
two records of the working list were hashed, with success, to that digest. -/
theorem surviving_groups_have_two_members (hash : String → Option String)
    (rangeOrder : HashMap → List (String × List File)) (files : List File) (stat : Stats)
    (hperm : ∀ m, (rangeOrder m).Perm m) :
    ∃ out, detect hash rangeOrder files stat = some out ∧
      (∀ e ∈ out.hm, 2 ≤ e.2.length) ∧
      ∀ k, (∃ g, (k, g) ∈ out.hm) ↔
        2 ≤ (out.duplicateFiles.filter (fun f => decide (hash f.Path = some k))).length := by
  obtain ⟨st, hst⟩ := detect_out hash rangeOrder files stat hperm
  refine ⟨_, hst, ?_, ?_⟩
  · intro e he
    have he2 : (e.1, e.2) ∈ survivors (hashLoop hash (bucketLoop files).duplicateFiles) := he
    exact ((mem_survivors_hashLoop _ _ _ _).mp he2).2
  · intro k
    simp only
    rw [← members_length]
    constructor
    · rintro ⟨g, hg⟩
      obtain ⟨h1, h2⟩ := (mem_survivors_hashLoop _ _ _ _).mp hg
      rw [← h1]
      exact h2
    · intro h
      exact ⟨_, (mem_survivors_hashLoop _ _ _ _).mpr ⟨rfl, h⟩⟩

/-- Witness of C3 on the two colliding files, the map iterated in the order
of insertion. -/
theorem surviving_groups_have_two_members_witness :
    ∃ out, detect (CRC32Hash collidingFiles) id
        [candidate "/d/a" 5, candidate "/d/b" 5] zeroStats = some out ∧
      (∀ e ∈ out.hm, 2 ≤ e.2.length) ∧
      ∀ k, (∃ g, (k, g) ∈ out.hm) ↔
        2 ≤ (out.duplicateFiles.filter
          (fun f => decide (CRC32Hash collidingFiles f.Path = some k))).length :=
  surviving_groups_have_two_members (CRC32Hash collidingFiles) id
    [candidate "/d/a" 5, candidate "/d/b" 5] zeroStats (fun m => List.Perm.refl m)

/-- C4, as stated, fails: with a checksum function that gives one digest to
a file of 20 bytes and to a file of 10 bytes, both are members of one group
of the final map. -/
theorem group_with_two_sizes :
    detect crossSizeHash id
        [candidate "/d/c" 20, candidate "/d/d" 20, candidate "/d/a" 10, candidate "/d/b" 10]
        zeroStats
      = some { files := [candidate "/d/c" 20, mark (candidate "/d/d" 20),
                         candidate "/d/a" 10, mark (candidate "/d/b" 10)]
               duplicateFiles := [mark (candidate "/d/d" 20), mark (candidate "/d/c" 20),
                                  mark (candidate "/d/b" 10), mark (candidate "/d/a" 10)]
               hm := [("h", [setHash "h" (mark (candidate "/d/c" 20)),
                             setHash "h" (mark (candidate "/d/a" 10))])]
               stat := { SeenFiles := 0, FilteredFiles := 4, DuplicateFiles := 2,
                         WastedSpace := 20 } } ∧
    (setHash "h" (mark (candidate "/d/c" 20))).Size
      ≠ (setHash "h" (mark (candidate "/d/a" 10))).Size := by
  decide

/-- C4, amended. When the checksum function gives no digest to two
candidates of different sizes, all members of any one group of the final
map have the same `Size`. -/
theorem same_group_same_size (hash : String → Option String)
    (rangeOrder : HashMap → List (String × List File)) (files : List File) (stat : Stats)
    (hperm : ∀ m, (rangeOrder m).Perm m)
    (hsep : ∀ a ∈ files, ∀ b ∈ files, ∀ d, hash a.Path = some d → hash b.Path = some d →
      a.Size = b.Size) :
    ∃ out, detect hash rangeOrder files stat = some out ∧
      ∀ e ∈ out.hm, ∀ x ∈ e.2, ∀ y ∈ e.2, x.Size = y.Size := by
  obtain ⟨st, hst⟩ := detect_out hash rangeOrder files stat hperm
  refine ⟨_, hst, ?_⟩
  intro e he x hx y hy
  have he2 : (e.1, e.2) ∈ survivors (hashLoop hash (bucketLoop files).duplicateFiles) := he
  have hg := ((mem_survivors_hashLoop _ _ _ _).mp he2).1
  rw [hg, mem_members] at hx hy
  obtain ⟨dx, hdx, hhx, rfl⟩ := hx
  obtain ⟨dy, hdy, hhy, rfl⟩ := hy
  obtain ⟨fx, hfx, rfl⟩ := bucket_dups_sub files dx hdx
  obtain ⟨fy, hfy, rfl⟩ := bucket_dups_sub files dy hdy
  exact hsep fx hfx fy hfy e.1 hhx hhy

/-- Witness of the amended C4: two files of five bytes. -/
theorem same_group_same_size_witness :
    ∃ out, detect (CRC32Hash collidingFiles) id
        [candidate "/d/a" 5, candidate "/d/b" 5] zeroStats = some out ∧
      ∀ e ∈ out.hm, ∀ x ∈ e.2, ∀ y ∈ e.2, x.Size = y.Size :=
  same_group_same_size (CRC32Hash collidingFiles) id
    [candidate "/d/a" 5, candidate "/d/b" 5] zeroStats (fun m => List.Perm.refl m)
    (by
      intro a ha b hb d _ _
      simp only [List.mem_cons, List.mem_singleton, List.not_mem_nil, or_false] at ha hb
      rcases ha with rfl | rfl <;> rcases hb with rfl | rfl <;> rfl)

/-- C5. Every member of a group of the final map has its `CRC32Hash` field
equal to the key of the group, so two members of one group have equal
checksums, and the field is never the empty string. -/
theorem members_carry_the_key (readFile : String → Option (List Byte))
    (rangeOrder : HashMap → List (String × List File)) (files : List File) (stat : Stats)
    (hperm : ∀ m, (rangeOrder m).Perm m) :
    ∃ out, detect (CRC32Hash readFile) rangeOrder files stat = some out ∧
      (∀ e ∈ out.hm, ∀ x ∈ e.2, x.CRC32Hash = e.1 ∧ x.CRC32Hash ≠ "") ∧
      (∀ e ∈ out.hm, ∀ x ∈ e.2, ∀ y ∈ e.2, x.CRC32Hash = y.CRC32Hash) := by
  obtain ⟨st, hst⟩ := detect_out (CRC32Hash readFile) rangeOrder files stat hperm
  have key : ∀ e ∈ survivors (hashLoop (CRC32Hash readFile) (bucketLoop files).duplicateFiles),
      ∀ x ∈ e.2, x.CRC32Hash = e.1 ∧ x.CRC32Hash ≠ "" := by
    intro e he x hx
    have he2 : (e.1, e.2)
        ∈ survivors (hashLoop (CRC32Hash readFile) (bucketLoop files).duplicateFiles) := he
    have hg := ((mem_survivors_hashLoop _ _ _ _).mp he2).1
    rw [hg, mem_members] at hx
    obtain ⟨f, _, hf, rfl⟩ := hx
    refine ⟨rfl, ?_⟩
    intro hempty
    have hlen := CRC32Hash_length readFile f.Path e.1 hf
    have h0 : (setHash e.1 f).CRC32Hash = e.1 := rfl
    rw [h0] at hempty
    rw [hempty] at hlen
    simp at hlen
  refine ⟨_, hst, key, ?_⟩
  intro e he x hx y hy
  exact (key e he x hx).1.trans (key e he y hy).1.symm

/-- Witness of C5 on the two colliding files. -/
theorem members_carry_the_key_witness :
    ∃ out, detect (CRC32Hash collidingFiles) id
        [candidate "/d/a" 5, candidate "/d/b" 5] zeroStats = some out ∧
      (∀ e ∈ out.hm, ∀ x ∈ e.2, x.CRC32Hash = e.1 ∧ x.CRC32Hash ≠ "") ∧
      (∀ e ∈ out.hm, ∀ x ∈ e.2, ∀ y ∈ e.2, x.CRC32Hash = y.CRC32Hash) :=
  members_carry_the_key collidingFiles id [candidate "/d/a" 5, candidate "/d/b" 5] zeroStats
    (fun m => List.Perm.refl m)

/-! ## Claims on the bucketing loop and on the walk -/

/-- C8. On every candidate slice with no flag set, sorted or not, the
working list the nested loop produces is a permutation of the sub-list of
the candidates whose size is the size of at least one other candidate (each
with its flag set): each of them occurs once and no candidate of unique size
occurs. It is also a permutation of the records of the groups of two or more
obtained by grouping the candidates by size in a map. -/
theorem bucketer_collects_size_twins (files : List File)
    (hflag : ∀ f ∈ files, f.Duplicate = false) :
    (bucketLoop files).duplicateFiles.Perm ((sizeTwins files).map mark) ∧
    (sizeTwins files).Sublist files ∧
    (bucketLoop files).duplicateFiles.Perm ((groupedBySize files).map mark) := by
  have h := bucket_dups_perm files hflag
  refine ⟨?_, ?_, ?_⟩
  · rw [sizeTwins_eq]
    exact h
  · rw [sizeTwins_eq]
    exact List.filter_sublist files
  · exact h.trans ((groupedBySize_perm files).map mark).symm

/-- Witness of C8: an unsorted slice of five records, three sizes. -/
theorem bucketer_collects_size_twins_witness :
    (bucketLoop [candidate "/d/a" 5, candidate "/d/b" 4, candidate "/d/c" 5,
        candidate "/d/d" 3, candidate "/d/e" 4]).duplicateFiles.Perm
      ((sizeTwins [candidate "/d/a" 5, candidate "/d/b" 4, candidate "/d/c" 5,
        candidate "/d/d" 3, candidate "/d/e" 4]).map mark) ∧
    (sizeTwins [candidate "/d/a" 5, candidate "/d/b" 4, candidate "/d/c" 5,
        candidate "/d/d" 3, candidate "/d/e" 4]).Sublist
      [candidate "/d/a" 5, candidate "/d/b" 4, candidate "/d/c" 5,
        candidate "/d/d" 3, candidate "/d/e" 4] ∧
    (bucketLoop [candidate "/d/a" 5, candidate "/d/b" 4, candidate "/d/c" 5,
        candidate "/d/d" 3, candidate "/d/e" 4]).duplicateFiles.Perm
      ((groupedBySize [candidate "/d/a" 5, candidate "/d/b" 4, candidate "/d/c" 5,
        candidate "/d/d" 3, candidate "/d/e" 4]).map mark) :=
  bucketer_collects_size_twins
    [candidate "/d/a" 5, candidate "/d/b" 4, candidate "/d/c" 5, candidate "/d/d" 3,
      candidate "/d/e" 4]
    (by decide)

/-- C9. The size threshold is strict: a file that is not excluded and whose
`os.Stat` succeeds with size `s` is counted in `SeenFiles`, and it is
appended to the candidate slice if and only if `s > minFileSize`; at
`s = minFileSize` it is not appended, at `s = minFileSize + 1` it is. -/
theorem strict_size_threshold (byteCountSI : Int → String) (minFileSize : Int)
    (osPathname : String) (s : Int) (st : WalkState) (hk : skipThis osPathname = false) :
    (walk byteCountSI minFileSize (.file osPathname (some s)) st).stat.SeenFiles
      = wrapUint64 (st.stat.SeenFiles + 1) ∧
    ((walk byteCountSI minFileSize (.file osPathname (some s)) st).files
        = st.files ++ [{ Path := osPathname, Size := s, SizeHuman := byteCountSI s,
                         Duplicate := false, CRC32Hash := "" }] ↔ s > minFileSize) ∧
    ((walk byteCountSI minFileSize (.file osPathname (some s)) st).files = st.files ↔
      ¬ s > minFileSize) ∧
    (walk byteCountSI minFileSize (.file osPathname (some minFileSize)) st).files = st.files ∧
    (walk byteCountSI minFileSize (.file osPathname (some (minFileSize + 1))) st).files
      = st.files ++ [{ Path := osPathname, Size := minFileSize + 1,
                       SizeHuman := byteCountSI (minFileSize + 1),
                       Duplicate := false, CRC32Hash := "" }] := by
  have hne : ∀ (x : File), st.files ++ [x] ≠ st.files := by
    intro x h
    have := congrArg List.length h
    simp at this
  refine ⟨?_, ?_, ?_, ?_, ?_⟩
  · by_cases hs : s > minFileSize
    · simp [walk, hk, visitFile, hs]
    · simp [walk, hk, visitFile, hs]
  · by_cases hs : s > minFileSize
    · simp [walk, hk, visitFile, hs]
    · simp only [walk, hk, visitFile, hs, if_false, Bool.false_eq_true, iff_false]
      exact fun h => hne _ h.symm
  · by_cases hs : s > minFileSize
    · simp only [walk, hk, visitFile, hs, if_true, if_false, Bool.false_eq_true, not_true,
        iff_false]
      exact hne _
    · simp [walk, hk, visitFile, hs]
  · simp [walk, hk, visitFile]
  · simp [walk, hk, visitFile]

/-- Witness of C9: a file at the threshold and a file one byte larger. -/
theorem strict_size_threshold_witness :
    (walk exampleEnv.byteCountSI 5 (.file "/d/a" (some 6)) initState).stat.SeenFiles
      = wrapUint64 (initState.stat.SeenFiles + 1) ∧
    ((walk exampleEnv.byteCountSI 5 (.file "/d/a" (some 6)) initState).files
        = initState.files ++ [{ Path := "/d/a", Size := 6, SizeHuman := exampleEnv.byteCountSI 6,
                                Duplicate := false, CRC32Hash := "" }] ↔ (6 : Int) > 5) ∧
    ((walk exampleEnv.byteCountSI 5 (.file "/d/a" (some 6)) initState).files = initState.files ↔
      ¬ (6 : Int) > 5) ∧
    (walk exampleEnv.byteCountSI 5 (.file "/d/a" (some 5)) initState).files = initState.files ∧
    (walk exampleEnv.byteCountSI 5 (.file "/d/a" (some (5 + 1))) initState).files
      = initState.files ++ [{ Path := "/d/a", Size := 5 + 1,
                              SizeHuman := exampleEnv.byteCountSI (5 + 1),
                              Duplicate := false, CRC32Hash := "" }] :=
  strict_size_threshold exampleEnv.byteCountSI 5 "/d/a" 6 initState (by decide)

/-! ## Claims on the counters -/

/-- C6. At the end of a run (a directory is given and the walk returns no
error) `WastedSpace` is the sum, over the groups of the final map, of the
size of the first member times the number of members less one, and
`DuplicateFiles` is the sum of the numbers of members; the groups of one
member, which the loop deletes, add nothing. The counters being an `int64`
and a `uint64`, the equalities hold modulo `2 ^ 64`, and exactly when the
sums are values of these types. -/
theorem counters_sum_over_survivors (env : Env) (dirname : String) (minFileSize : Int)
    (root : Entry) (w : WalkState)
    (hperm : ∀ m, (env.rangeOrder m).Perm m)
    (hdir : dirname ≠ "")
    (hwalk : Walk env.byteCountSI minFileSize (some root) initState = some w) :
    ∃ out, main env dirname minFileSize (some root) = .done out ∧
      out.hm = survivors (hashLoop (CRC32Hash env.readFile) out.duplicateFiles) ∧
      out.stat.WastedSpace = wrapInt64 (wastedSum out.hm) ∧
      out.stat.DuplicateFiles = wrapUint64 (memberCount out.hm) ∧
      (-2 ^ 63 ≤ wastedSum out.hm → wastedSum out.hm < 2 ^ 63 →
        out.stat.WastedSpace = wastedSum out.hm) ∧
      (memberCount out.hm < 2 ^ 64 → out.stat.DuplicateFiles = memberCount out.hm) := by
  refine ⟨_, main_done env dirname minFileSize root w hperm hdir hwalk, rfl, rfl, rfl, ?_, ?_⟩
  · intro h1 h2
    exact wrapInt64_of_range _ h1 h2
  · intro h
    exact wrapUint64_of_lt _ h

/-- Witness of C6: the run on the example tree. -/
theorem counters_sum_over_survivors_witness :
    ∃ out, main exampleEnv "/d" 0 (some exampleTree) = .done out ∧
      out.hm = survivors (hashLoop (CRC32Hash exampleEnv.readFile) out.duplicateFiles) ∧
      out.stat.WastedSpace = wrapInt64 (wastedSum out.hm) ∧
      out.stat.DuplicateFiles = wrapUint64 (memberCount out.hm) ∧
      (-2 ^ 63 ≤ wastedSum out.hm → wastedSum out.hm < 2 ^ 63 →
        out.stat.WastedSpace = wastedSum out.hm) ∧
      (memberCount out.hm < 2 ^ 64 → out.stat.DuplicateFiles = memberCount out.hm) :=
  counters_sum_over_survivors exampleEnv "/d" 0 exampleTree exampleWalked
    (fun m => List.Perm.refl m) (by decide) (by decide)

/-- C7. For a tree of fewer than `2 ^ 64` files, at the end of a run (a
directory is given and the walk returns no error)
`SeenFiles ≥ FilteredFiles ≥ DuplicateFiles`, where `FilteredFiles` is the
length of the candidate slice and `DuplicateFiles` is the number of members
of the groups of the final map. -/
theorem counters_are_ordered (env : Env) (dirname : String) (minFileSize : Int)
    (root : Entry) (w : WalkState)
    (hperm : ∀ m, (env.rangeOrder m).Perm m)
    (hsort : ∀ fs, (env.sortSlice fs).Perm fs)
    (hcount : root.count < 2 ^ 64)
    (hdir : dirname ≠ "")
    (hwalk : Walk env.byteCountSI minFileSize (some root) initState = some w) :
    ∃ out, main env dirname minFileSize (some root) = .done out ∧
      out.stat.SeenFiles ≥ out.stat.FilteredFiles ∧
      out.stat.FilteredFiles ≥ out.stat.DuplicateFiles ∧
      out.stat.FilteredFiles = out.files.length ∧
      out.stat.DuplicateFiles = memberCount out.hm := by
  refine ⟨_, main_done env dirname minFileSize root w hperm hdir hwalk, ?_⟩
  have hweq := Walk_eq_walk env.byteCountSI minFileSize root initState w hwalk
  have hw := walk_bounds env.byteCountSI minFileSize root initState root.count
    (Nat.le_refl _) (by simp [initState]) hcount
  rw [← hweq] at hw
  have hlen := (hsort w.files).length_eq
  have h1 := memberCount_survivors_le (hashLoop (CRC32Hash env.readFile)
    (bucketLoop (env.sortSlice w.files)).duplicateFiles)
  have h2 := memberCount_hashLoop_le (CRC32Hash env.readFile)
    (bucketLoop (env.sortSlice w.files)).duplicateFiles
  have h3 := bucket_dups_length_le (env.sortSlice w.files)
  have h4 := bucket_files_length (env.sortSlice w.files)
  have hF : wrapUint64 (env.sortSlice w.files).length = (env.sortSlice w.files).length :=
    wrapUint64_of_lt _ (by omega)
  have hD : wrapUint64 (memberCount (survivors (hashLoop (CRC32Hash env.readFile)
      (bucketLoop (env.sortSlice w.files)).duplicateFiles)))
      = memberCount (survivors (hashLoop (CRC32Hash env.readFile)
      (bucketLoop (env.sortSlice w.files)).duplicateFiles)) :=
    wrapUint64_of_lt _ (by omega)
  simp only [hF, hD, h4]
  refine ⟨?_, ?_, trivial, trivial⟩
  · show _ ≤ _
    omega
  · show _ ≤ _
    omega

/-- Witness of C7: the run on the example tree. -/
theorem counters_are_ordered_witness :
    exampleTree.count < 2 ^ 64 ∧
    ∃ out, main exampleEnv "/d" 0 (some exampleTree) = .done out ∧
      out.stat.SeenFiles ≥ out.stat.FilteredFiles ∧
      out.stat.FilteredFiles ≥ out.stat.DuplicateFiles ∧
      out.stat.FilteredFiles = out.files.length ∧
      out.stat.DuplicateFiles = memberCount out.hm :=
  ⟨by decide, counters_are_ordered exampleEnv "/d" 0 exampleTree exampleWalked
    (fun m => List.Perm.refl m)
    (fun fs => List.perm_insertionSort sizeDescending fs) (by decide) (by decide) (by decide)⟩

/-- C10. A directory whose path ends with `/` and one of `.git`,
`.terraform`, `node_modules` is never descended into: the walk leaves the
state as it is and returns no error, whatever the directory holds. The run
ends as the run on the tree with nothing beneath such directories does; when
it ends with an output, `SeenFiles` counts no more than the files of that
tree, and every record of the candidate slice and every member of a group
of the final map has the path of a file of that tree. -/
theorem excluded_subtrees_are_skipped (env : Env) (dirname : String) (minFileSize : Int)
    (root : Entry) (w : WalkState)
    (hperm : ∀ m, (env.rangeOrder m).Perm m)
    (hsort : ∀ fs, (env.sortSlice fs).Perm fs)
    (hdir : dirname ≠ "")
    (hwalk : Walk env.byteCountSI minFileSize (some root) initState = some w) :
    (∀ f ∈ filter, ∀ (p : String) (cs : List Entry) (s : WalkState),
        HasSuffix p ("/" ++ f) = true →
        walk env.byteCountSI minFileSize (.dir p cs) s = s ∧
        walkEntry env.byteCountSI minFileSize (.dir p cs) s = some s) ∧
    (∀ (d : String) (r : Entry),
        main env d minFileSize (some r) = main env d minFileSize (some (stripExcluded r))) ∧
    ∃ out, main env dirname minFileSize (some root) = .done out ∧
      out.stat.SeenFiles ≤ (stripExcluded root).count ∧
      (∀ x ∈ out.files, x.Path ∈ (stripExcluded root).filePaths) ∧
      (∀ e ∈ out.hm, ∀ x ∈ e.2, x.Path ∈ (stripExcluded root).filePaths) := by
  have hweq := Walk_eq_walk env.byteCountSI minFileSize root initState w hwalk
  have hw := walk_stripExcluded env.byteCountSI minFileSize root initState
  have hpaths : ∀ f ∈ env.sortSlice w.files, f.Path ∈ (stripExcluded root).filePaths := by
    intro f hf
    have hf2 := (hsort _).mem_iff.mp hf
    rw [hweq] at hf2
    rcases walk_paths env.byteCountSI minFileSize root initState f hf2 with h | h
    · simp [initState] at h
    · exact h
  refine ⟨?_, ?_, _, main_done env dirname minFileSize root w hperm hdir hwalk, ?_, ?_, ?_⟩
  · intro f hf p cs s hsuf
    have hk := skipThis_of_suffix f p hf hsuf
    constructor
    · simp only [walk, hk, if_true]
    · simp only [walkEntry, hk, if_true]
  · intro d r
    unfold main
    rw [Walk_stripExcluded]
  · have h := walk_seen_le env.byteCountSI minFileSize (stripExcluded root) initState
    rw [hw, ← hweq] at h
    simpa [initState] using h
  · intro x hx
    have hmem : x.Path ∈ (bucketLoop (env.sortSlice w.files)).files.map (fun f => f.Path) :=
      List.mem_map_of_mem _ hx
    rw [bucket_files_paths, List.mem_map] at hmem
    obtain ⟨f, hf, hfp⟩ := hmem
    rw [← hfp]
    exact hpaths f hf
  · intro e he x hx
    have he2 : (e.1, e.2) ∈ survivors (hashLoop (CRC32Hash env.readFile)
        (bucketLoop (env.sortSlice w.files)).duplicateFiles) := he
    have hg := ((mem_survivors_hashLoop _ _ _ _).mp he2).1
    rw [hg, mem_members] at hx
    obtain ⟨d, hd, _, rfl⟩ := hx
    obtain ⟨f, hf, rfl⟩ := bucket_dups_sub _ d hd
    exact hpaths f hf

/-- Witness of C10: the example tree, whose `.git` directory holds a file
of the size of two others. -/
theorem excluded_subtrees_are_skipped_witness :
    (∀ f ∈ filter, ∀ (p : String) (cs : List Entry) (s : WalkState),
        HasSuffix p ("/" ++ f) = true →
        walk exampleEnv.byteCountSI 0 (.dir p cs) s = s ∧
        walkEntry exampleEnv.byteCountSI 0 (.dir p cs) s = some s) ∧
    (∀ (d : String) (r : Entry),
        main exampleEnv d 0 (some r) = main exampleEnv d 0 (some (stripExcluded r))) ∧
    ∃ out, main exampleEnv "/d" 0 (some exampleTree) = .done out ∧
      out.stat.SeenFiles ≤ (stripExcluded exampleTree).count ∧
      (∀ x ∈ out.files, x.Path ∈ (stripExcluded exampleTree).filePaths) ∧
      (∀ e ∈ out.hm, ∀ x ∈ e.2, x.Path ∈ (stripExcluded exampleTree).filePaths) :=
  excluded_subtrees_are_skipped exampleEnv "/d" 0 exampleTree exampleWalked
    (fun m => List.Perm.refl m)
    (fun fs => List.perm_insertionSort sizeDescending fs) (by decide) (by decide)

/-- The ways a run ends other than with an output: no directory given; a
starting directory that does not exist; a regular file as starting
directory; a directory reached that cannot be read. An unreadable directory
beneath an excluded one is never reached and the run ends with an output. -/
theorem main_other_ends :
    main exampleEnv "" 0 (some exampleTree) = .usage ∧
    main exampleEnv "/d" 0 none = .panic ∧
    main exampleEnv "/d" 0 (some (.file "/d" (some 5))) = .panic ∧
    main exampleEnv "/d" 0
      (some (.dir "/d" [.file "/d/a" (some 5), .unreadable "/d/locked"])) = .panic ∧
    main exampleEnv "/d" 0
      (some (.dir "/d" [.file "/d/a" (some 5), .dir "/d/.git" [.unreadable "/d/.git/x"]]))
      = .done { files := [candidate "/d/a" 5]
                duplicateFiles := []
                hm := []
                stat := { SeenFiles := 1, FilteredFiles := 1, DuplicateFiles := 0,
                          WastedSpace := 0 } } := by
  decide

/-! ## What `SeenFiles` counts -/

mutual
theorem walk_seen (b : Int → String) (m : Int) :
    ∀ (e : Entry) (s : WalkState), s.stat.SeenFiles < 2 ^ 64 →
      (walk b m e s).stat.SeenFiles = wrapUint64 (s.stat.SeenFiles + e.statted)
  | .file p st, s, hs => by
    by_cases hk : skipThis p = true
    · simp only [walk, hk, if_true, Entry.statted, Nat.add_zero]
      exact (wrapUint64_of_lt _ hs).symm
    · cases st with
      | none =>
        simp only [walk, hk, visitFile, Entry.statted, Bool.false_eq_true, if_false,
          Option.isSome_none, Nat.add_zero]
        exact (wrapUint64_of_lt _ hs).symm
      | some size =>
        by_cases hsz : size > m
        · simp [walk, hk, visitFile, hsz, Entry.statted]
        · simp [walk, hk, visitFile, hsz, Entry.statted]
  | .dir p cs, s, hs => by
    by_cases hk : skipThis p = true
    · simp only [walk, hk, if_true, Entry.statted, Nat.add_zero]
      exact (wrapUint64_of_lt _ hs).symm
    · simp only [walk, hk, Entry.statted, Bool.false_eq_true, if_false]
      exact walkList_seen b m cs s hs
  | .unreadable _, s, hs => by
    simp only [walk, Entry.statted, Nat.add_zero]
    exact (wrapUint64_of_lt _ hs).symm
theorem walkList_seen (b : Int → String) (m : Int) :
    ∀ (cs : List Entry) (s : WalkState), s.stat.SeenFiles < 2 ^ 64 →
      (walk.walkList b m cs s).stat.SeenFiles
        = wrapUint64 (s.stat.SeenFiles + Entry.statted.stattedList cs)
  | [], s, hs => by
    simp only [walk.walkList, Entry.statted.stattedList, Nat.add_zero]
    exact (wrapUint64_of_lt _ hs).symm
  | c :: cs, s, hs => by
    simp only [walk.walkList, Entry.statted.stattedList]
    have h1 := walk_seen b m c s hs
    have h2 := walkList_seen b m cs (walk b m c s) (by rw [h1]; exact wrapUint64_lt _)
    rw [h2, h1]
    simp only [wrapUint64]
    omega
end

mutual
theorem statted_le_attempted : ∀ (e : Entry), e.statted ≤ e.attempted
  | .file p st => by
    by_cases hk : skipThis p = true
    · simp [Entry.statted, Entry.attempted, hk]
    · cases st <;> simp [Entry.statted, Entry.attempted, hk]
  | .dir p cs => by
    by_cases hk : skipThis p = true
    · simp [Entry.statted, Entry.attempted, hk]
    · simp only [Entry.statted, Entry.attempted, hk, Bool.false_eq_true, if_false]
      exact stattedList_le_attemptedList cs
  | .unreadable _ => by simp [Entry.statted, Entry.attempted]
theorem stattedList_le_attemptedList :
    ∀ (cs : List Entry), Entry.statted.stattedList cs ≤ Entry.attempted.attemptedList cs
  | [] => by simp [Entry.statted.stattedList, Entry.attempted.attemptedList]
  | c :: cs => by
    simp only [Entry.statted.stattedList, Entry.attempted.attemptedList]
    have h1 := statted_le_attempted c
    have h2 := stattedList_le_attemptedList cs
    omega
end

/-! ## The hashing and pruning stage -/

/-- The run from the candidate slice on is the bucketing loop followed by
the hashing and pruning stage. -/
theorem detect_eq_groupStage (hash : String → Option String)
    (rangeOrder : HashMap → List (String × List File)) (files : List File) (stat : Stats) :
    detect hash rangeOrder files stat
      = (groupStage hash rangeOrder (bucketLoop files).duplicateFiles
          { stat with FilteredFiles := wrapUint64 files.length }).map
          (fun r => { files := (bucketLoop files).files
                      duplicateFiles := (bucketLoop files).duplicateFiles
                      hm := r.1, stat := r.2 }) := by
  unfold detect groupStage
  simp only
  cases h : pruneLoop (rangeOrder (hashLoop hash (bucketLoop files).duplicateFiles))
      (hashLoop hash (bucketLoop files).duplicateFiles,
        { stat with FilteredFiles := wrapUint64 files.length }) <;> rfl

theorem hashLoop_foldl_append (hash : String → Option String) (a b : List File) :
    hashLoop hash (a ++ b) = b.foldl (hashStep hash) (hashLoop hash a) := by
  simp [hashLoop, List.foldl_append]

/-- A record whose hashing fails leaves the map as the loop had it. -/
theorem hashLoop_skip (hash : String → Option String) (pre post : List File) (f : File)
    (hfail : hash f.Path = none) :
    hashLoop hash (pre ++ f :: post) = hashLoop hash (pre ++ post) := by
  rw [hashLoop_foldl_append, hashLoop_foldl_append, List.foldl_cons]
  have : hashStep hash (hashLoop hash pre) f = hashLoop hash pre := by
    simp [hashStep, hfail]
  rw [this]

theorem pruneStep_keeps (acc r : HashMap × Stats) (e : String × List File)
    (h : pruneStep acc e = some r) :
    r.2.SeenFiles = acc.2.SeenFiles ∧ r.2.FilteredFiles = acc.2.FilteredFiles := by
  unfold pruneStep at h
  by_cases h1 : e.2.length = 1
  · rw [if_pos h1] at h
    cases h
    exact ⟨rfl, rfl⟩
  · rw [if_neg h1] at h
    cases h0 : e.2[0]? with
    | none => simp [h0] at h
    | some first =>
      simp only [h0, Option.some.injEq] at h
      rw [← h]
      exact ⟨rfl, rfl⟩

/-- The pruning loop does not touch `SeenFiles` and `FilteredFiles`. -/
theorem pruneLoop_keeps : ∀ (order : List (String × List File)) (acc r : HashMap × Stats),
    pruneLoop order acc = some r →
    r.2.SeenFiles = acc.2.SeenFiles ∧ r.2.FilteredFiles = acc.2.FilteredFiles := by
  intro order
  induction order with
  | nil =>
    intro acc r h
    simp only [pruneLoop, List.foldlM_nil] at h
    cases h
    exact ⟨rfl, rfl⟩
  | cons e rest ih =>
    intro acc r h
    unfold pruneLoop at ih h
    rw [List.foldlM_cons] at h
    cases hs : pruneStep acc e with
    | none => simp [hs] at h
    | some a1 =>
      simp only [hs, Option.bind_eq_bind, Option.some_bind] at h
      have h1 := pruneStep_keeps acc a1 e hs
      have h2 := ih a1 r h
      exact ⟨h2.1.trans h1.1, h2.2.trans h1.2⟩

/-- The stage ends without a panic and leaves the groups of two or more. -/
theorem groupStage_out (hash : String → Option String)
    (rangeOrder : HashMap → List (String × List File)) (ds : List File) (stat : Stats)
    (hperm : ∀ m, (rangeOrder m).Perm m) :
    ∃ st, groupStage hash rangeOrder ds stat = some (survivors (hashLoop hash ds), st) := by
  have hp := hperm (hashLoop hash ds)
  have hne : ∀ e ∈ rangeOrder (hashLoop hash ds), e.2 ≠ [] :=
    fun e he => hashLoop_nonempty hash _ e (hp.mem_iff.mp he)
  obtain ⟨st, hst⟩ := pruneLoop_map _ (hashLoop hash ds, stat) hne
  refine ⟨st, ?_⟩
  unfold groupStage
  rw [hst, pruned_eq_survivors _ _ (nodupKeys_hashLoop hash _) hp]

/-! ## Slices of pairwise distinct sizes -/

theorem countP_size_le_one (files : List File) (hsize : (files.map (fun f => f.Size)).Nodup)
    (s : Int) : files.countP (fun g => decide (g.Size = s)) ≤ 1 := by
  have h := List.nodup_iff_count_le_one.mp hsize s
  rw [List.count, List.countP_map] at h
  have heq : files.countP ((fun x => x == s) ∘ fun f => f.Size)
      = files.countP (fun g => decide (g.Size = s)) := by
    apply List.countP_congr
    intro g _
    simp
  rw [heq] at h
  exact h

/-- On a slice of pairwise distinct sizes the working list is empty. -/
theorem bucket_dups_nil (files : List File) (hflag : ∀ f ∈ files, f.Duplicate = false)
    (hsize : (files.map (fun f => f.Size)).Nodup) :
    (bucketLoop files).duplicateFiles = [] := by
  have h := bucket_dups_perm files hflag
  have hnil : files.filter (fun f =>
      decide (2 ≤ files.countP (fun g => decide (g.Size = f.Size)))) = [] := by
    rw [List.filter_eq_nil_iff]
    intro f _ hf
    rw [decide_eq_true_eq] at hf
    have := countP_size_le_one files hsize f.Size
    omega
  rw [hnil, List.map_nil] at h
  exact List.Perm.eq_nil h

/-! ## Paths are reported once -/

theorem bucket_dups_paths_nodup (files : List File) (hflag : ∀ f ∈ files, f.Duplicate = false)
    (hpath : (files.map (fun f => f.Path)).Nodup) :
    ((bucketLoop files).duplicateFiles.map (fun f => f.Path)).Nodup := by
  have h := (bucket_dups_perm files hflag).map (fun f => f.Path)
  rw [h.nodup_iff, List.map_map]
  have hsub : ((files.filter (fun f =>
      decide (2 ≤ files.countP (fun g => decide (g.Size = f.Size))))).map
        ((fun f => f.Path) ∘ mark)).Sublist (files.map (fun f => f.Path)) := by
    have : ((fun f => f.Path) ∘ mark) = (fun f : File => f.Path) := rfl
    rw [this]
    exact (List.filter_sublist files).map _
  exact List.Nodup.sublist hsub hpath

theorem members_paths (hash : String → Option String) (k : String) (ds : List File) :
    (members hash k ds).map (fun f => f.Path)
      = (ds.filter (fun f => decide (hash f.Path = some k))).map (fun f => f.Path) := by
  unfold members
  rw [List.map_map]
  rfl

theorem memberCount_eq_length (hm : HashMap) :
    memberCount hm = (hm.flatMap Prod.snd).length := by
  induction hm with
  | nil => rfl
  | cons e rest ih =>
    simp only [memberCount, List.map_cons, List.sum_cons, List.flatMap_cons,
      List.length_append] at ih ⊢
    rw [ih]

/-- When the paths of the working list are pairwise distinct, so are the
paths of all the members of the groups of the final map taken together. -/
theorem survivors_paths_nodup (hash : String → Option String) (ds : List File)
    (hnd : (ds.map (fun f => f.Path)).Nodup) :
    (((survivors (hashLoop hash ds)).flatMap Prod.snd).map (fun f => f.Path)).Nodup := by
  rw [List.map_flatMap, List.nodup_flatMap]
  constructor
  · intro e he
    have he2 : (e.1, e.2) ∈ survivors (hashLoop hash ds) := he
    have hg := ((mem_survivors_hashLoop _ _ _ _).mp he2).1
    rw [hg, members_paths]
    exact List.Nodup.sublist ((List.filter_sublist ds).map _) hnd
  · have hk : (survivors (hashLoop hash ds)).Pairwise (fun a b => a.1 ≠ b.1) := by
      have := nodupKeys_survivors _ (nodupKeys_hashLoop hash ds)
      unfold NodupKeys at this
      exact List.pairwise_map.mp this
    apply hk.imp_of_mem
    intro a b ha hb hab
    have ha2 : (a.1, a.2) ∈ survivors (hashLoop hash ds) := ha
    have hb2 : (b.1, b.2) ∈ survivors (hashLoop hash ds) := hb
    have hga := ((mem_survivors_hashLoop _ _ _ _).mp ha2).1
    have hgb := ((mem_survivors_hashLoop _ _ _ _).mp hb2).1
    show List.Disjoint (a.2.map fun f => f.Path) (b.2.map fun f => f.Path)
    intro p hpa hpb
    rw [hga, List.mem_map] at hpa
    rw [hgb, List.mem_map] at hpb
    obtain ⟨x, hx, hxp⟩ := hpa
    obtain ⟨y, hy, hyp⟩ := hpb
    rw [mem_members] at hx hy
    obtain ⟨fx, _, hfx, rfl⟩ := hx
    obtain ⟨fy, _, hfy, rfl⟩ := hy
    have h1 : fx.Path = p := hxp
    have h2 : fy.Path = p := hyp
    rw [h1] at hfx
    rw [h2, hfx] at hfy
    exact hab (Option.some.inj hfy)

/-! ## Three files of one size -/

theorem members_perm (hash : String → Option String) (k : String) {l1 l2 : List File}
    (h : l1.Perm l2) : (members hash k l1).Perm (members hash k l2) := by
  unfold members
  exact (h.filter _).map _

theorem eq_singleton_of_nodupKeys (l : HashMap) (x : String × List File)
    (hnd : NodupKeys l) (hall : ∀ e ∈ l, e.1 = x.1) (hx : x ∈ l) : l = [x] := by
  match l, hnd, hall, hx with
  | [], _, _, hx => cases hx
  | [y], _, _, hx =>
    rw [List.mem_singleton] at hx
    rw [hx]
  | y :: z :: rest, hnd, hall, _ =>
    exfalso
    have hy := hall y (by simp)
    have hz := hall z (by simp)
    unfold NodupKeys at hnd
    simp only [List.map_cons, List.nodup_cons, List.mem_cons, not_or] at hnd
    exact hnd.1.1 (hy.trans hz.symm)

/-- On a slice of three unflagged records of one size the working list is,
up to order, the three records with the flag set. -/
theorem bucket_dups_three (files : List File) (a b c : File) (s : Int)
    (hfiles : files.Perm [a, b, c])
    (hfa : a.Duplicate = false) (hfb : b.Duplicate = false) (hfc : c.Duplicate = false)
    (hsa : a.Size = s) (hsb : b.Size = s) (hsc : c.Size = s) :
    (bucketLoop files).duplicateFiles.Perm [mark a, mark b, mark c] := by
  have hmem : ∀ f ∈ files, f = a ∨ f = b ∨ f = c := by
    intro f hf
    have := hfiles.mem_iff.mp hf
    simpa using this
  have hflag : ∀ f ∈ files, f.Duplicate = false := by
    intro f hf
    rcases hmem f hf with rfl | rfl | rfl <;> assumption
  have hsize : ∀ f ∈ files, f.Size = s := by
    intro f hf
    rcases hmem f hf with rfl | rfl | rfl <;> assumption
  have h := bucket_dups_perm files hflag
  have hfilter : files.filter (fun f =>
      decide (2 ≤ files.countP (fun g => decide (g.Size = f.Size)))) = files := by
    rw [List.filter_eq_self]
    intro f hf
    rw [decide_eq_true_eq, hfiles.countP_eq, hsize f hf]
    simp [List.countP_cons, hsa, hsb, hsc]
  rw [hfilter] at h
  exact h.trans (hfiles.map mark)

/-! ## The digest -/

theorem tableStep_lt (poly crc : Nat) (hp : poly < 2 ^ 32) (hc : crc < 2 ^ 32) :
    (if crc % 2 = 1 then (crc >>> 1) ^^^ poly else crc >>> 1) < 2 ^ 32 := by
  have h1 : crc >>> 1 < 2 ^ 32 := by
    rw [Nat.shiftRight_eq_div_pow]
    omega
  split_ifs
  · exact Nat.xor_lt_two_pow h1 hp
  · exact h1

theorem tableEntry_lt (poly i : Nat) (hp : poly < 2 ^ 32) (hi : i < 2 ^ 32) :
    tableEntry poly i < 2 ^ 32 := by
  unfold tableEntry
  generalize List.range 8 = l
  induction l generalizing i with
  | nil => exact hi
  | cons _ rest ih =>
    rw [List.foldl_cons]
    exact ih _ (tableStep_lt poly i hp hi)

theorem crcUpdate_lt (poly crc : Nat) (p : List Byte) (hp : poly < 2 ^ 32)
    (hc : crc < 2 ^ 32) : crcUpdate poly crc p < 2 ^ 32 := by
  unfold crcUpdate
  apply Nat.xor_lt_two_pow _ (by norm_num)
  have h0 : crc ^^^ 0xffffffff < 2 ^ 32 := Nat.xor_lt_two_pow hc (by norm_num)
  generalize crc ^^^ 0xffffffff = c at h0
  induction p generalizing c with
  | nil => exact h0
  | cons v rest ih =>
    rw [List.foldl_cons]
    apply ih
    apply Nat.xor_lt_two_pow
    · apply tableEntry_lt poly _ hp
      have h1 : c % 256 < 2 ^ 8 := by omega
      have h2 : v.val < 2 ^ 8 := v.isLt
      have := Nat.xor_lt_two_pow h1 h2
      omega
    · rw [Nat.shiftRight_eq_div_pow]
      omega

theorem hexDigit_mem : ∀ n, n < 16 → hexDigit n ∈ "0123456789abcdef".data := by
  decide

theorem hexEncode_chars (bs : List Byte) :
    ∀ ch ∈ (hexEncode bs).data, ch ∈ "0123456789abcdef".data := by
  intro ch hch
  unfold hexEncode at hch
  simp only [List.mem_flatMap, List.mem_cons, List.mem_singleton, List.not_mem_nil,
    or_false] at hch
  obtain ⟨b, _, h | h⟩ := hch
  · rw [h]
    exact hexDigit_mem _ (by have := b.isLt; omega)
  · rw [h]
    exact hexDigit_mem _ (by omega)

theorem sumBytes_vals (crc : Nat) :
    (sumBytes crc).map (fun b => b.val)
      = [crc / 2 ^ 24 % 256, crc / 2 ^ 16 % 256, crc / 2 ^ 8 % 256, crc % 256] := by
  simp only [sumBytes, List.map_cons, List.map_nil, Nat.shiftRight_eq_div_pow]
  rfl

theorem crcBit_eq (poly x : Nat) :
    crcBit poly x = (x >>> 1) ^^^ (if x.testBit 0 then poly else 0) := by
  unfold crcBit
  rw [Nat.testBit_zero]
  by_cases h : x % 2 = 1
  · simp [h]
  · simp [h]

theorem shiftRight_xor (x y k : Nat) : (x ^^^ y) >>> k = (x >>> k) ^^^ (y >>> k) := by
  apply Nat.eq_of_testBit_eq
  intro i
  simp [Nat.testBit_xor, Nat.testBit_shiftRight]

theorem crcBit_xor (poly x y : Nat) :
    crcBit poly (x ^^^ y) = crcBit poly x ^^^ crcBit poly y := by
  rw [crcBit_eq, crcBit_eq, crcBit_eq, shiftRight_xor, Nat.testBit_xor]
  cases x.testBit 0 <;> cases y.testBit 0
  · simp
  · simp [Nat.xor_assoc]
  · simp only [Bool.true_bne, Bool.not_false, if_true, Bool.false_eq_true, if_false,
      Nat.xor_zero]
    rw [Nat.xor_assoc, Nat.xor_assoc, Nat.xor_comm poly]
  · simp only [bne_self_eq_false, Bool.false_eq_true, if_false, Nat.xor_zero, if_true]
    rw [Nat.xor_assoc, ← Nat.xor_assoc poly, Nat.xor_comm poly (y >>> 1), Nat.xor_assoc,
      Nat.xor_self, Nat.xor_zero]

theorem crcBit_iterate_xor (poly : Nat) (k : Nat) :
    ∀ x y, (crcBit poly)^[k] (x ^^^ y) = (crcBit poly)^[k] x ^^^ (crcBit poly)^[k] y := by
  induction k with
  | zero => intro x y; rfl
  | succ k ih =>
    intro x y
    rw [Function.iterate_succ_apply, Function.iterate_succ_apply, Function.iterate_succ_apply,
      crcBit_xor, ih]

theorem crcBit_shiftLeft (poly y k : Nat) : crcBit poly (y <<< (k + 1)) = y <<< k := by
  rw [crcBit_eq]
  have h0 : (y <<< (k + 1)).testBit 0 = false := by
    rw [Nat.testBit_shiftLeft]
    simp
  rw [h0]
  simp only [Bool.false_eq_true, if_false, Nat.xor_zero]
  apply Nat.eq_of_testBit_eq
  intro i
  simp only [Nat.testBit_shiftRight, Nat.testBit_shiftLeft]
  by_cases hi : i ≥ k
  · have h1 : 1 + i ≥ k + 1 := by omega
    have h2 : 1 + i - (k + 1) = i - k := by omega
    simp [hi, h1, h2]
  · have h1 : ¬ 1 + i ≥ k + 1 := by omega
    simp [hi, h1]

theorem crcBit_iterate_shiftLeft (poly y : Nat) (k : Nat) :
    (crcBit poly)^[k] (y <<< k) = y := by
  induction k with
  | zero => simp
  | succ k ih => rw [Function.iterate_succ_apply, crcBit_shiftLeft, ih]

theorem split_low_byte (c : Nat) : c = (c % 256) ^^^ ((c >>> 8) <<< 8) := by
  apply Nat.eq_of_testBit_eq
  intro i
  have h256 : (256 : Nat) = 2 ^ 8 := by norm_num
  rw [Nat.testBit_xor, h256, Nat.testBit_mod_two_pow, Nat.testBit_shiftLeft,
    Nat.testBit_shiftRight]
  by_cases hi : i < 8
  · have h1 : ¬ i ≥ 8 := by omega
    simp [hi, h1]
  · have h1 : i ≥ 8 := by omega
    have h2 : 8 + (i - 8) = i := by omega
    simp [hi, h1, h2]

theorem tableEntry_eq_iterate (poly i : Nat) : tableEntry poly i = (crcBit poly)^[8] i := by
  unfold tableEntry
  rfl

/-- The table-driven update of one byte is the division in eight steps. -/
theorem table_step_eq (poly c v : Nat) :
    tableEntry poly ((c % 256) ^^^ v) ^^^ (c >>> 8) = (crcBit poly)^[8] (c ^^^ v) := by
  have hsplit : c ^^^ v = ((c % 256) ^^^ v) ^^^ ((c >>> 8) <<< 8) := by
    conv_lhs => rw [split_low_byte c]
    rw [Nat.xor_assoc, Nat.xor_comm ((c >>> 8) <<< 8) v, ← Nat.xor_assoc]
  rw [hsplit, crcBit_iterate_xor, crcBit_iterate_shiftLeft, tableEntry_eq_iterate]

/-- The table-driven CRC of the library is the CRC computed bit by bit. -/
theorem crcUpdate_eq_bitwise (poly : Nat) (p : List Byte) :
    crcUpdate poly 0 p = crc32Bitwise poly p := by
  unfold crcUpdate crc32Bitwise
  have h0 : (0 : Nat) ^^^ 0xffffffff = 0xffffffff := by simp
  rw [h0]
  congr 1
  generalize (0xffffffff : Nat) = c
  induction p generalizing c with
  | nil => rfl
  | cons v rest ih =>
    rw [List.foldl_cons, List.foldl_cons, table_step_eq]
    exact ih _

theorem hexValue_hexDigit : ∀ n, n < 16 → hexValue (hexDigit n) = n := by
  decide

theorem hexNumber_hexEncode (b0 b1 b2 b3 : Byte) :
    hexNumber (hexEncode [b0, b1, b2, b3])
      = ((b0.val * 256 + b1.val) * 256 + b2.val) * 256 + b3.val := by
  have h0 := b0.isLt
  have h1 := b1.isLt
  have h2 := b2.isLt
  have h3 := b3.isLt
  simp only [hexNumber, hexEncode, List.flatMap_cons, List.flatMap_nil, List.cons_append,
    List.nil_append, List.append_nil, List.foldl_cons, List.foldl_nil]
  rw [hexValue_hexDigit _ (by omega), hexValue_hexDigit _ (by omega),
    hexValue_hexDigit _ (by omega), hexValue_hexDigit _ (by omega),
    hexValue_hexDigit _ (by omega), hexValue_hexDigit _ (by omega),
    hexValue_hexDigit _ (by omega), hexValue_hexDigit _ (by omega)]
  omega

/-- Read as a number in base 16, the digest is the CRC. -/
theorem hexNumber_digest (crc : Nat) (h : crc < 2 ^ 32) :
    hexNumber (hexEncode (sumBytes crc)) = crc := by
  unfold sumBytes
  rw [hexNumber_hexEncode]
  have e0 : (Fin.ofNat (crc >>> 24) : Byte).val = crc / 2 ^ 24 % 256 := by
    rw [Nat.shiftRight_eq_div_pow]; rfl
  have e1 : (Fin.ofNat (crc >>> 16) : Byte).val = crc / 2 ^ 16 % 256 := by
    rw [Nat.shiftRight_eq_div_pow]; rfl
  have e2 : (Fin.ofNat (crc >>> 8) : Byte).val = crc / 2 ^ 8 % 256 := by
    rw [Nat.shiftRight_eq_div_pow]; rfl
  have e3 : (Fin.ofNat crc : Byte).val = crc % 256 := rfl
  rw [e0, e1, e2, e3]
  omega

/-! ## The loop of the byte formatters -/

/-- With more fuel the loop gives the same result. -/
theorem unitLoop_succ (unit : Int) : ∀ (fuel : Nat) (n div : Int) (exp : Nat) (r : Int × Nat),
    unitLoop unit fuel n div exp = some r → unitLoop unit (fuel + 1) n div exp = some r := by
  intro fuel
  induction fuel with
  | zero => intro n div exp r h; simp [unitLoop] at h
  | succ fuel ih =>
    intro n div exp r h
    rw [unitLoop] at h ⊢
    by_cases hn : n ≥ unit
    · rw [if_pos hn] at h ⊢
      exact ih _ _ _ _ h
    · rw [if_neg hn] at h ⊢
      exact h

theorem unitLoop_mono (unit : Int) (fuel : Nat) (n div : Int) (exp : Nat) (r : Int × Nat)
    (h : unitLoop unit fuel n div exp = some r) :
    ∀ fuel2, fuel ≤ fuel2 → unitLoop unit fuel2 n div exp = some r := by
  intro fuel2 hle
  induction fuel2 with
  | zero =>
    have : fuel = 0 := by omega
    rw [this] at h
    exact h
  | succ k ih =>
    by_cases hk : fuel ≤ k
    · exact unitLoop_succ unit k n div exp r (ih hk)
    · have : fuel = k + 1 := by omega
      rw [← this]
      exact h

/-- The loop ends when the fuel exceeds the number of digits of `n` in base
`unit`; the divisor it leaves is a power of `unit` no larger than `b`, and
the multiplications never overflow. -/
theorem unitLoop_spec (unit b : Int) (hu : 2 ≤ unit) (hb : b < 2 ^ 63) :
    ∀ (fuel : Nat) (n div : Int) (exp : Nat),
      1 ≤ n → n < unit ^ fuel → div = unit ^ (exp + 1) → div * n ≤ b →
      ∃ div2 exp2, unitLoop unit fuel n div exp = some (div2, exp2) ∧
        div2 = unit ^ (exp2 + 1) ∧ div2 ≤ b := by
  intro fuel
  induction fuel with
  | zero =>
    intro n div exp h1 h2 _ _
    simp at h2
    omega
  | succ fuel ih =>
    intro n div exp h1 h2 hdiv hle
    have hdpos : 0 < div := by
      rw [hdiv]
      exact pow_pos (by omega) _
    rw [unitLoop]
    by_cases hn : n ≥ unit
    · rw [if_pos hn]
      have hn0 : 0 ≤ n := by omega
      have hu0 : 0 ≤ unit := by omega
      have hupos : 0 < unit := by omega
      rw [Int.tdiv_eq_ediv hn0 hu0]
      have hq1 : 1 ≤ n / unit := Int.le_ediv_of_mul_le hupos (by omega)
      have hq2 : n / unit < unit ^ fuel := by
        apply Int.ediv_lt_of_lt_mul hupos
        rw [pow_succ] at h2
        exact h2
      have hq3 : unit * (n / unit) ≤ n := Int.mul_ediv_self_le (by omega)
      have hq4 : div * unit * (n / unit) ≤ b := by
        have : div * (unit * (n / unit)) ≤ div * n :=
          mul_le_mul_of_nonneg_left hq3 (le_of_lt hdpos)
        rw [mul_assoc]
        omega
      have hq5 : div * unit ≤ b := by
        have : div * unit * 1 ≤ div * unit * (n / unit) :=
          mul_le_mul_of_nonneg_left hq1 (le_of_lt (mul_pos hdpos hupos))
        omega
      have hq6 : 0 < div * unit := mul_pos hdpos hupos
      have hw : wrapInt64 (div * unit) = div * unit :=
        wrapInt64_of_range _ (by omega) (by omega)
      rw [hw]
      exact ih (n / unit) (div * unit) (exp + 1) hq1 hq2 (by rw [hdiv, pow_succ (unit) (exp + 1)]) hq4
    · rw [if_neg hn]
      refine ⟨div, exp, rfl, hdiv, ?_⟩
      have : div * 1 ≤ div * n := mul_le_mul_of_nonneg_left h1 (le_of_lt hdpos)
      omega

theorem unitLoop_start (unit b : Int) (hu : 2 ≤ unit) (hu64 : 2 ^ 63 ≤ unit ^ 64)
    (hb1 : unit ≤ b) (hb2 : b < 2 ^ 63) :
    ∃ div exp, (∀ fuel, 64 ≤ fuel → unitLoop unit fuel (b.tdiv unit) unit 0 = some (div, exp)) ∧
      div = unit ^ (exp + 1) ∧ div ≤ b ∧ div < 2 ^ 63 := by
  have hupos : 0 < unit := by omega
  have hb0 : 0 ≤ b := by omega
  have htd : b.tdiv unit = b / unit := Int.tdiv_eq_ediv hb0 (by omega)
  have hq1 : 1 ≤ b / unit := Int.le_ediv_of_mul_le hupos (by omega)
  have hq3 : unit * (b / unit) ≤ b := Int.mul_ediv_self_le (by omega)
  have hq2 : b / unit < unit ^ 64 := by
    have : b / unit ≤ b := Int.ediv_le_self _ hb0
    omega
  obtain ⟨div, exp, h, hd, hle⟩ :=
    unitLoop_spec unit b hu hb2 64 (b / unit) unit 0 hq1 hq2 (by simp) hq3
  rw [← htd] at h
  exact ⟨div, exp, unitLoop_mono unit 64 _ _ _ _ h, hd, hle, by omega⟩

theorem exp_le_five (unit : Int) (exp : Nat) (hu : 1000 ≤ unit)
    (h : unit ^ (exp + 1) < 2 ^ 63) : exp ≤ 5 := by
  by_contra hc
  have h7 : 7 ≤ exp + 1 := by omega
  have h1 : (1000 : Int) ^ 7 ≤ 1000 ^ (exp + 1) := pow_le_pow_right₀ (by norm_num) h7
  have h2 : (1000 : Int) ^ (exp + 1) ≤ unit ^ (exp + 1) :=
    pow_le_pow_left₀ (by norm_num) hu _
  have h3 : (2 : Int) ^ 63 < 1000 ^ 7 := by norm_num
  omega

/-! ## Independence from the order of the candidates -/

theorem pairwise_of_forall_mem {α : Type} (R : α → α → Prop) (l : List α)
    (h : ∀ x ∈ l, ∀ y ∈ l, R x y) : l.Pairwise R := by
  induction l with
  | nil => exact List.Pairwise.nil
  | cons a rest ih =>
    rw [List.pairwise_cons]
    exact ⟨fun y hy => h a (List.mem_cons_self _ _) y (List.mem_cons_of_mem _ hy),
      ih (fun x hx y hy => h x (List.mem_cons_of_mem _ hx) y (List.mem_cons_of_mem _ hy))⟩

theorem outerRec_mem (n : Nat) (fs : List File) (h : fs.length ≤ n) :
    ∀ x ∈ (outerRec n fs).2, ∃ f ∈ fs, x = mark f := by
  intro x hx
  have hp := (outerRec_perm n fs h).mem_iff.mp hx
  rw [List.mem_map] at hp
  obtain ⟨f, hf, rfl⟩ := hp
  exact ⟨f, (List.mem_filter.mp hf).1, rfl⟩

theorem innerRec_sizes (size : Int) (fs : List File) :
    (innerRec size fs).1.map (fun f => f.Size) = fs.map (fun f => f.Size) := by
  rw [innerRec_fst, List.map_map]
  apply List.map_congr_left
  intro f _
  by_cases h : (!f.Duplicate && decide (f.Size = size)) = true
  · simp only [Function.comp, h, if_true, mark]
  · simp only [Function.comp, h, Bool.false_eq_true, if_false]

theorem pairwise_size_iff (l : List File) :
    l.Pairwise (fun a b => a.Size ≥ b.Size)
      ↔ (l.map (fun f => f.Size)).Pairwise (fun a b => a ≥ b) := by
  rw [List.pairwise_map]

/-- On a slice in descending order of size the working list is in
descending order of size. -/
theorem outerRec_sorted : ∀ (n : Nat) (fs : List File), fs.length ≤ n →
    fs.Pairwise (fun a b => a.Size ≥ b.Size) →
    (outerRec n fs).2.Pairwise (fun a b => a.Size ≥ b.Size) := by
  intro n
  induction n with
  | zero =>
    intro fs _ _
    simp [outerRec]
  | succ n ih =>
    intro fs hlen hs
    cases fs with
    | nil => simp [outerRec]
    | cons cf rest =>
      have hlen1 : rest.length ≤ n := by simpa using hlen
      rw [List.pairwise_cons] at hs
      by_cases hd : cf.Duplicate = true
      · have : outerRec (n + 1) (cf :: rest) = (cf :: (outerRec n rest).1, (outerRec n rest).2) := by
          simp [outerRec, hd]
        rw [this]
        exact ih rest hlen1 hs.2
      · have hout : (outerRec (n + 1) (cf :: rest)).2
            = ((innerRec cf.Size rest).2 ++
                (if (innerRec cf.Size rest).2 = [] then [] else [mark cf])) ++
                (outerRec n (innerRec cf.Size rest).1).2 := by
          simp [outerRec, hd]
        have hlen2 : (innerRec cf.Size rest).1.length ≤ n := by
          rw [innerRec_length]; exact hlen1
        have hI1 : (innerRec cf.Size rest).1.Pairwise (fun a b => a.Size ≥ b.Size) := by
          rw [pairwise_size_iff, innerRec_sizes, ← pairwise_size_iff]
          exact hs.2
        have hI1le : ∀ f ∈ (innerRec cf.Size rest).1, cf.Size ≥ f.Size := by
          intro f hf
          have hm : f.Size ∈ (innerRec cf.Size rest).1.map (fun f => f.Size) :=
            List.mem_map_of_mem _ hf
          rw [innerRec_sizes, List.mem_map] at hm
          obtain ⟨g, hg, hgs⟩ := hm
          rw [← hgs]
          exact hs.1 g hg
        have hR := ih _ hlen2 hI1
        have hhead : ∀ x ∈ (innerRec cf.Size rest).2 ++
            (if (innerRec cf.Size rest).2 = [] then [] else [mark cf]), x.Size = cf.Size := by
          intro x hx
          rw [List.mem_append] at hx
          rcases hx with hx | hx
          · rw [innerRec_snd, List.mem_map] at hx
            obtain ⟨f, hf, rfl⟩ := hx
            have := (List.mem_filter.mp hf).2
            simp only [Bool.and_eq_true, Bool.not_eq_true', decide_eq_true_eq] at this
            exact this.2
          · by_cases he : (innerRec cf.Size rest).2 = []
            · simp [he] at hx
            · simp only [he, if_false, List.mem_singleton] at hx
              rw [hx]
              rfl
        rw [hout, List.pairwise_append]
        refine ⟨?_, hR, ?_⟩
        · apply pairwise_of_forall_mem
          intro x hx y hy
          rw [hhead x hx, hhead y hy]
        · intro x hx y hy
          obtain ⟨f, hf, rfl⟩ := outerRec_mem n _ hlen2 y hy
          rw [hhead x hx]
          exact hI1le f hf

theorem bucket_dups_sorted (files : List File)
    (hs : files.Pairwise (fun a b => a.Size ≥ b.Size)) :
    (bucketLoop files).duplicateFiles.Pairwise (fun a b => a.Size ≥ b.Size) := by
  rw [bucketLoop_eq]
  exact outerRec_sorted _ _ (Nat.le_refl _) hs

theorem sharesSize_perm {l1 l2 : List File} (h : l1.Perm l2) :
    sharesSize l1 = sharesSize l2 := by
  funext f
  unfold sharesSize sizeCount
  rw [h.countP_eq]

/-- Two orderings of the same candidates give the same working list up to order. -/
theorem bucket_dups_perm_of_perm {l1 l2 : List File} (h : l1.Perm l2) :
    (bucketLoop l1).duplicateFiles.Perm (bucketLoop l2).duplicateFiles := by
  rw [bucketLoop_eq, bucketLoop_eq]
  have h1 := outerRec_perm l1.length l1 (Nat.le_refl _)
  have h2 := outerRec_perm l2.length l2 (Nat.le_refl _)
  rw [sharesSize_perm h] at h1
  exact h1.trans (((h.filter _).map mark).trans h2.symm)

theorem members_sorted (hash : String → Option String) (k : String) (ds : List File)
    (hs : ds.Pairwise (fun a b => a.Size ≥ b.Size)) :
    (members hash k ds).Pairwise (fun a b => a.Size ≥ b.Size) := by
  unfold members
  rw [List.pairwise_map]
  exact List.Pairwise.sublist (List.filter_sublist ds) hs

theorem firstSize_eq_of_perm {g1 g2 : List File} (h : g1.Perm g2)
    (h1 : g1.Pairwise (fun a b => a.Size ≥ b.Size))
    (h2 : g2.Pairwise (fun a b => a.Size ≥ b.Size)) : firstSize g1 = firstSize g2 := by
  cases g1 with
  | nil =>
    have := h.symm.eq_nil
    rw [this]
  | cons x r1 =>
    cases g2 with
    | nil => exact absurd h.eq_nil (by simp)
    | cons y r2 =>
      rw [List.pairwise_cons] at h1 h2
      have hy : y ∈ x :: r1 := h.mem_iff.mpr (List.mem_cons_self _ _)
      have hx : x ∈ y :: r2 := h.mem_iff.mp (List.mem_cons_self _ _)
      have hxy : x.Size ≥ y.Size := by
        rcases List.mem_cons.mp hy with rfl | hy
        · exact le_refl _
        · exact h1.1 y hy
      have hyx : y.Size ≥ x.Size := by
        rcases List.mem_cons.mp hx with rfl | hx
        · exact le_refl _
        · exact h2.1 x hx
      simp only [firstSize, List.getElem?_cons_zero]
      omega

theorem mem_keys_survivors (hash : String → Option String) (ds : List File) (k : String) :
    k ∈ (survivors (hashLoop hash ds)).map Prod.fst ↔ 2 ≤ (members hash k ds).length := by
  rw [List.mem_map]
  constructor
  · rintro ⟨e, he, rfl⟩
    have he2 : (e.1, e.2) ∈ survivors (hashLoop hash ds) := he
    obtain ⟨h1, h2⟩ := (mem_survivors_hashLoop _ _ _ _).mp he2
    rw [← h1]
    exact h2
  · intro h
    exact ⟨(k, members hash k ds), (mem_survivors_hashLoop _ _ _ _).mpr ⟨rfl, h⟩, rfl⟩

theorem keys_survivors_perm (hash : String → Option String) {ds1 ds2 : List File}
    (h : ds1.Perm ds2) :
    ((survivors (hashLoop hash ds1)).map Prod.fst).Perm
      ((survivors (hashLoop hash ds2)).map Prod.fst) := by
  rw [List.perm_ext_iff_of_nodup (nodupKeys_survivors _ (nodupKeys_hashLoop hash ds1))
    (nodupKeys_survivors _ (nodupKeys_hashLoop hash ds2))]
  intro k
  rw [mem_keys_survivors, mem_keys_survivors, (members_perm hash k h).length_eq]

theorem wastedSum_survivors_eq (hash : String → Option String) (ds : List File) :
    wastedSum (survivors (hashLoop hash ds))
      = (((survivors (hashLoop hash ds)).map Prod.fst).map
          (fun k => firstSize (members hash k ds) *
            (((members hash k ds).length : Int) - 1))).sum := by
  unfold wastedSum
  rw [List.map_map]
  congr 1
  apply List.map_congr_left
  intro e he
  have he2 : (e.1, e.2) ∈ survivors (hashLoop hash ds) := he
  have h1 := ((mem_survivors_hashLoop _ _ _ _).mp he2).1
  simp only [Function.comp, ← h1]

theorem memberCount_survivors_eq (hash : String → Option String) (ds : List File) :
    memberCount (survivors (hashLoop hash ds))
      = (((survivors (hashLoop hash ds)).map Prod.fst).map
          (fun k => (members hash k ds).length)).sum := by
  unfold memberCount
  rw [List.map_map]
  congr 1
  apply List.map_congr_left
  intro e he
  have he2 : (e.1, e.2) ∈ survivors (hashLoop hash ds) := he
  have h1 := ((mem_survivors_hashLoop _ _ _ _).mp he2).1
  simp only [Function.comp, ← h1]

/-- Two working lists in descending order of size that are permutations of
each other give the same sums. -/
theorem sums_eq_of_perm (hash : String → Option String) {ds1 ds2 : List File}
    (h : ds1.Perm ds2)
    (h1 : ds1.Pairwise (fun a b => a.Size ≥ b.Size))
    (h2 : ds2.Pairwise (fun a b => a.Size ≥ b.Size)) :
    memberCount (survivors (hashLoop hash ds1)) = memberCount (survivors (hashLoop hash ds2)) ∧
    wastedSum (survivors (hashLoop hash ds1)) = wastedSum (survivors (hashLoop hash ds2)) := by
  have hk := keys_survivors_perm hash h
  constructor
  · rw [memberCount_survivors_eq, memberCount_survivors_eq]
    have hf : (fun k => (members hash k ds1).length) = (fun k => (members hash k ds2).length) := by
      funext k
      exact (members_perm hash k h).length_eq
    rw [hf]
    exact (hk.map _).sum_eq
  · rw [wastedSum_survivors_eq, wastedSum_survivors_eq]
    have hf : (fun k => firstSize (members hash k ds1) *
          (((members hash k ds1).length : Int) - 1))
        = (fun k => firstSize (members hash k ds2) *
          (((members hash k ds2).length : Int) - 1)) := by
      funext k
      rw [(members_perm hash k h).length_eq,
        firstSize_eq_of_perm (members_perm hash k h) (members_sorted hash k ds1 h1)
          (members_sorted hash k ds2 h2)]
    rw [hf]
    exact (hk.map _).sum_eq

/-! ## Claims C11 to C20 -/

/-- C11, as stated, fails: a file whose `os.Stat` fails is an entry the
walker attempts to stat, and it is not counted in `SeenFiles`: of the two
entries attempted one is counted. -/
theorem failed_stat_is_not_seen :
    treeWithFailedStat.attempted = 2 ∧
    main exampleEnv "/d" 0 (some treeWithFailedStat)
      = .done { files := [candidate "/d/a" 5]
                duplicateFiles := []
                hm := []
                stat := { SeenFiles := 1, FilteredFiles := 1, DuplicateFiles := 0,
                          WastedSpace := 0 } } := by
  decide

/-- C11, amended. `SeenFiles` is incremented once for every entry that is
not excluded, is not a directory and whose `os.Stat` succeeds, whether or
not the file then passes the size filter: at the end of a run (a directory
is given and the walk returns no error) it is the number of these entries
(modulo `2 ^ 64`, the counter being a `uint64`). The entries whose stat
fails are attempted and not counted. -/
theorem seen_counts_successful_stats (env : Env) (dirname : String) (minFileSize : Int)
    (root : Entry) (w : WalkState)
    (hperm : ∀ m, (env.rangeOrder m).Perm m)
    (hdir : dirname ≠ "")
    (hwalk : Walk env.byteCountSI minFileSize (some root) initState = some w) :
    ∃ out, main env dirname minFileSize (some root) = .done out ∧
      out.stat.SeenFiles = wrapUint64 root.statted ∧
      (root.statted < 2 ^ 64 → out.stat.SeenFiles = root.statted) ∧
      root.statted ≤ root.attempted ∧
      (∀ (p : String) (s : WalkState),
        walk env.byteCountSI minFileSize (.file p none) s = s) := by
  have hweq := Walk_eq_walk env.byteCountSI minFileSize root initState w hwalk
  have hseen := walk_seen env.byteCountSI minFileSize root initState (by simp [initState])
  have h0 : initState.stat.SeenFiles = 0 := rfl
  rw [h0, Nat.zero_add, ← hweq] at hseen
  refine ⟨_, main_done env dirname minFileSize root w hperm hdir hwalk, hseen, ?_,
    statted_le_attempted root, ?_⟩
  · intro h
    show w.stat.SeenFiles = root.statted
    rw [hseen]
    exact wrapUint64_of_lt _ h
  · intro p s
    by_cases hk : skipThis p = true
    · simp [walk, hk]
    · simp [walk, hk, visitFile]

/-- Witness of the amended C11: the tree with a file whose stat fails. -/
theorem seen_counts_successful_stats_witness :
    ∃ out, main exampleEnv "/d" 0 (some treeWithFailedStat) = .done out ∧
      out.stat.SeenFiles = wrapUint64 treeWithFailedStat.statted ∧
      (treeWithFailedStat.statted < 2 ^ 64 →
        out.stat.SeenFiles = treeWithFailedStat.statted) ∧
      treeWithFailedStat.statted ≤ treeWithFailedStat.attempted ∧
      (∀ (p : String) (s : WalkState),
        walk exampleEnv.byteCountSI 0 (.file p none) s = s) :=
  seen_counts_successful_stats exampleEnv "/d" 0 treeWithFailedStat failedStatWalked
    (fun m => List.Perm.refl m) (by decide) (by decide)

/-- C12. A record of the working list whose `CRC32Hash` call returns an
error is skipped and the run goes on: the stage ends, the record is a member
of no group of the final map, `SeenFiles` and `FilteredFiles` are as they
were before hashing (they do not depend on its outcome), and the final map,
`DuplicateFiles` and `WastedSpace` are those the stage produces on the
working list without the record, where every other record is hashed and
grouped. -/
theorem hash_failure_is_skipped (hash : String → Option String)
    (rangeOrder : HashMap → List (String × List File)) (pre post : List File) (f : File)
    (stat : Stats)
    (hperm : ∀ m, (rangeOrder m).Perm m)
    (hfail : hash f.Path = none) :
    ∃ r, groupStage hash rangeOrder (pre ++ f :: post) stat = some r ∧
      groupStage hash rangeOrder (pre ++ post) stat = some r ∧
      (∀ e ∈ r.1, ∀ x ∈ e.2, x.Path ≠ f.Path) ∧
      r.2.SeenFiles = stat.SeenFiles ∧ r.2.FilteredFiles = stat.FilteredFiles ∧
      (∀ hash2 r2, groupStage hash2 rangeOrder (pre ++ f :: post) stat = some r2 →
        r2.2.SeenFiles = r.2.SeenFiles ∧ r2.2.FilteredFiles = r.2.FilteredFiles) ∧
      (∀ e ∈ r.1, e.2 = members hash e.1 (pre ++ post)) ∧
      (∀ k, 2 ≤ (members hash k (pre ++ post)).length →
        (k, members hash k (pre ++ post)) ∈ r.1) := by
  obtain ⟨st, hst⟩ := groupStage_out hash rangeOrder (pre ++ f :: post) stat hperm
  have hskip := hashLoop_skip hash pre post f hfail
  have hst2 : groupStage hash rangeOrder (pre ++ post) stat
      = some (survivors (hashLoop hash (pre ++ post)), st) := by
    rw [← hskip]
    have : groupStage hash rangeOrder (pre ++ post) stat
        = groupStage hash rangeOrder (pre ++ f :: post) stat := by
      unfold groupStage
      rw [hskip]
    rw [this, hst]
  have hkeep := pruneLoop_keeps _ _ _ hst2
  rw [hskip] at hst
  refine ⟨_, hst, hst2, ?_, hkeep.1, hkeep.2, ?_, ?_, ?_⟩
  · intro e he x hx hpath
    have he2 : (e.1, e.2) ∈ survivors (hashLoop hash (pre ++ post)) := he
    have hg := ((mem_survivors_hashLoop _ _ _ _).mp he2).1
    rw [hg, mem_members] at hx
    obtain ⟨d, _, hd, rfl⟩ := hx
    have hp : d.Path = f.Path := hpath
    rw [hp, hfail] at hd
    cases hd
  · intro hash2 r2 h2
    have hk2 := pruneLoop_keeps _ _ _ h2
    exact ⟨hk2.1.trans hkeep.1.symm, hk2.2.trans hkeep.2.symm⟩
  · intro e he
    have he2 : (e.1, e.2) ∈ survivors (hashLoop hash (pre ++ post)) := he
    exact ((mem_survivors_hashLoop _ _ _ _).mp he2).1
  · intro k hk
    exact (mem_survivors_hashLoop _ _ _ _).mpr ⟨rfl, hk⟩

/-- Witness of C12: a working list of three records, the second of which
cannot be read. -/
theorem hash_failure_is_skipped_witness :
    ∃ r, groupStage hashWithFailure id
        ([mark (candidate "/d/a" 5)] ++ mark (candidate "/d/gone" 5) ::
          [mark (candidate "/d/b" 5)]) zeroStats = some r ∧
      groupStage hashWithFailure id
        ([mark (candidate "/d/a" 5)] ++ [mark (candidate "/d/b" 5)]) zeroStats = some r ∧
      (∀ e ∈ r.1, ∀ x ∈ e.2, x.Path ≠ (mark (candidate "/d/gone" 5)).Path) ∧
      r.2.SeenFiles = zeroStats.SeenFiles ∧ r.2.FilteredFiles = zeroStats.FilteredFiles ∧
      (∀ hash2 r2, groupStage hash2 id
          ([mark (candidate "/d/a" 5)] ++ mark (candidate "/d/gone" 5) ::
            [mark (candidate "/d/b" 5)]) zeroStats = some r2 →
        r2.2.SeenFiles = r.2.SeenFiles ∧ r2.2.FilteredFiles = r.2.FilteredFiles) ∧
      (∀ e ∈ r.1, e.2 = members hashWithFailure e.1
        ([mark (candidate "/d/a" 5)] ++ [mark (candidate "/d/b" 5)])) ∧
      (∀ k, 2 ≤ (members hashWithFailure k
          ([mark (candidate "/d/a" 5)] ++ [mark (candidate "/d/b" 5)])).length →
        (k, members hashWithFailure k
          ([mark (candidate "/d/a" 5)] ++ [mark (candidate "/d/b" 5)])) ∈ r.1) :=
  hash_failure_is_skipped hashWithFailure id [mark (candidate "/d/a" 5)]
    [mark (candidate "/d/b" 5)] (mark (candidate "/d/gone" 5)) zeroStats
    (fun m => List.Perm.refl m) (by decide)

/-- C15. On a candidate slice whose files have pairwise distinct sizes the
working list is empty, so the hashing loop hashes no file, the final map is
empty, and `DuplicateFiles` and `WastedSpace` stay at 0. -/
theorem distinct_sizes_give_nothing (hash : String → Option String)
    (rangeOrder : HashMap → List (String × List File)) (files : List File) (stat : Stats)
    (hperm : ∀ m, (rangeOrder m).Perm m)
    (hflag : ∀ f ∈ files, f.Duplicate = false)
    (hsize : (files.map (fun f => f.Size)).Nodup)
    (hD : stat.DuplicateFiles = 0) (hW : stat.WastedSpace = 0) :
    ∃ out, detect hash rangeOrder files stat = some out ∧
      out.duplicateFiles = [] ∧
      hashLoop hash out.duplicateFiles = [] ∧
      out.hm = [] ∧
      out.stat.DuplicateFiles = 0 ∧ out.stat.WastedSpace = 0 := by
  have hr : stat.InRange := by
    unfold Stats.InRange
    rw [hD, hW]
    norm_num
  have hnil := bucket_dups_nil files hflag hsize
  have h := detect_eq hash rangeOrder files stat hperm hr
  rw [hnil] at h
  refine ⟨_, h, rfl, rfl, rfl, ?_, ?_⟩
  · simp [hD, hashLoop, survivors, memberCount, wrapUint64]
  · simp [hW, hashLoop, survivors, wastedSum, wrapInt64]

/-- Witness of C15: three files of sizes 5, 4 and 3. -/
theorem distinct_sizes_give_nothing_witness :
    ∃ out, detect (CRC32Hash collidingFiles) id
        [candidate "/d/a" 5, candidate "/d/x" 4, candidate "/d/y" 3] zeroStats = some out ∧
      out.duplicateFiles = [] ∧
      hashLoop (CRC32Hash collidingFiles) out.duplicateFiles = [] ∧
      out.hm = [] ∧
      out.stat.DuplicateFiles = 0 ∧ out.stat.WastedSpace = 0 :=
  distinct_sizes_give_nothing (CRC32Hash collidingFiles) id
    [candidate "/d/a" 5, candidate "/d/x" 4, candidate "/d/y" 3] zeroStats
    (fun m => List.Perm.refl m) (by decide) (by decide) rfl rfl

/-- C18. Members are in the order hashed: for every key `h` of the final
map, the group stored under `h` is the sub-sequence of the working list, in
its order, of the records whose hashing succeeded with digest `h`, each
with its `CRC32Hash` field set to `h` and its other fields unchanged. -/
theorem members_in_hashing_order (hash : String → Option String)
    (rangeOrder : HashMap → List (String × List File)) (files : List File) (stat : Stats)
    (hperm : ∀ m, (rangeOrder m).Perm m) :
    ∃ out, detect hash rangeOrder files stat = some out ∧
      (∀ e ∈ out.hm,
        e.2 = (out.duplicateFiles.filter (fun f => decide (hash f.Path = some e.1))).map
          (fun f => { f with CRC32Hash := e.1 })) ∧
      (∀ e ∈ out.hm,
        (out.duplicateFiles.filter (fun f => decide (hash f.Path = some e.1))).Sublist
          out.duplicateFiles) ∧
      (∀ (h : String) (f : File),
        ({ f with CRC32Hash := h } : File).Path = f.Path ∧
        ({ f with CRC32Hash := h } : File).Size = f.Size ∧
        ({ f with CRC32Hash := h } : File).SizeHuman = f.SizeHuman ∧
        ({ f with CRC32Hash := h } : File).Duplicate = f.Duplicate ∧
        ({ f with CRC32Hash := h } : File).CRC32Hash = h) := by
  obtain ⟨st, hst⟩ := detect_out hash rangeOrder files stat hperm
  refine ⟨_, hst, ?_, ?_, ?_⟩
  · intro e he
    have he2 : (e.1, e.2) ∈ survivors (hashLoop hash (bucketLoop files).duplicateFiles) := he
    exact ((mem_survivors_hashLoop _ _ _ _).mp he2).1
  · intro e _
    exact List.filter_sublist _
  · intro h f
    exact ⟨rfl, rfl, rfl, rfl, rfl⟩

/-- Witness of C18: four files of one size, two digests. -/
theorem members_in_hashing_order_witness :
    ∃ out, detect crossSizeHash id
        [candidate "/d/c" 7, candidate "/d/d" 7, candidate "/d/a" 7, candidate "/d/b" 7]
        zeroStats = some out ∧
      (∀ e ∈ out.hm,
        e.2 = (out.duplicateFiles.filter
            (fun f => decide (crossSizeHash f.Path = some e.1))).map
          (fun f => { f with CRC32Hash := e.1 })) ∧
      (∀ e ∈ out.hm,
        (out.duplicateFiles.filter
            (fun f => decide (crossSizeHash f.Path = some e.1))).Sublist
          out.duplicateFiles) ∧
      (∀ (h : String) (f : File),
        ({ f with CRC32Hash := h } : File).Path = f.Path ∧
        ({ f with CRC32Hash := h } : File).Size = f.Size ∧
        ({ f with CRC32Hash := h } : File).SizeHuman = f.SizeHuman ∧
        ({ f with CRC32Hash := h } : File).Duplicate = f.Duplicate ∧
        ({ f with CRC32Hash := h } : File).CRC32Hash = h) :=
  members_in_hashing_order crossSizeHash id
    [candidate "/d/c" 7, candidate "/d/d" 7, candidate "/d/a" 7, candidate "/d/b" 7]
    zeroStats (fun m => List.Perm.refl m)

/-- C19. No file is reported twice: on a candidate slice with pairwise
distinct paths and no flag set, each path occurs at most once in the working
list and at most once in all the member lists of the final map taken
together (no group repeats a record and no two groups share one), and
the number of members `DuplicateFiles` sums is the length of that list. -/
theorem no_double_reporting (hash : String → Option String)
    (rangeOrder : HashMap → List (String × List File)) (files : List File) (stat : Stats)
    (hperm : ∀ m, (rangeOrder m).Perm m)
    (hflag : ∀ f ∈ files, f.Duplicate = false)
    (hpath : (files.map (fun f => f.Path)).Nodup) :
    ∃ out, detect hash rangeOrder files stat = some out ∧
      (out.duplicateFiles.map (fun f => f.Path)).Nodup ∧
      ((out.hm.flatMap Prod.snd).map (fun f => f.Path)).Nodup ∧
      (∀ e ∈ out.hm, e.2.Nodup) ∧
      (out.hm.Pairwise (fun a b => List.Disjoint a.2 b.2)) ∧
      memberCount out.hm = (out.hm.flatMap Prod.snd).length := by
  obtain ⟨st, hst⟩ := detect_out hash rangeOrder files stat hperm
  have hd := bucket_dups_paths_nodup files hflag hpath
  have hs := survivors_paths_nodup hash (bucketLoop files).duplicateFiles hd
  have hflat := List.Nodup.of_map _ hs
  rw [List.nodup_flatMap] at hflat
  exact ⟨_, hst, hd, hs, hflat.1, hflat.2, memberCount_eq_length _⟩

/-- Witness of C19: the four files of the example with two digests. -/
theorem no_double_reporting_witness :
    ∃ out, detect crossSizeHash id
        [candidate "/d/c" 7, candidate "/d/d" 7, candidate "/d/a" 7, candidate "/d/b" 7]
        zeroStats = some out ∧
      (out.duplicateFiles.map (fun f => f.Path)).Nodup ∧
      ((out.hm.flatMap Prod.snd).map (fun f => f.Path)).Nodup ∧
      (∀ e ∈ out.hm, e.2.Nodup) ∧
      (out.hm.Pairwise (fun a b => List.Disjoint a.2 b.2)) ∧
      memberCount out.hm = (out.hm.flatMap Prod.snd).length :=
  no_double_reporting crossSizeHash id
    [candidate "/d/c" 7, candidate "/d/d" 7, candidate "/d/a" 7, candidate "/d/b" 7]
    zeroStats (fun m => List.Perm.refl m) (by decide) (by decide)

/-- C17 fails on the code: on two candidates of the same size the loop sets
the flag of the second in `files` and appends both, flagged, to the working
list, and it leaves the first, the scanned entry, unflagged in `files`: the
flag is set on the copy `checkFile` only. -/
theorem scanned_entry_not_marked_in_place :
    bucketLoop [candidate "/d/a" 5, candidate "/d/b" 5]
      = { files := [candidate "/d/a" 5, mark (candidate "/d/b" 5)]
          duplicateFiles := [mark (candidate "/d/b" 5), mark (candidate "/d/a" 5)] } ∧
    (candidate "/d/a" 5).Duplicate = false ∧
    (candidate "/d/a" 5).Size = (candidate "/d/b" 5).Size := by
  decide

/-- C14, as stated, fails: of three files of five bytes, two have the same
contents and the third has other contents with the same CRC-32; the final
map has one group with all three as members, `DuplicateFiles` is 3 and
`WastedSpace` is twice the size. -/
theorem three_files_one_collision :
    detect (CRC32Hash threeCollidingFiles) id
        [candidate "/d/a" 5, candidate "/d/a2" 5, candidate "/d/b" 5] zeroStats
      = some { files := [candidate "/d/a" 5, mark (candidate "/d/a2" 5),
                         mark (candidate "/d/b" 5)]
               duplicateFiles := [mark (candidate "/d/a2" 5), mark (candidate "/d/b" 5),
                                  mark (candidate "/d/a" 5)]
               hm := [("c622f71d", [setHash "c622f71d" (mark (candidate "/d/a2" 5)),
                                     setHash "c622f71d" (mark (candidate "/d/b" 5)),
                                     setHash "c622f71d" (mark (candidate "/d/a" 5))])]
               stat := { SeenFiles := 0, FilteredFiles := 3, DuplicateFiles := 3,
                         WastedSpace := 10 } } ∧
    threeCollidingFiles "/d/a" = threeCollidingFiles "/d/a2" ∧
    threeCollidingFiles "/d/b" ≠ threeCollidingFiles "/d/a" := by
  decide

/-- C14, amended. On a candidate slice of exactly three files of one size
`s`, all read with success, two with the same contents and the third with
contents of another CRC-32 digest, the final map has exactly one group, its
members are the two files of the same contents, the third file is in no
group, `DuplicateFiles` is 2 and `WastedSpace` is `s`. -/
theorem two_of_three_grouped (readFile : String → Option (List Byte))
    (rangeOrder : HashMap → List (String × List File)) (files : List File) (stat : Stats)
    (a b c : File) (s : Int) (ca cc : List Byte)
    (hperm : ∀ m, (rangeOrder m).Perm m)
    (hfiles : files.Perm [a, b, c])
    (hfa : a.Duplicate = false) (hfb : b.Duplicate = false) (hfc : c.Duplicate = false)
    (hsa : a.Size = s) (hsb : b.Size = s) (hsc : c.Size = s)
    (hs1 : -2 ^ 63 ≤ s) (hs2 : s < 2 ^ 63)
    (hra : readFile a.Path = some ca) (hrb : readFile b.Path = some ca)
    (hrc : readFile c.Path = some cc)
    (hne : hexEncode (sumBytes (crcUpdate 0xedb88320 0 cc))
      ≠ hexEncode (sumBytes (crcUpdate 0xedb88320 0 ca)))
    (hD : stat.DuplicateFiles = 0) (hW : stat.WastedSpace = 0) :
    ∃ out, detect (CRC32Hash readFile) rangeOrder files stat = some out ∧
      (∃ g, out.hm = [(hexEncode (sumBytes (crcUpdate 0xedb88320 0 ca)), g)] ∧
        g.Perm [setHash (hexEncode (sumBytes (crcUpdate 0xedb88320 0 ca))) (mark a),
                setHash (hexEncode (sumBytes (crcUpdate 0xedb88320 0 ca))) (mark b)]) ∧
      (∀ e ∈ out.hm, ∀ x ∈ e.2, x.Path ≠ c.Path) ∧
      out.stat.DuplicateFiles = 2 ∧ out.stat.WastedSpace = s := by
  have hr : stat.InRange := by
    unfold Stats.InRange
    rw [hD, hW]
    norm_num
  have hdet := detect_eq (CRC32Hash readFile) rangeOrder files stat hperm hr
  have hdups := bucket_dups_three files a b c s hfiles hfa hfb hfc hsa hsb hsc
  generalize hd : hexEncode (sumBytes (crcUpdate 0xedb88320 0 ca)) = d at *
  generalize hd2 : hexEncode (sumBytes (crcUpdate 0xedb88320 0 cc)) = d2 at *
  have hha : CRC32Hash readFile a.Path = some d := by simp [CRC32Hash, hra, hd]
  have hhb : CRC32Hash readFile b.Path = some d := by simp [CRC32Hash, hrb, hd]
  have hhc : CRC32Hash readFile c.Path = some d2 := by simp [CRC32Hash, hrc, hd2]
  have hpa : (mark a).Path = a.Path := rfl
  have hpb : (mark b).Path = b.Path := rfl
  have hpc : (mark c).Path = c.Path := rfl
  have hne2 : ¬ d = d2 := fun h => hne h.symm
  have hmem : ∀ k, (members (CRC32Hash readFile) k (bucketLoop files).duplicateFiles).Perm
      (members (CRC32Hash readFile) k [mark a, mark b, mark c]) :=
    fun k => members_perm _ k hdups
  have hmd : members (CRC32Hash readFile) d [mark a, mark b, mark c]
      = [setHash d (mark a), setHash d (mark b)] := by
    simp [members, List.filter_cons, hpa, hpb, hpc, hha, hhb, hhc, hne]
  have hlen : ∀ k, 2 ≤ (members (CRC32Hash readFile) k
      (bucketLoop files).duplicateFiles).length → k = d := by
    intro k hk
    rw [(hmem k).length_eq] at hk
    by_contra hkd
    have hkd2 : ¬ d = k := fun h => hkd h.symm
    by_cases hk2 : d2 = k
    · simp [members, List.filter_cons, hpa, hpb, hpc, hha, hhb, hhc, hkd2, hk2] at hk
    · simp [members, List.filter_cons, hpa, hpb, hpc, hha, hhb, hhc, hkd2, hk2] at hk
  have hgd := hmem d
  rw [hmd] at hgd
  have hin : (d, members (CRC32Hash readFile) d (bucketLoop files).duplicateFiles)
      ∈ survivors (hashLoop (CRC32Hash readFile) (bucketLoop files).duplicateFiles) :=
    (mem_survivors_hashLoop _ _ _ _).mpr ⟨rfl, by rw [hgd.length_eq]; simp⟩
  have hall : ∀ e ∈ survivors (hashLoop (CRC32Hash readFile) (bucketLoop files).duplicateFiles),
      e.1 = d := by
    intro e he
    have he2 : (e.1, e.2)
        ∈ survivors (hashLoop (CRC32Hash readFile) (bucketLoop files).duplicateFiles) := he
    obtain ⟨h1, h2⟩ := (mem_survivors_hashLoop _ _ _ _).mp he2
    rw [h1] at h2
    exact hlen e.1 h2
  have hsingle := eq_singleton_of_nodupKeys _ _
    (nodupKeys_survivors _ (nodupKeys_hashLoop (CRC32Hash readFile) _)) hall hin
  have hpathc : ∀ x ∈ members (CRC32Hash readFile) d (bucketLoop files).duplicateFiles,
      x.Path ≠ c.Path := by
    intro x hx hxc
    have hx2 := hgd.mem_iff.mp hx
    simp only [List.mem_cons, List.mem_singleton, List.not_mem_nil, or_false] at hx2
    rcases hx2 with rfl | rfl
    · have : a.Path = c.Path := hxc
      rw [this, hhc] at hha
      exact hne2 (Option.some.inj hha).symm
    · have : b.Path = c.Path := hxc
      rw [this, hhc] at hhb
      exact hne2 (Option.some.inj hhb).symm
  have hfirst : firstSize (members (CRC32Hash readFile) d (bucketLoop files).duplicateFiles)
      = s := by
    cases hg : members (CRC32Hash readFile) d (bucketLoop files).duplicateFiles with
    | nil =>
      rw [hg] at hgd
      have := hgd.length_eq
      simp at this
    | cons x rest =>
      have hx : x ∈ members (CRC32Hash readFile) d (bucketLoop files).duplicateFiles := by
        rw [hg]; exact List.mem_cons_self _ _
      have hx2 := hgd.mem_iff.mp hx
      simp only [List.mem_cons, List.mem_singleton, List.not_mem_nil, or_false] at hx2
      have hxs : x.Size = s := by
        rcases hx2 with rfl | rfl
        · exact hsa
        · exact hsb
      simp [firstSize, hxs]
  refine ⟨_, hdet, ⟨_, hsingle, hgd⟩, ?_, ?_, ?_⟩
  · intro e he x hx
    have he2 : e ∈ survivors (hashLoop (CRC32Hash readFile) (bucketLoop files).duplicateFiles) :=
      he
    rw [hsingle, List.mem_singleton] at he2
    rw [he2] at hx
    exact hpathc x hx
  · show wrapUint64 (stat.DuplicateFiles + memberCount (survivors
      (hashLoop (CRC32Hash readFile) (bucketLoop files).duplicateFiles))) = 2
    rw [hsingle, hD]
    simp [memberCount, hgd.length_eq, wrapUint64]
  · show wrapInt64 (stat.WastedSpace + wastedSum (survivors
      (hashLoop (CRC32Hash readFile) (bucketLoop files).duplicateFiles))) = s
    rw [hsingle, hW]
    simp only [wastedSum, List.map_cons, List.map_nil, List.sum_cons, List.sum_nil, hfirst,
      hgd.length_eq, List.length_cons, List.length_nil]
    have hval : ∀ x : Int, x = s → wrapInt64 x = s :=
      fun x hx => hx ▸ wrapInt64_of_range s hs1 hs2
    apply hval
    push_cast
    ring

/-- Witness of the amended C14: three files of five bytes, the third with
another CRC-32. -/
theorem two_of_three_grouped_witness :
    ∃ out, detect (CRC32Hash threeFiles) id
        [candidate "/d/a" 5, candidate "/d/a2" 5, candidate "/d/b" 5] zeroStats = some out ∧
      (∃ g, out.hm = [(hexEncode (sumBytes (crcUpdate 0xedb88320 0 [0, 0, 0, 0, 0])), g)] ∧
        g.Perm [setHash (hexEncode (sumBytes (crcUpdate 0xedb88320 0 [0, 0, 0, 0, 0])))
                  (mark (candidate "/d/a" 5)),
                setHash (hexEncode (sumBytes (crcUpdate 0xedb88320 0 [0, 0, 0, 0, 0])))
                  (mark (candidate "/d/a2" 5))]) ∧
      (∀ e ∈ out.hm, ∀ x ∈ e.2, x.Path ≠ (candidate "/d/b" 5).Path) ∧
      out.stat.DuplicateFiles = 2 ∧ out.stat.WastedSpace = 5 :=
  two_of_three_grouped threeFiles id
    [candidate "/d/a" 5, candidate "/d/a2" 5, candidate "/d/b" 5] zeroStats
    (candidate "/d/a" 5) (candidate "/d/a2" 5) (candidate "/d/b" 5) 5
    [0, 0, 0, 0, 0] [1, 2, 3, 4, 5]
    (fun m => List.Perm.refl m) (List.Perm.refl _) rfl rfl rfl rfl rfl rfl
    (by decide) (by decide) (by decide) (by decide) (by decide) (by decide) rfl rfl

/-- C16. For every file that can be read, the empty file included,
`CRC32Hash` returns without error a digest of exactly eight characters, all
among `0-9a-f`, which read as a number in base 16, most significant digit
first, is the 32-bit CRC of polynomial `0xedb88320` of the whole contents,
as the division bit by bit gives it: it is the hex encoding of the four
bytes of the CRC, most significant first. The digest of the empty contents
is `00000000`. -/
theorem CRC32Hash_digest (readFile : String → Option (List Byte)) (filePath : String)
    (contents : List Byte) (h : readFile filePath = some contents) :
    ∃ d, CRC32Hash readFile filePath = some d ∧
      d.length = 8 ∧
      (∀ ch ∈ d.data, ch ∈ "0123456789abcdef".data) ∧
      hexNumber d = crc32Bitwise 0xedb88320 contents ∧
      crc32Bitwise 0xedb88320 contents < 2 ^ 32 ∧
      d = hexEncode (sumBytes (crcUpdate 0xedb88320 0 contents)) ∧
      crcUpdate 0xedb88320 0 contents = crc32Bitwise 0xedb88320 contents ∧
      crcUpdate 0xedb88320 0 contents < 2 ^ 32 ∧
      (sumBytes (crcUpdate 0xedb88320 0 contents)).map (fun b => b.val)
        = [crcUpdate 0xedb88320 0 contents / 2 ^ 24 % 256,
           crcUpdate 0xedb88320 0 contents / 2 ^ 16 % 256,
           crcUpdate 0xedb88320 0 contents / 2 ^ 8 % 256,
           crcUpdate 0xedb88320 0 contents % 256] ∧
      crcUpdate 0xedb88320 0 contents
        = (crcUpdate 0xedb88320 0 contents / 2 ^ 24 % 256) * 2 ^ 24 +
          (crcUpdate 0xedb88320 0 contents / 2 ^ 16 % 256) * 2 ^ 16 +
          (crcUpdate 0xedb88320 0 contents / 2 ^ 8 % 256) * 2 ^ 8 +
          crcUpdate 0xedb88320 0 contents % 256 ∧
      (contents = [] → d = "00000000") := by
  have hcrc : CRC32Hash readFile filePath
      = some (hexEncode (sumBytes (crcUpdate 0xedb88320 0 contents))) := by
    simp [CRC32Hash, h]
  have hlt := crcUpdate_lt 0xedb88320 0 contents (by norm_num) (by norm_num)
  have hbit := crcUpdate_eq_bitwise 0xedb88320 contents
  have hnum := hexNumber_digest _ hlt
  refine ⟨_, hcrc, CRC32Hash_length readFile filePath _ hcrc, hexEncode_chars _,
    hnum.trans hbit, hbit ▸ hlt, rfl, hbit, hlt, sumBytes_vals _, ?_, ?_⟩
  · generalize crcUpdate 0xedb88320 0 contents = crc at hlt
    omega
  · intro he
    rw [he]
    decide

/-- Witness of C16: the contents `123456789`, whose CRC-32 is `cbf43926`. -/
theorem CRC32Hash_digest_witness :
    CRC32Hash (fun _ => some [49, 50, 51, 52, 53, 54, 55, 56, 57]) "/d/check"
      = some "cbf43926" ∧
    ∃ d, CRC32Hash (fun _ => some [49, 50, 51, 52, 53, 54, 55, 56, 57]) "/d/check" = some d ∧
      d.length = 8 ∧
      (∀ ch ∈ d.data, ch ∈ "0123456789abcdef".data) ∧
      hexNumber d = crc32Bitwise 0xedb88320 [49, 50, 51, 52, 53, 54, 55, 56, 57] ∧
      crc32Bitwise 0xedb88320 [49, 50, 51, 52, 53, 54, 55, 56, 57] < 2 ^ 32 ∧
      d = hexEncode (sumBytes (crcUpdate 0xedb88320 0 [49, 50, 51, 52, 53, 54, 55, 56, 57])) ∧
      crcUpdate 0xedb88320 0 [49, 50, 51, 52, 53, 54, 55, 56, 57]
        = crc32Bitwise 0xedb88320 [49, 50, 51, 52, 53, 54, 55, 56, 57] ∧
      crcUpdate 0xedb88320 0 [49, 50, 51, 52, 53, 54, 55, 56, 57] < 2 ^ 32 ∧
      (sumBytes (crcUpdate 0xedb88320 0 [49, 50, 51, 52, 53, 54, 55, 56, 57])).map
          (fun b => b.val)
        = [crcUpdate 0xedb88320 0 [49, 50, 51, 52, 53, 54, 55, 56, 57] / 2 ^ 24 % 256,
           crcUpdate 0xedb88320 0 [49, 50, 51, 52, 53, 54, 55, 56, 57] / 2 ^ 16 % 256,
           crcUpdate 0xedb88320 0 [49, 50, 51, 52, 53, 54, 55, 56, 57] / 2 ^ 8 % 256,
           crcUpdate 0xedb88320 0 [49, 50, 51, 52, 53, 54, 55, 56, 57] % 256] ∧
      crcUpdate 0xedb88320 0 [49, 50, 51, 52, 53, 54, 55, 56, 57]
        = (crcUpdate 0xedb88320 0 [49, 50, 51, 52, 53, 54, 55, 56, 57] / 2 ^ 24 % 256) * 2 ^ 24 +
          (crcUpdate 0xedb88320 0 [49, 50, 51, 52, 53, 54, 55, 56, 57] / 2 ^ 16 % 256) * 2 ^ 16 +
          (crcUpdate 0xedb88320 0 [49, 50, 51, 52, 53, 54, 55, 56, 57] / 2 ^ 8 % 256) * 2 ^ 8 +
          crcUpdate 0xedb88320 0 [49, 50, 51, 52, 53, 54, 55, 56, 57] % 256 ∧
      (([49, 50, 51, 52, 53, 54, 55, 56, 57] : List Byte) = [] → d = "00000000") :=
  ⟨by decide,
    CRC32Hash_digest (fun _ => some [49, 50, 51, 52, 53, 54, 55, 56, 57]) "/d/check"
      [49, 50, 51, 52, 53, 54, 55, 56, 57] rfl⟩

/-- C20. For every `int64` value `b` the two byte formatters end without a
panic. Below the unit (negative values included) they print the integer and
index nothing. From the unit on, the loop ends, the exponent it leaves is at
most 5, so the index into the six unit characters is in range, and the
divisor is `unit ^ (exp + 1)` computed without overflow of `int64` and is no
larger than `b`. -/
theorem byte_formatters_index_safe (b : Int) (hb : b < 2 ^ 63) :
    (b < 1000 → ByteCountSI b = some (.bytes b)) ∧
    (1000 ≤ b → ∃ div exp c,
      (∀ fuel, 64 ≤ fuel → unitLoop 1000 fuel (b.tdiv 1000) 1000 0 = some (div, exp)) ∧
      exp ≤ 5 ∧ "kMGTPE".data[exp]? = some c ∧
      div = 1000 ^ (exp + 1) ∧ div < 2 ^ 63 ∧ div ≤ b ∧
      ByteCountSI b = some (.scaled b div c)) ∧
    (b < 1024 → ByteCountIEC b = some (.bytes b)) ∧
    (1024 ≤ b → ∃ div exp c,
      (∀ fuel, 64 ≤ fuel → unitLoop 1024 fuel (b.tdiv 1024) 1024 0 = some (div, exp)) ∧
      exp ≤ 5 ∧ "KMGTPE".data[exp]? = some c ∧
      div = 1024 ^ (exp + 1) ∧ div < 2 ^ 63 ∧ div ≤ b ∧
      ByteCountIEC b = some (.scaled b div c)) := by
  refine ⟨?_, ?_, ?_, ?_⟩
  · intro h
    simp [ByteCountSI, h]
  · intro h
    obtain ⟨div, exp, hloop, hd, hle, hlt⟩ :=
      unitLoop_start 1000 b (by norm_num) (by norm_num) h hb
    have hexp : exp ≤ 5 := exp_le_five 1000 exp (by norm_num) (by rw [← hd]; exact hlt)
    have hidx : ∃ c, "kMGTPE".data[exp]? = some c := by
      interval_cases exp <;> exact ⟨_, rfl⟩
    obtain ⟨c, hc⟩ := hidx
    refine ⟨div, exp, c, hloop, hexp, hc, hd, hlt, hle, ?_⟩
    have hnot : ¬ b < 1000 := by omega
    unfold ByteCountSI
    rw [if_neg hnot, hloop 64 (Nat.le_refl _)]
    simp only [hc]
  · intro h
    simp [ByteCountIEC, h]
  · intro h
    obtain ⟨div, exp, hloop, hd, hle, hlt⟩ :=
      unitLoop_start 1024 b (by norm_num) (by norm_num) h hb
    have hexp : exp ≤ 5 := exp_le_five 1024 exp (by norm_num) (by rw [← hd]; exact hlt)
    have hidx : ∃ c, "KMGTPE".data[exp]? = some c := by
      interval_cases exp <;> exact ⟨_, rfl⟩
    obtain ⟨c, hc⟩ := hidx
    refine ⟨div, exp, c, hloop, hexp, hc, hd, hlt, hle, ?_⟩
    have hnot : ¬ b < 1024 := by omega
    unfold ByteCountIEC
    rw [if_neg hnot, hloop 64 (Nat.le_refl _)]
    simp only [hc]

/-- Witness of C20: the largest `int64`. -/
theorem byte_formatters_index_safe_witness :
    ((2 : Int) ^ 63 - 1 < 1000 → ByteCountSI (2 ^ 63 - 1) = some (.bytes (2 ^ 63 - 1))) ∧
    (1000 ≤ (2 : Int) ^ 63 - 1 → ∃ div exp c,
      (∀ fuel, 64 ≤ fuel →
        unitLoop 1000 fuel (((2 : Int) ^ 63 - 1).tdiv 1000) 1000 0 = some (div, exp)) ∧
      exp ≤ 5 ∧ "kMGTPE".data[exp]? = some c ∧
      div = 1000 ^ (exp + 1) ∧ div < 2 ^ 63 ∧ div ≤ 2 ^ 63 - 1 ∧
      ByteCountSI (2 ^ 63 - 1) = some (.scaled (2 ^ 63 - 1) div c)) ∧
    ((2 : Int) ^ 63 - 1 < 1024 → ByteCountIEC (2 ^ 63 - 1) = some (.bytes (2 ^ 63 - 1))) ∧
    (1024 ≤ (2 : Int) ^ 63 - 1 → ∃ div exp c,
      (∀ fuel, 64 ≤ fuel →
        unitLoop 1024 fuel (((2 : Int) ^ 63 - 1).tdiv 1024) 1024 0 = some (div, exp)) ∧
      exp ≤ 5 ∧ "KMGTPE".data[exp]? = some c ∧
      div = 1024 ^ (exp + 1) ∧ div < 2 ^ 63 ∧ div ≤ 2 ^ 63 - 1 ∧
      ByteCountIEC (2 ^ 63 - 1) = some (.scaled (2 ^ 63 - 1) div c)) :=
  byte_formatters_index_safe (2 ^ 63 - 1) (by norm_num)

/-- C13. The result does not depend on the order of discovery: for two
candidate slices that hold the same records in two orders, each in
descending order of size as the sort leaves it, and for any two iteration
orders of the map, the two runs end, their final maps have the same keys
and under each key the same members up to order, and `FilteredFiles`,
`DuplicateFiles` and `WastedSpace` are equal. -/
theorem result_independent_of_order (hash : String → Option String)
    (rangeOrder1 rangeOrder2 : HashMap → List (String × List File))
    (files1 files2 : List File) (stat : Stats)
    (hperm1 : ∀ m, (rangeOrder1 m).Perm m) (hperm2 : ∀ m, (rangeOrder2 m).Perm m)
    (hfiles : files1.Perm files2)
    (hsorted1 : files1.Pairwise (fun a b => a.Size ≥ b.Size))
    (hsorted2 : files2.Pairwise (fun a b => a.Size ≥ b.Size))
    (hr : stat.InRange) :
    ∃ out1 out2, detect hash rangeOrder1 files1 stat = some out1 ∧
      detect hash rangeOrder2 files2 stat = some out2 ∧
      (∀ k, (∃ g, (k, g) ∈ out1.hm) ↔ (∃ g, (k, g) ∈ out2.hm)) ∧
      (∀ k g1 g2, (k, g1) ∈ out1.hm → (k, g2) ∈ out2.hm → g1.Perm g2) ∧
      out1.stat.FilteredFiles = out2.stat.FilteredFiles ∧
      out1.stat.DuplicateFiles = out2.stat.DuplicateFiles ∧
      out1.stat.WastedSpace = out2.stat.WastedSpace := by
  have hd := bucket_dups_perm_of_perm hfiles
  have hs1 := bucket_dups_sorted files1 hsorted1
  have hs2 := bucket_dups_sorted files2 hsorted2
  have hsum := sums_eq_of_perm hash hd hs1 hs2
  refine ⟨_, _, detect_eq hash rangeOrder1 files1 stat hperm1 hr,
    detect_eq hash rangeOrder2 files2 stat hperm2 hr, ?_, ?_, ?_, ?_, ?_⟩
  · intro k
    have hk1 := mem_keys_survivors hash (bucketLoop files1).duplicateFiles k
    have hk2 := mem_keys_survivors hash (bucketLoop files2).duplicateFiles k
    rw [List.mem_map] at hk1 hk2
    constructor
    · rintro ⟨g, hg⟩
      have := hk1.mp ⟨(k, g), hg, rfl⟩
      rw [(members_perm hash k hd).length_eq] at this
      obtain ⟨e, he, hek⟩ := hk2.mpr this
      exact ⟨e.2, by rw [← hek]; exact he⟩
    · rintro ⟨g, hg⟩
      have := hk2.mp ⟨(k, g), hg, rfl⟩
      rw [← (members_perm hash k hd).length_eq] at this
      obtain ⟨e, he, hek⟩ := hk1.mpr this
      exact ⟨e.2, by rw [← hek]; exact he⟩
  · intro k g1 g2 h1 h2
    have e1 := ((mem_survivors_hashLoop _ _ _ _).mp h1).1
    have e2 := ((mem_survivors_hashLoop _ _ _ _).mp h2).1
    rw [e1, e2]
    exact members_perm hash k hd
  · show wrapUint64 files1.length = wrapUint64 files2.length
    rw [hfiles.length_eq]
  · show wrapUint64 (stat.DuplicateFiles + _) = wrapUint64 (stat.DuplicateFiles + _)
    rw [hsum.1]
  · show wrapInt64 (stat.WastedSpace + _) = wrapInt64 (stat.WastedSpace + _)
    rw [hsum.2]

/-- Witness of C13: four files, of which one of 20 bytes and one of 10 bytes
have the same digest, in two orders. -/
theorem result_independent_of_order_witness :
    ∃ out1 out2, detect crossSizeHash id
        [candidate "/d/c" 20, candidate "/d/d" 20, candidate "/d/a" 10, candidate "/d/b" 10]
        zeroStats = some out1 ∧
      detect crossSizeHash List.reverse
        [candidate "/d/d" 20, candidate "/d/c" 20, candidate "/d/b" 10, candidate "/d/a" 10]
        zeroStats = some out2 ∧
      (∀ k, (∃ g, (k, g) ∈ out1.hm) ↔ (∃ g, (k, g) ∈ out2.hm)) ∧
      (∀ k g1 g2, (k, g1) ∈ out1.hm → (k, g2) ∈ out2.hm → g1.Perm g2) ∧
      out1.stat.FilteredFiles = out2.stat.FilteredFiles ∧
      out1.stat.DuplicateFiles = out2.stat.DuplicateFiles ∧
      out1.stat.WastedSpace = out2.stat.WastedSpace :=
  result_independent_of_order crossSizeHash id List.reverse
    [candidate "/d/c" 20, candidate "/d/d" 20, candidate "/d/a" 10, candidate "/d/b" 10]
    [candidate "/d/d" 20, candidate "/d/c" 20, candidate "/d/b" 10, candidate "/d/a" 10]
    zeroStats (fun m => List.Perm.refl m) (fun m => List.reverse_perm m)
    (by decide) (by decide) (by decide) ⟨by decide, by decide, by decide⟩

end Dedup
